import Mathlib

/-!
# openapi-map: the type-expression parser and the tree builder of `src/js/buildTree.js`

A shallow embedding of `buildTree.js`.

Modelling conventions.

* A JavaScript string is a Lean `String`; the functions work on its list of
  characters (`String.data`).  Every character the three regular expressions
  accept lies in the Basic Multilingual Plane, so the length of a capture is
  the same counted in UTF-16 code units and in characters.
* A property that may be `undefined` is an `Option`; `null` is not modelled.
* An exception is the `Except.error` branch of the result.
* The registry `openapiDocumentation` is a plain object: its own properties
  are an association list from type names to entries, and the read
  `openapiDocumentation[k]` gives the entry under `k` or, when there is none,
  the member of `Object.prototype` of that name (`constructor`, `toString`,
  ...), if there is one.  The same holds for the reads of `mdUrls`.
-/

namespace OpenapiMap

/-! ## Exceptions -/

/-- What a call can throw: a string thrown by the code itself, a `TypeError`
of the runtime (a property read on `undefined`), and the exhaustion of the
recursion budget of the model (in JavaScript: a `RangeError` on stack
overflow). -/
inductive Err where
  | thrown (msg : String)
  | typeError
  | rangeError
  deriving DecidableEq, Repr

/-! ## Characters and built-in string functions -/

/-- The code points that ECMAScript calls WhiteSpace or LineTerminator: the
characters `\s` matches in a regular expression and `String.prototype.trim`
strips. -/
def isJsSpace (c : Char) : Bool :=
  let n := c.toNat
  n == 0x09 || n == 0x0A || n == 0x0B || n == 0x0C || n == 0x0D || n == 0x20 ||
  n == 0xA0 || n == 0x1680 || (0x2000 ≤ n && n ≤ 0x200A) || n == 0x2028 ||
  n == 0x2029 || n == 0x202F || n == 0x205F || n == 0x3000 || n == 0xFEFF

/-- The class `[a-zA-Z]`. -/
def isAsciiLetter (c : Char) : Bool :=
  let n := c.toNat
  (0x61 ≤ n && n ≤ 0x7A) || (0x41 ≤ n && n ≤ 0x5A)

/-- The character class `[a-zA-Z\s\*\|]` shared by the three regular
expressions. -/
def isNameChar (c : Char) : Bool :=
  isAsciiLetter c || isJsSpace c || c == '*' || c == '|'

/-- The built-in `String.prototype.trim`. -/
def trim (s : String) : String :=
  ⟨(s.data.dropWhile isJsSpace).rdropWhile isJsSpace⟩

/-! ## Regular expressions -/

/-- `ATOMIC_REGEX = /^[a-zA-Z\s\*\|]*$/`: whether the whole input consists of
name characters. -/
def ATOMIC_REGEX (s : List Char) : Bool :=
  s.all isNameChar

/-- `ARRAY_REGEX = /^\s*\[([a-zA-Z\s\*\|]*)\]\s*$/`: the capture group of the
match, if the input matches.  No character class of the expression contains a
bracket, so the greedy stars can stop at one place only. -/
def ARRAY_REGEX (s : List Char) : Option (List Char) :=
  match s.dropWhile isJsSpace with
  | [] => none
  | c :: r =>
    if c = '[' then
      match r.dropWhile isNameChar with
      | [] => none
      | d :: w =>
        if d = ']' ∧ w.all isJsSpace = true then some (r.takeWhile isNameChar) else none
    else none

/-- The optional comma `,?` of `MAP_REGEX`: greedy, it consumes a comma when
one is next. -/
def optComma : List Char → List Char
  | [] => []
  | c :: r => if c = ',' then r else c :: r

/-- `MAP_REGEX = /^\s*\{([a-zA-Z\s\*\|]*),?([a-zA-Z\s\*\|]*)\}\s*$/`: the two
capture groups of the match, if the input matches.  The first group is greedy
and takes the whole run of name characters after the brace; the comma is taken
when present; the second group takes the next run. -/
def MAP_REGEX (s : List Char) : Option (List Char × List Char) :=
  match s.dropWhile isJsSpace with
  | [] => none
  | c :: r =>
    if c = '{' then
      let r2 := optComma (r.dropWhile isNameChar)
      match r2.dropWhile isNameChar with
      | [] => none
      | d :: w =>
        if d = '}' ∧ w.all isJsSpace = true then
          some (r.takeWhile isNameChar, r2.takeWhile isNameChar)
        else none
    else none

/-! ## Type-expression parser -/

/-- `MAP_DEFAULT_KEY`. -/
def MAP_DEFAULT_KEY : String := "name"

/-- `getOpenapiTypeName(openapiType)`. -/
def getOpenapiTypeName (openapiType : String) : Except Err String :=
  if ATOMIC_REGEX openapiType.data then
    .ok (trim openapiType)
  else
    match ARRAY_REGEX openapiType.data with
    | some m1 => .ok (trim ⟨m1⟩)
    | none =>
      match MAP_REGEX openapiType.data with
      | some (m1, m2) =>
        if m2.length > 0 then .ok (trim ⟨m2⟩) else .ok (trim ⟨m1⟩)
      | none => .error (.thrown ("Unexpected type format:" ++ openapiType))

/-- `isArray(type)`: `type.indexOf('[') >= 0`. -/
def isArray (type : String) : Bool :=
  type.data.contains '['

/-- `isMap(type)`: `type.indexOf('{') >= 0`. -/
def isMap (type : String) : Bool :=
  type.data.contains '{'

/-- The object `{key, type}` that `getMapType` returns. -/
structure MapType where
  key : String
  type : String
  deriving DecidableEq, Repr

/-- `getMapType(type)`. -/
def getMapType (type : String) : Except Err MapType :=
  match MAP_REGEX type.data with
  | some (m1, m2) =>
    if m2.length > 0 then .ok { key := trim ⟨m1⟩, type := trim ⟨m2⟩ }
    else .ok { key := trim MAP_DEFAULT_KEY, type := trim ⟨m1⟩ }
  | none => .error (.thrown ("Unexpected type format:" ++ type))

/-! ## The three shapes of a type expression -/

/-- A pure name: letters (`a` to `z`, `A` to `Z`), whitespace, `*` and `|`
only. -/
def PureName (s : List Char) : Prop :=
  ∀ c ∈ s, isAsciiLetter c = true ∨ isJsSpace c = true ∨ c = '*' ∨ c = '|'

instance (s : List Char) : Decidable (PureName s) :=
  inferInstanceAs
    (Decidable (∀ c ∈ s, isAsciiLetter c = true ∨ isJsSpace c = true ∨ c = '*' ∨ c = '|'))

/-- A run of whitespace. -/
def Blank (s : List Char) : Prop :=
  ∀ c ∈ s, isJsSpace c = true

instance (s : List Char) : Decidable (Blank s) :=
  inferInstanceAs (Decidable (∀ c ∈ s, isJsSpace c = true))

/-- The atomic shape, the strings `ATOMIC_REGEX` describes: a pure name. -/
def AtomicShape (t : String) : Prop :=
  PureName t.data

/-- The array shape, the strings `ARRAY_REGEX` describes: `[` pure name `]`,
with optional whitespace before and after. -/
def ArrayShape (t : String) : Prop :=
  ∃ w1 x w2 : List Char, Blank w1 ∧ PureName x ∧ Blank w2 ∧
    t.data = w1 ++ '[' :: (x ++ ']' :: w2)

/-- The map shape, the strings `MAP_REGEX` describes: `{` pure name, optional
comma, pure name `}`, with optional whitespace before and after. -/
def MapShape (t : String) : Prop :=
  ∃ (w1 k : List Char) (comma : Bool) (x w2 : List Char),
    Blank w1 ∧ PureName k ∧ PureName x ∧ Blank w2 ∧
    t.data = w1 ++ '{' :: (k ++ ((if comma then [','] else []) ++ (x ++ '}' :: w2)))

/-! ## Built-in string functions used by the HTML post-processing -/

/-- Whether `pat` starts `s`. -/
def startsWith : List Char → List Char → Bool
  | [], _ => true
  | _ :: _, [] => false
  | p :: ps, c :: cs => p == c && startsWith ps cs

/-- The replacement text of one match (`GetSubstitution` for a pattern without
capture groups): `$$` is a dollar sign, `$&` the match, a dollar sign before a
backtick the text before the match, a dollar sign before an apostrophe the
text after it; every other character stands for itself. -/
def expandTemplate (matched before after : List Char) : List Char → List Char
  | [] => []
  | [c] => [c]
  | c :: d :: r =>
    if c = '$' then
      if d = '$' then '$' :: expandTemplate matched before after r
      else if d = '&' then matched ++ expandTemplate matched before after r
      else if d = Char.ofNat 96 then before ++ expandTemplate matched before after r
      else if d = Char.ofNat 39 then after ++ expandTemplate matched before after r
      else c :: expandTemplate matched before after (d :: r)
    else c :: expandTemplate matched before after (d :: r)

/-- The loop of `replaceAll`: `skip` counts the characters of the current
match still to be dropped, `before` is the input read so far, reversed. -/
def replaceAllLoop (pat tmpl : List Char) : Nat → List Char → List Char → List Char
  | _, _, [] => []
  | skip + 1, before, c :: s => replaceAllLoop pat tmpl skip (c :: before) s
  | 0, before, c :: s =>
    if startsWith pat (c :: s) then
      expandTemplate pat before.reverse ((c :: s).drop pat.length) tmpl ++
        replaceAllLoop pat tmpl (pat.length - 1) (c :: before) s
    else c :: replaceAllLoop pat tmpl 0 (c :: before) s

/-- The built-in `s.replace(/pat/g, tmpl)` for a regular expression that is a
non-empty literal text: every occurrence of `pat`, found left to right without
overlap, is replaced by the expansion of `tmpl`. -/
def replaceAll (s pat tmpl : String) : String :=
  ⟨replaceAllLoop pat.data tmpl.data 0 [] s.data⟩

/-- The built-in `toLowerCase` on one character, for the characters whose
lower case is an ASCII letter: the letters `A` to `Z` and the Kelvin sign
U+212A, whose lower case is `k`.  The case mapping of the other characters,
which gives no ASCII character, is not modelled. -/
def toLowerChar (c : Char) : Char :=
  if 0x41 ≤ c.toNat ∧ c.toNat ≤ 0x5A then Char.ofNat (c.toNat + 32)
  else if c.toNat = 0x212A then 'k'
  else c

/-- The built-in `toLowerCase`, exact on the strings whose lower case is made
of ASCII characters. -/
def toLowerCase (s : String) : String :=
  ⟨s.data.map toLowerChar⟩

/-! ## Anchors, documentation URLs and HTML post-processing -/

/-- `getAnchorForType(openapiType)`. -/
def getAnchorForType (openapiType : String) : Except Err String := do
  let name ← getOpenapiTypeName openapiType
  let typeName := name.data.filter (fun c => c != ' ')
  pure ⟨(typeName.take 1).map toLowerChar ++ typeName.drop 1⟩

/-- `getDocumentationUrl(openapiType, anchor, specificationUrl)`; `openapiType`
is `none` for `null`, `anchor` is `none` for `undefined`. -/
def getDocumentationUrl (openapiType : Option String) (anchor : Option String)
    (specificationUrl : String) : Except Err (Option String) :=
  match anchor with
  | some a => pure (some (specificationUrl ++ "#" ++ a))
  | none =>
    match openapiType with
    | some t => do
      let a ← getAnchorForType t
      pure (some (specificationUrl ++ "#" ++ a))
    | none => pure none

/-- The text of `specificationUrl` up to and including its last `/`
(`substring(0, lastIndexOf('/') + 1)`). -/
def specificationFolder (specificationUrl : String) : String :=
  ⟨(specificationUrl.data.reverse.dropWhile (fun c => c != '/')).reverse⟩

/-- `updateOpenAPIExampleLinks(html, specificationUrl)`. -/
def updateOpenAPIExampleLinks (html specificationUrl : String) : String :=
  if specificationUrl ≠ "" then
    replaceAll html "<a href=\".." ("<a href=\"" ++ specificationFolder specificationUrl ++ "..")
  else html

/-- `updateOpenAPIAnchors(html, specificationUrl)`. -/
def updateOpenAPIAnchors (html specificationUrl : String) : String :=
  if specificationUrl ≠ "" then
    replaceAll html "<a href=\"#" ("<a href=\"" ++ specificationUrl ++ "#")
  else html

/-- `addTargetBlankToURL(html)`. -/
def addTargetBlankToURL (html : String) : String :=
  replaceAll html "<a href=" "<a target=\"_blank\" href="

/-- `getHTMLFromMD(md, specificationUrl)`; `marked` is the markdown renderer
`markedFunc` of the host. -/
def getHTMLFromMD (marked : String → String) (md : Option String)
    (specificationUrl : String) : Option String :=
  match md with
  | some m =>
    some (addTargetBlankToURL
      (updateOpenAPIExampleLinks (updateOpenAPIAnchors (marked m) specificationUrl)
        specificationUrl))
  | none => none

/-! ## The registry -/

/-- An entry of `changelog.deletedProperties`. -/
structure DeletedProperty where
  name : Option String := none
  description : Option String := none
  see : Option String := none
  documentationUrl : Option String := none
  deriving DecidableEq, Repr

/-- An entry `{name, description}` of the lists `newProperties` and
`modifiedProperties`. -/
structure PropertyChange where
  name : Option String := none
  description : Option String := none
  deriving DecidableEq, Repr

/-- A changelog object, of a type definition or of a field. -/
structure Changelog where
  isNew : Option Bool := none
  isModified : Option Bool := none
  details : Option String := none
  deletedProperties : Option (List DeletedProperty) := none
  newProperties : Option (List PropertyChange) := none
  modifiedProperties : Option (List PropertyChange) := none
  deriving DecidableEq, Repr

/-- A field of a type definition, and what the code reads of any object it
treats as a field. -/
structure Field where
  name : Option String := none
  type : Option String := none
  description : Option String := none
  required : Option Bool := none
  changelog : Option Changelog := none
  noFollow : Option Bool := none
  additionalType : Option String := none
  values : Option (List String) := none
  md : Option String := none
  allowReference : Option Bool := none
  isMapItem : Option Bool := none
  deriving DecidableEq, Repr

/-- An entry of the registry.  The code reads it as a type definition and, for
the two reserved entries, as a field; `name`, `description` and `changelog`
are the same properties in both readings. -/
structure TypeDefinition extends Field where
  fields : Option (List Field) := none
  allowExtension : Option Bool := none
  fieldsGroup : Option Bool := none
  specificationAnchor : Option String := none
  deriving DecidableEq, Repr

/-- The registry `openapiDocumentation`. -/
abbrev Registry := List (String × TypeDefinition)

/-- An object of the registry: an entry or a field of an entry. -/
inductive ObjRef where
  | entry (key : String)
  | field (key : String) (index : Nat)
  deriving DecidableEq, Repr

/-- The field object handed to a node builder: an object of the registry, or
an object the builder made itself (the map item). -/
inductive FieldRef where
  | stored (r : ObjRef)
  | item (f : Field)
  deriving DecidableEq, Repr

/-- A reference to a changelog object: the `changelog` of an object of the
registry (shared with the registry), or an object made during the build. -/
inductive ChangelogRef where
  | ofObject (r : ObjRef)
  | fresh (c : Changelog)
  deriving DecidableEq, Repr

/-- The names of the members of `Object.prototype`.  A plain object inherits
them: a property read finds them when the object has no property of its own
under the name. -/
def objectPrototypeNames : List String :=
  ["constructor", "__defineGetter__", "__defineSetter__", "hasOwnProperty",
   "__lookupGetter__", "__lookupSetter__", "isPrototypeOf", "propertyIsEnumerable",
   "toString", "valueOf", "__proto__", "toLocaleString"]

/-- The entries the registry object holds itself (its own properties). -/
def Registry.own (doc : Registry) (key : String) : Option TypeDefinition :=
  List.lookup key doc

/-- The member of `Object.prototype` a read of `key` finds on a plain object
without a property of its own under that name, read as a type definition.  Of
the properties the builder reads on a definition (`name`, `description`,
`changelog`, `fields`, `allowExtension`, `fieldsGroup`, `specificationAnchor`)
a function has `name` alone, the name of the function (`Object` for
`constructor`); the object under `__proto__` has none. -/
def inheritedMember (key : String) : Option TypeDefinition :=
  if key = "constructor" then some { name := some "Object" }
  else if key = "__proto__" then some {}
  else if objectPrototypeNames.contains key then some { name := some key }
  else none

/-- `openapiDocumentation[key]`.  The registry is a plain object, so the read
gives the entry of the registry under `key` and, when it has none, the member
of `Object.prototype` of that name, if there is one. -/
def Registry.get (doc : Registry) (key : String) : Option TypeDefinition :=
  match doc.own key with
  | some e => some e
  | none => inheritedMember key

/-- The registry with `f` applied to the entry of `key`. -/
def Registry.modifyEntry (key : String) (f : TypeDefinition → TypeDefinition) :
    Registry → Registry
  | [] => []
  | (k, e) :: rest =>
    if k = key then (k, f e) :: rest else (k, e) :: Registry.modifyEntry key f rest

/-- The list with `g` applied to its element at `index` (an assignment to a
property of `fields[index]`). -/
def modifyAt {α : Type} (g : α → α) : Nat → List α → List α
  | _, [] => []
  | 0, a :: l => g a :: l
  | n + 1, a :: l => a :: modifyAt g n l

/-- The object a reference stands for, read as a field. -/
def Registry.readObject (doc : Registry) : ObjRef → Option Field
  | .entry key => (doc.get key).map (fun e => e.toField)
  | .field key index => (doc.get key).bind (fun e => e.fields.bind (fun fs => fs[index]?))

/-- The field object a `FieldRef` stands for, `none` for `undefined`. -/
def Registry.readField (doc : Registry) : FieldRef → Option Field
  | .stored r => doc.readObject r
  | .item f => some f

/-- An assignment to properties of the changelog object of an object of the
registry. -/
def Registry.modifyChangelog (doc : Registry) (r : ObjRef) (f : Changelog → Changelog) :
    Registry :=
  match r with
  | .entry key =>
    Registry.modifyEntry key (fun e => { e with changelog := e.changelog.map f }) doc
  | .field key index =>
    let g : Field → Field := fun fld => { fld with changelog := fld.changelog.map f }
    Registry.modifyEntry key (fun e => { e with fields := e.fields.map (modifyAt g index) }) doc

/-- JavaScript truthiness of an optional boolean. -/
def truthy : Option Bool → Bool
  | some b => b
  | none => false

/-- A property read on a value that may be `undefined`: a `TypeError` when it
is. -/
def defined {α : Type} : Option α → Except Err α
  | some a => .ok a
  | none => .error .typeError

/-! ## Registry accessor -/

/-- `allowExtension(openapiTypeDefinition)`. -/
def allowExtension (openapiTypeDefinition : TypeDefinition) : Bool :=
  match openapiTypeDefinition.allowExtension with
  | none => false
  | some b => b

/-- `allowReference(property)`. -/
def allowReference (property : Field) : Bool :=
  match property.allowReference with
  | none => false
  | some b => b

/-- `isFieldsGroup(openapiDocumentation, type)`. -/
def isFieldsGroup (openapiDocumentation : Registry) (type : Option String) :
    Except Err Bool := do
  let openapiTypeName ← getOpenapiTypeName (← defined type)
  match openapiDocumentation.get openapiTypeName with
  | none => pure false
  | some definition =>
    match definition.fieldsGroup with
    | none => pure false
    | some b => pure b

/-- `isOpenapiType(openapiDocumentation, type)`. -/
def isOpenapiType (openapiDocumentation : Registry) (type : Option String) :
    Except Err Bool := do
  let openapiTypeName ← getOpenapiTypeName (← defined type)
  match openapiDocumentation.get openapiTypeName with
  | none => pure false
  | some _ =>
    if ← isFieldsGroup openapiDocumentation type then pure false else pure true

/-- `isAtomicField(openapiDocumentation, field)`. -/
def isAtomicField (openapiDocumentation : Registry) (field : Field) : Except Err Bool :=
  match field.type with
  | none => pure false
  | some type => do
    let openapiTypeName ← getOpenapiTypeName type
    match openapiDocumentation.get openapiTypeName with
    | none => pure true
    | some _ => pure false

/-- The `for` loop of `getFields` over the fields from the current one on;
`getFieldsRec` is the recursive call. -/
def getFieldsLoop (getFieldsRec : Option TypeDefinition → Except Err (List Field))
    (openapiDocumentation : Registry) : List Field → Except Err (List Field)
  | [] => pure []
  | field :: rest => do
    let group ← isFieldsGroup openapiDocumentation field.type
    let head ←
      (if group then getFieldsRec (field.type.bind (fun t => openapiDocumentation.get t))
       else pure [field])
    let tail ← getFieldsLoop getFieldsRec openapiDocumentation rest
    pure (head ++ tail)

/-- `getFields(typeDefinition, openapiDocumentation)`, with a bound on the
depth of the recursion. -/
def getFields : Nat → Option TypeDefinition → Registry → Except Err (List Field)
  | 0, _, _ => .error .rangeError
  | fuel + 1, typeDefinition, openapiDocumentation => do
    let fields ← defined ((← defined typeDefinition).fields)
    getFieldsLoop (fun d => getFields fuel d openapiDocumentation) openapiDocumentation fields

/-- `getNewProperties(type, openapiDocumentation, specificationUrl)`. -/
def getNewProperties (marked : String → String) (fuel : Nat) (type : Option TypeDefinition)
    (openapiDocumentation : Registry) (specificationUrl : String) :
    Except Err (List PropertyChange) := do
  let fields ← getFields fuel type openapiDocumentation
  pure (fields.filterMap fun property =>
    if truthy (property.changelog.bind (fun c => c.isNew)) then
      some { name := property.name,
             description := getHTMLFromMD marked property.description specificationUrl }
    else none)

/-- `getModifiedProperties(type, openapiDocumentation, specificationUrl)`. -/
def getModifiedProperties (marked : String → String) (fuel : Nat)
    (type : Option TypeDefinition) (openapiDocumentation : Registry)
    (specificationUrl : String) : Except Err (List PropertyChange) := do
  let fields ← getFields fuel type openapiDocumentation
  pure (fields.filterMap fun property =>
    if truthy (property.changelog.bind (fun c => c.isModified)) then
      some { name := property.name,
             description :=
               getHTMLFromMD marked (property.changelog.bind (fun c => c.details))
                 specificationUrl }
    else none)

/-- The body of the `for` loop of `getDeletedProperties`: an entry with a
`see` gets its `documentationUrl`. -/
def resolveOne (specificationUrl : String) (p : DeletedProperty) :
    Except Err DeletedProperty :=
  match p.see with
  | some see => do
    let url ← getDocumentationUrl (some see) none specificationUrl
    pure { p with documentationUrl := url }
  | none => pure p

/-- The `for` loop of `getDeletedProperties`. -/
def resolveSee (specificationUrl : String) :
    List DeletedProperty → Except Err (List DeletedProperty)
  | [] => pure []
  | p :: rest => do
    let p1 ← resolveOne specificationUrl p
    let rest1 ← resolveSee specificationUrl rest
    pure (p1 :: rest1)

/-- `getDeletedProperties(type, specificationUrl)` for the entry `key` of the
registry: the list it returns and the registry after the assignments to the
entries of that list. -/
def getDeletedProperties (openapiDocumentation : Registry) (key : String)
    (specificationUrl : String) : Except Err (List DeletedProperty × Registry) := do
  let type ← defined (openapiDocumentation.get key)
  match type.changelog.bind (fun c => c.deletedProperties) with
  | some deleted => do
    let result ← resolveSee specificationUrl deleted
    pure (result, openapiDocumentation.modifyChangelog (.entry key)
      (fun c => { c with deletedProperties := some result }))
  | none => pure ([], openapiDocumentation)

/-- What a read of the object `mdUrls` gives: the text of a URL or, the object
being a plain object, the member of `Object.prototype` of the given name. -/
inductive MdUrl where
  | text (url : String)
  | inherited (name : String)
  deriving DecidableEq, Repr

/-- `mdUrls[key]`: the URLs of the markdown help pages. -/
def mdUrls (key : String) : Option MdUrl :=
  if key = "gfm" then
    some (.text "https://github.com/adam-p/markdown-here/wiki/Markdown-Cheatsheet")
  else if key = "commonmark" then some (.text "http://commonmark.org/help/")
  else if objectPrototypeNames.contains key then some (.inherited key)
  else none

/-- The object `{syntax, url}` that `getMd` returns. -/
structure Md where
  syntax_ : String
  url : Option MdUrl
  deriving DecidableEq, Repr

/-- `getMd(field)`. -/
def getMd (field : Field) : Option Md :=
  match field.md with
  | some m => if m ≠ "" then some { syntax_ := m, url := mdUrls (toLowerCase m) } else none
  | none => none

/-! ## What the builder never assigns

The builder writes four properties of objects of the registry: `details`,
`newProperties` and `modifiedProperties` of a changelog and
`documentationUrl` of a deleted-property entry.  The frame of an object is the
object without these four. -/

/-- A deleted-property entry without its `documentationUrl`. -/
def DeletedProperty.frame (p : DeletedProperty) : DeletedProperty :=
  { p with documentationUrl := none }

/-- A changelog without the properties the builder assigns. -/
def Changelog.frame (c : Changelog) : Changelog :=
  { c with
    details := none
    newProperties := none
    modifiedProperties := none
    deletedProperties := c.deletedProperties.map (List.map DeletedProperty.frame) }

/-- A field without the properties the builder assigns. -/
def Field.frame (f : Field) : Field :=
  { f with changelog := f.changelog.map Changelog.frame }

/-- A registry entry without the properties the builder assigns. -/
def TypeDefinition.frame (e : TypeDefinition) : TypeDefinition :=
  { e with
    toField := e.toField.frame
    fields := e.fields.map (List.map Field.frame) }

/-- A registry without the properties the builder assigns. -/
def Registry.frame (doc : Registry) : Registry :=
  doc.map (fun p => (p.1, p.2.frame))

/-! ## Nodes -/

/-- The properties of a node other than its children; a property the builder
never assigned is `none`. -/
structure NodeAttrs where
  name : Option String := none
  type : Option String := none
  definition : Option ObjRef := none
  typeDocumentationUrl : Option String := none
  typeDescription : Option String := none
  typeChangelog : Option ChangelogRef := none
  allowExtension : Option Bool := none
  isFieldsGroup : Option Bool := none
  isOpenapiType : Option Bool := none
  description : Option String := none
  changelog : Option ChangelogRef := none
  additionalType : Option String := none
  parentChangelog : Option ChangelogRef := none
  isArray : Option Bool := none
  isMap : Option Bool := none
  allowReference : Option Bool := none
  values : Option (List String) := none
  md : Option Md := none
  required : Option Bool := none
  isTechnical : Option Bool := none
  deriving DecidableEq, Repr

/-- A node of the tree; `closedChildren` is `none` on a node that has no such
property. -/
inductive Node where
  | mk (attrs : NodeAttrs) (closedChildren : Option (List Node))

mutual

/-- Equality of nodes is decidable. -/
def Node.decEq : (a b : Node) → Decidable (a = b)
  | .mk a c, .mk b d =>
    if h : a = b then
      match Node.decEqOption c d with
      | isTrue h2 => isTrue (by rw [h, h2])
      | isFalse h2 => isFalse (by intro e; cases e; exact h2 rfl)
    else isFalse (by intro e; cases e; exact h rfl)
/-- Equality of optional lists of nodes is decidable. -/
def Node.decEqOption : (a b : Option (List Node)) → Decidable (a = b)
  | none, none => isTrue rfl
  | some l, some m =>
    match Node.decEqList l m with
    | isTrue h => isTrue (by rw [h])
    | isFalse h => isFalse (by intro e; cases e; exact h rfl)
  | none, some _ => isFalse (by intro e; cases e)
  | some _, none => isFalse (by intro e; cases e)
/-- Equality of lists of nodes is decidable. -/
def Node.decEqList : (a b : List Node) → Decidable (a = b)
  | [], [] => isTrue rfl
  | x :: l, y :: m =>
    match Node.decEq x y with
    | isTrue h =>
      match Node.decEqList l m with
      | isTrue h2 => isTrue (by rw [h, h2])
      | isFalse h2 => isFalse (by intro e; cases e; exact h2 rfl)
    | isFalse h => isFalse (by intro e; cases e; exact h rfl)
  | [], _ :: _ => isFalse (by intro e; cases e)
  | _ :: _, [] => isFalse (by intro e; cases e)

end

instance : DecidableEq Node := Node.decEq

deriving instance DecidableEq for Except

/-- The properties of a node. -/
def Node.attrs : Node → NodeAttrs
  | .mk a _ => a

/-- The property `closedChildren` of a node. -/
def Node.closedChildren : Node → Option (List Node)
  | .mk _ c => c

/-- Assignments to properties of a node other than its children. -/
def Node.update (node : Node) (f : NodeAttrs → NodeAttrs) : Node :=
  match node with
  | .mk a c => .mk (f a) c

/-- `node.closedChildren.push(child)`. -/
def Node.push (node child : Node) : Except Err Node :=
  match node with
  | .mk a (some c) => .ok (.mk a (some (c ++ [child])))
  | .mk _ none => .error .typeError

/-- The reference `field.changelog` of the field object `ref`. -/
def changelogRefOf (ref : FieldRef) (field : Field) : Option ChangelogRef :=
  match field.changelog with
  | none => none
  | some c =>
    match ref with
    | .stored r => some (.ofObject r)
    | .item _ => some (.fresh c)

/-- An assignment `changelog.p = v` through a reference that is known to be
defined: it changes the registry when the object is shared with it. -/
def assignChangelog (doc : Registry) (f : Changelog → Changelog) :
    ChangelogRef → ChangelogRef × Registry
  | .ofObject r => (.ofObject r, doc.modifyChangelog r f)
  | .fresh c => (.fresh (f c), doc)

/-- The pattern `if (node.typeChangelog === undefined) node.typeChangelog = init
else node.typeChangelog.p = v`. -/
def attachList (doc : Registry) (typeChangelog : Option ChangelogRef) (init : Changelog)
    (f : Changelog → Changelog) : Option ChangelogRef × Registry :=
  match typeChangelog with
  | none => (some (.fresh init), doc)
  | some c => ((assignChangelog doc f c).1, (assignChangelog doc f c).2)

/-- The value a changelog reference stands for in a registry. -/
def ChangelogRef.read (doc : Registry) : ChangelogRef → Option Changelog
  | .ofObject r => (doc.readObject r).bind (fun f => f.changelog)
  | .fresh c => some c

/-- The assignment `node.changelog.details = getHTMLFromMD(node.changelog.details,
specificationUrl)` of `buildNodeFromArrayOrObjectField`, made when the
changelog and its details are defined: the reference `node.changelog` and the
registry after it. -/
def renderDetails (marked : String → String) (specificationUrl : String) (doc : Registry)
    (changelog : Option ChangelogRef) : Option ChangelogRef × Registry :=
  match changelog with
  | some c =>
    match (c.read doc).bind (fun v => v.details) with
    | some details =>
      ((some (assignChangelog doc
          (fun v => { v with details := getHTMLFromMD marked (some details) specificationUrl })
          c).1),
        (assignChangelog doc
          (fun v => { v with details := getHTMLFromMD marked (some details) specificationUrl })
          c).2)
    | none => (some c, doc)
  | none => (none, doc)

/-- The assignments of `buildNodeFromArrayOrObjectField` to the properties of
the node it got: `name`, `description`, `changelog`, `additionalType`,
`parentChangelog`, `isArray`, `allowReference`, `values`, `md`, `required`. -/
def stampField (marked : String → String) (specificationUrl : String) (field : Field)
    (type : String) (parentNode : Option Node) (changelog : Option ChangelogRef)
    (a : NodeAttrs) : NodeAttrs :=
  { a with
    name := field.name
    description := getHTMLFromMD marked field.description specificationUrl
    changelog := changelog
    additionalType :=
      match field.additionalType with
      | some t => some t
      | none => a.additionalType
    parentChangelog :=
      match parentNode with
      | some p => p.attrs.changelog
      | none => a.parentChangelog
    isArray := some (isArray type)
    allowReference := some (allowReference field)
    values := field.values
    md :=
      match getMd field with
      | some md => some md
      | none => a.md
    required := some (truthy field.required) }

/-- The loop `for (index ...) node.closedChildren.push(buildNodeFromField(...,
definition.fields[index], ...))` over the indices `indices`; `build` is the
call of `buildNodeFromField`. -/
def buildChildren (build : Registry → FieldRef → Except Err (Node × Registry))
    (key : String) : List Nat → Registry → Except Err (List Node × Registry)
  | [], doc => pure ([], doc)
  | index :: rest, doc => do
    let child ← build doc (.stored (.field key index))
    let children ← buildChildren build key rest child.2
    pure (child.1 :: children.1, children.2)

/-- The part of `buildNodeFromOpenapiType` before `if (withChildren)`: the type
name, the definition, the node without children and the registry after the
assignments to the changelog of the definition.  `fuel` bounds the recursion
of `getFields`. -/
def typeNodeWithoutChildren (marked : String → String) (fuel : Nat)
    (openapiDocumentation : Registry) (openapiType : Option String)
    (specificationUrl : String) :
    Except Err (String × TypeDefinition × Node × Registry) := do
  let openapiTypeName ← getOpenapiTypeName (← defined openapiType)
  let definition ← defined (openapiDocumentation.get openapiTypeName)
  let typeDocumentationUrl ←
    getDocumentationUrl (some openapiTypeName) definition.specificationAnchor
      specificationUrl
  let isFG ← isFieldsGroup openapiDocumentation openapiType
  let isOT ← isOpenapiType openapiDocumentation openapiType
  -- if (!node.name) node.name = node.type
  let name : Option String :=
    if definition.name = none ∨ definition.name = some "" then some openapiTypeName
    else definition.name
  let typeChangelog : Option ChangelogRef :=
    definition.changelog.map (fun _ => .ofObject (.entry openapiTypeName))
  -- node.typeChangelog.details = getHTMLFromMD(node.typeChangelog.details, ...)
  let doc1 : Registry :=
    match definition.changelog.bind (fun c => c.details) with
    | some details =>
      openapiDocumentation.modifyChangelog (.entry openapiTypeName)
        (fun c => { c with details := getHTMLFromMD marked (some details) specificationUrl })
    | none => openapiDocumentation
  let newProperties ←
    getNewProperties marked fuel (doc1.get openapiTypeName) doc1 specificationUrl
  let step2 : Option ChangelogRef × Registry :=
    if newProperties.length > 0 then
      attachList doc1 typeChangelog { newProperties := some newProperties }
        (fun c => { c with newProperties := some newProperties })
    else (typeChangelog, doc1)
  let modifiedProperties ←
    getModifiedProperties marked fuel (step2.2.get openapiTypeName) step2.2 specificationUrl
  let step3 : Option ChangelogRef × Registry :=
    if modifiedProperties.length > 0 then
      attachList step2.2 step2.1 { modifiedProperties := some modifiedProperties }
        (fun c => { c with modifiedProperties := some modifiedProperties })
    else step2
  let deleted ← getDeletedProperties step3.2 openapiTypeName specificationUrl
  let step5 : Option ChangelogRef × Registry :=
    if deleted.1.length > 0 then
      attachList deleted.2 step3.1 { deletedProperties := some deleted.1 }
        (fun c => { c with deletedProperties := some deleted.1 })
    else (step3.1, deleted.2)
  let attrs : NodeAttrs :=
    { name := name
      type := some openapiTypeName
      definition := some (.entry openapiTypeName)
      typeDocumentationUrl := typeDocumentationUrl
      typeDescription := getHTMLFromMD marked definition.description specificationUrl
      typeChangelog := step5.1
      allowExtension := some (allowExtension definition)
      isFieldsGroup := some isFG
      isOpenapiType := some isOT }
  pure (openapiTypeName, definition, Node.mk attrs (some []), step5.2)

/-- One technical child of `buildNodeFromOpenapiType`: when `cond` holds, the
node built from the registry entry `key`, read as a field and without a parent
node, is marked `isTechnical` and pushed. -/
def pushTechnicalChild (build : Registry → FieldRef → Except Err (Node × Registry))
    (cond : Bool) (key : String) (node : Node) (doc : Registry) :
    Except Err (Node × Registry) :=
  if cond then do
    let built ← build doc (.stored (.entry key))
    let node1 ← node.push (built.1.update (fun a => { a with isTechnical := some true }))
    pure (node1, built.2)
  else pure (node, doc)

/-- The two technical children of `buildNodeFromOpenapiType`: `build` is the
call of `buildNodeFromField` without a parent node; the extension child is
pushed when `ext` holds, then the reference child when `allowRef` holds. -/
def pushTechnicalChildren (build : Registry → FieldRef → Except Err (Node × Registry))
    (ext allowRef : Bool) (node : Node) (doc : Registry) : Except Err (Node × Registry) := do
  let step1 ← pushTechnicalChild build ext "Specification Extensions" node doc
  pushTechnicalChild build allowRef "Reference Object" step1.1 step1.2

/-! ## Tree builder -/

mutual

/-- `buildNodeFromOpenapiType(openapiDocumentation, openapiType,
specificationUrl, parentNode, withChildren, allowReference)`: the node and the
registry after the call.  The first argument bounds the depth of the
recursion.  The builders of the children read `parentNode.changelog` only, so
the node is handed to them as it is before the loop. -/
def buildNodeFromOpenapiType (marked : String → String) :
    Nat → Registry → Option String → String → Option Node → Bool → Bool →
    Except Err (Node × Registry)
  | 0, _, _, _, _, _, _ => .error .rangeError
  | fuel + 1, openapiDocumentation, openapiType, specificationUrl, _parentNode,
      withChildren, allowRef => do
    let header ←
      typeNodeWithoutChildren marked (fuel + 1) openapiDocumentation openapiType
        specificationUrl
    let openapiTypeName := header.1
    let definition := header.2.1
    let node := header.2.2.1
    if withChildren then
      let fields ← defined ((← defined (header.2.2.2.get openapiTypeName)).fields)
      let children ←
        buildChildren
          (fun doc ref => buildNodeFromField marked fuel doc ref specificationUrl (some node))
          openapiTypeName (List.range fields.length) header.2.2.2
      pushTechnicalChildren
        (fun doc ref => buildNodeFromField marked fuel doc ref specificationUrl none)
        (allowExtension definition) allowRef (Node.mk node.attrs (some children.1)) children.2
    else pure (node, header.2.2.2)

/-- `buildNodeFromField(openapiDocumentation, field, specificationUrl,
parentNode)`. -/
def buildNodeFromField (marked : String → String) :
    Nat → Registry → FieldRef → String → Option Node → Except Err (Node × Registry)
  | 0, _, _, _, _ => .error .rangeError
  | fuel + 1, openapiDocumentation, ref, specificationUrl, parentNode => do
    let field ← defined (openapiDocumentation.readField ref)
    let type ← defined field.type
    if isMap type then
      buildNodeFromMapField marked fuel openapiDocumentation ref specificationUrl parentNode
    else
      buildNodeFromArrayOrObjectField marked fuel openapiDocumentation ref specificationUrl
        parentNode

/-- `buildNodeFromMapField(openapiDocumentation, field, specificationUrl,
parentNode)`. -/
def buildNodeFromMapField (marked : String → String) :
    Nat → Registry → FieldRef → String → Option Node → Except Err (Node × Registry)
  | 0, _, _, _, _ => .error .rangeError
  | fuel + 1, openapiDocumentation, ref, specificationUrl, _parentNode => do
    let field ← defined (openapiDocumentation.readField ref)
    let type ← defined field.type
    if isMap type then
      let mapType ← getMapType type
      let isOT ← isOpenapiType openapiDocumentation (some mapType.type)
      let attrs : NodeAttrs :=
        { name := field.name
          type := some mapType.type
          description := getHTMLFromMD marked field.description specificationUrl
          changelog := changelogRefOf ref field
          allowReference := some false
          isMap := some true
          isArray := some false
          isOpenapiType := some isOT
          required := some (truthy field.required) }
      let node : Node := .mk attrs (some [])
      let mapItemField : Field :=
        { name := some ("\x7b" ++ mapType.key ++ "\x7d")
          type := some mapType.type
          description :=
            getHTMLFromMD marked
              (some ("A `" ++ field.name.getD "undefined" ++ "` map item"))
              specificationUrl
          isMapItem := some true
          allowReference := some (allowReference field) }
      let child ←
        buildNodeFromField marked fuel openapiDocumentation (.item mapItemField)
          specificationUrl (some node)
      let node1 ← node.push child.1
      pure (node1, child.2)
    else
      .error (.thrown ("field " ++ field.name.getD "undefined" ++ " is not a map"))

/-- `buildNodeFromArrayOrObjectField(openapiDocumentation, field,
specificationUrl, parentNode)`. -/
def buildNodeFromArrayOrObjectField (marked : String → String) :
    Nat → Registry → FieldRef → String → Option Node → Except Err (Node × Registry)
  | 0, _, _, _, _ => .error .rangeError
  | fuel + 1, openapiDocumentation, ref, specificationUrl, parentNode => do
    let field ← defined (openapiDocumentation.readField ref)
    let atomic ← isAtomicField openapiDocumentation field
    let built ←
      (if !atomic then
        buildNodeFromOpenapiType marked fuel openapiDocumentation field.type specificationUrl
          parentNode (if field.noFollow = some true then false else true)
          (allowReference field)
       else pure (Node.mk { type := field.type } none, openapiDocumentation))
    -- node.changelog = field.changelog, then the assignment to its details
    let rendered := renderDetails marked specificationUrl built.2 (changelogRefOf ref field)
    let type ← defined field.type
    pure (built.1.update (stampField marked specificationUrl field type parentNode rendered.1),
      rendered.2)

end

/-- `buildTree(openapiDocumentation, root, specificationUrl)`. -/
def buildTree (marked : String → String) (fuel : Nat) (openapiDocumentation : Registry)
    (root : String) (specificationUrl : String) : Except Err (Node × Registry) :=
  buildNodeFromOpenapiType marked fuel openapiDocumentation (some root) specificationUrl
    none true false

/-! ## Notions used in the statements -/


/-- The registry `singleRegistry` with a deleted property of `Root` whose `see`
reference is not a type expression. -/
def badSeeRegistry : Registry :=
  [("Root",
      { changelog := some
          { deletedProperties := some [{ name := some "old", see := some "Contact-Object" }] }
        fields := some [{ name := some "a", type := some "string", required := some true }] })]

/-- The registry `singleRegistry` with the field `a` of the type `constructor`,
for which the registry has no entry. -/
def constructorRegistry : Registry :=
  [("Root",
      { fields := some
          [{ name := some "a", type := some "constructor", required := some true }] })]

/-- The list `changelog.deletedProperties` of the entry `key` of a registry. -/
def Registry.deletedOf (doc : Registry) (key : String) : Option (List DeletedProperty) :=
  ((doc.get key).bind (fun e => e.changelog)).bind (fun c => c.deletedProperties)

/-- The registry `doc1` keeps the lists of deleted properties of `doc` that
are resolved for the specification URL `url`. -/
def KeepsResolved (url : String) (doc doc1 : Registry) : Prop :=
  ∀ k rs, doc.deletedOf k = some rs → resolveSee url rs = .ok rs → doc1.deletedOf k = some rs

/-- Modelled from the spec: the entry `q` is the deleted-property entry `p`
with its `documentationUrl` resolved for the specification URL `url`: the name,
the description and the `see` reference are those of `p`, and the
`documentationUrl` is `url + "#" + anchorForType(see)` when `p` has a `see`
reference, that of `p` otherwise. -/
def ResolvedEntry (url : String) (p q : DeletedProperty) : Prop :=
  q.name = p.name ∧ q.description = p.description ∧ q.see = p.see ∧
  match p.see with
  | some s => ∃ a, getAnchorForType s = .ok a ∧ q.documentationUrl = some (url ++ "#" ++ a)
  | none => q.documentationUrl = p.documentationUrl


/-- A registry with a type whose second field is an array of a fields group:
`groupRegistry` with the type of the field `g` written `[Group]`. -/
def arrayGroupRegistry : Registry :=
  [("Root",
      { fields := some
          [{ name := some "a", type := some "string" },
           { name := some "g", type := some "[Group]" },
           { name := some "b", type := some "string" }] }),
   ("Group",
      { fieldsGroup := some true
        fields := some [{ name := some "x", type := some "string" }] })]

/-- The registry `groupRegistry` with the type of the field `g` written with
a space before the name, ` Group`. -/
def spacedGroupRegistry : Registry :=
  [("Root",
      { fields := some
          [{ name := some "a", type := some "string" },
           { name := some "g", type := some " Group" },
           { name := some "b", type := some "string" }] }),
   ("Group",
      { fieldsGroup := some true
        fields := some [{ name := some "x", type := some "string" }] })]


/-- A registry whose root type has one map field, from a key `path` to values
of the unregistered type `string`. -/
def mapRegistry : Registry :=
  [("Root",
      { fields := some
          [{ name := some "paths", type := some "\x7bpath, string\x7d",
             allowReference := some true }] })]


/-- The number of occurrences of the text `pat` in a text (the positions at
which `pat` starts). -/
def countOcc (pat : List Char) : List Char → Nat
  | [] => 0
  | c :: s => (if startsWith pat (c :: s) then 1 else 0) + countOcc pat s

/-- The text `<a href=` that `addTargetBlankToURL` looks for. -/
def linkTag : List Char :=
  ['<', 'a', ' ', 'h', 'r', 'e', 'f', '=']

/-- The text `<a target="_blank" href=` that `addTargetBlankToURL` puts in its
place. -/
def blankLink : List Char :=
  ['<', 'a', ' ', 't', 'a', 'r', 'g', 'e', 't', '=', '"', '_', 'b', 'l', 'a', 'n', 'k', '"',
    ' ', 'h', 'r', 'e', 'f', '=']

/-- The attribute `target="_blank"`. -/
def blankTarget : List Char :=
  ['t', 'a', 'r', 'g', 'e', 't', '=', '"', '_', 'b', 'l', 'a', 'n', 'k', '"']


/-- Modelled on the words of the specification of the anchor: the text without
its space characters. -/
def withoutSpaces (s : List Char) : List Char :=
  s.filter (fun c => c != ' ')

/-- Modelled on the words of the specification of the anchor: the text with
its first character in lower case and the others unchanged. -/
def lowerFirst : List Char → List Char
  | [] => []
  | c :: r => toLowerChar c :: r


/-- The reference `node.typeChangelog` is a reference to the changelog of the
definition `key` or to an object made during the build. -/
def RefOk (key : String) (tc : Option ChangelogRef) : Prop :=
  ∀ r, tc = some (.ofObject r) → r = .entry key

/-- The node `child` is what `buildNodeFromField` returns for the declared
field `index` of the entry `key`, with the parent node `parent`, called
during a build that started from `doc` (the registry at the time of the call
has the frame of `doc`). -/
def BuiltFromField (marked : String → String) (fuel : Nat) (doc : Registry) (url : String)
    (key : String) (parent : Option Node) (index : Nat) (child : Node) : Prop :=
  ∃ d c, d.frame = doc.frame ∧
    buildNodeFromField marked fuel d (.stored (.field key index)) url parent = .ok c ∧
    c.1 = child

/-- The list `part` is what one technical child adds to the children: nothing
when `cond` is false, and else the node `buildNodeFromField` returns for the
registry entry `key` read as a field, without a parent node, marked
`isTechnical`. -/
def TechnicalPart (marked : String → String) (fuel : Nat) (doc : Registry) (url : String)
    (key : String) (cond : Bool) (part : List Node) : Prop :=
  (cond = false ∧ part = []) ∨
  (cond = true ∧ ∃ d b, d.frame = doc.frame ∧
    buildNodeFromField marked fuel d (.stored (.entry key)) url none = .ok b ∧
    part = [b.1.update (fun a => { a with isTechnical := some true })])

/-- The `see` references of the deleted properties of a definition are type
expressions `getOpenapiTypeName` accepts. -/
def SeeOk (d : TypeDefinition) : Prop :=
  ∀ c ds, d.changelog = some c → c.deletedProperties = some ds →
    ∀ p ∈ ds, ∀ s, p.see = some s → ∃ n, getOpenapiTypeName s = .ok n

/-! ## Registries used in the examples -/

/-- A registry with a type whose second field is of a fields group. -/
def groupRegistry : Registry :=
  [("Root",
      { fields := some
          [{ name := some "a", type := some "string" },
           { name := some "g", type := some "Group" },
           { name := some "b", type := some "string" }] }),
   ("Group",
      { fieldsGroup := some true
        fields := some [{ name := some "x", type := some "string" }] })]

/-- The node of a field `name` of the unregistered type `string`. -/
def stringLeaf (name : String) (required : Bool) : Node :=
  .mk { name := some name, type := some "string", isArray := some false,
        allowReference := some false, required := some required } none

/-- The tree `buildTree` returns for `groupRegistry`, the root `Root` and the
specification URL `https://spec`. -/
def groupTree : Node :=
  .mk { name := some "Root", type := some "Root", definition := some (.entry "Root"),
        typeDocumentationUrl := some "https://spec#root", allowExtension := some false,
        isFieldsGroup := some false, isOpenapiType := some true }
    (some
      [stringLeaf "a" false,
       .mk { name := some "g", type := some "Group", definition := some (.entry "Group"),
             typeDocumentationUrl := some "https://spec#group",
             allowExtension := some false, isFieldsGroup := some true,
             isOpenapiType := some false, isArray := some false,
             allowReference := some false, required := some false }
         (some [stringLeaf "x" false]),
       stringLeaf "b" false])

/-- A registry with the two reserved entries and a type that allows
extension. -/
def technicalRegistry : Registry :=
  [("Root",
      { allowExtension := some true
        fields := some [{ name := some "a", type := some "string", required := some true }] }),
   ("Specification Extensions", { name := some "^x-", type := some "Any" }),
   ("Reference Object", { name := some "$ref", type := some "string" })]

/-- The node `buildNodeFromOpenapiType` returns for `technicalRegistry` and the
type `Root`, with children and with `allowReference`. -/
def technicalTree : Node :=
  .mk { name := some "Root", type := some "Root", definition := some (.entry "Root"),
        typeDocumentationUrl := some "https://spec#root", allowExtension := some true,
        isFieldsGroup := some false, isOpenapiType := some true }
    (some
      [stringLeaf "a" true,
       .mk { name := some "^x-", type := some "Any", isArray := some false,
             allowReference := some false, required := some false,
             isTechnical := some true } none,
       .mk { name := some "$ref", type := some "string", isArray := some false,
             allowReference := some false, required := some false,
             isTechnical := some true } none])

/-- A registry whose root type has one required field of an unregistered
atomic type. -/
def singleRegistry : Registry :=
  [("Root",
      { fields := some [{ name := some "a", type := some "string", required := some true }] })]

/-- The tree `buildTree` returns for `singleRegistry` and the root `Root`. -/
def singleTree : Node :=
  .mk { name := some "Root", type := some "Root", definition := some (.entry "Root"),
        typeDocumentationUrl := some "https://spec#root", allowExtension := some false,
        isFieldsGroup := some false, isOpenapiType := some true }
    (some [stringLeaf "a" true])

/-- A markdown renderer for the examples: it wraps the text in a paragraph. -/
def paragraph (md : String) : String :=
  "<p>" ++ md ++ "</p>"

/-- A registry whose root type has a changelog with details and a deleted
property, and a new field with changelog details. -/
def changelogRegistry : Registry :=
  [("Root",
      { changelog := some
          { details := some "renamed"
            deletedProperties := some [{ name := some "old", see := some "Contact Object" }] }
        fields := some
          [{ name := some "a", type := some "string",
             changelog := some { isNew := some true, details := some "added" } }] })]

/-- The registry after `buildTree` on `changelogRegistry`. -/
def changelogRegistryAfter : Registry :=
  [("Root",
      { changelog := some
          { details := some "<p>renamed</p>"
            deletedProperties := some
              [{ name := some "old", see := some "Contact Object",
                 documentationUrl := some "https://spec#contactObject" }]
            newProperties := some [{ name := some "a" }] }
        fields := some
          [{ name := some "a", type := some "string",
             changelog := some { isNew := some true, details := some "<p>added</p>" } }] })]

/-- The registry after a second `buildTree`, on `changelogRegistryAfter`. -/
def changelogRegistryAfter2 : Registry :=
  [("Root",
      { changelog := some
          { details := some "<p><p>renamed</p></p>"
            deletedProperties := some
              [{ name := some "old", see := some "Contact Object",
                 documentationUrl := some "https://spec#contactObject" }]
            newProperties := some [{ name := some "a" }] }
        fields := some
          [{ name := some "a", type := some "string",
             changelog := some
               { isNew := some true, details := some "<p><p>added</p></p>" } }] })]

/-- The tree `buildTree` returns for `changelogRegistry`; its changelogs are
references to the changelog objects of the registry. -/
def changelogTree : Node :=
  .mk { name := some "Root", type := some "Root", definition := some (.entry "Root"),
        typeDocumentationUrl := some "https://spec#root",
        typeChangelog := some (.ofObject (.entry "Root")), allowExtension := some false,
        isFieldsGroup := some false, isOpenapiType := some true }
    (some
      [.mk { name := some "a", type := some "string",
             changelog := some (.ofObject (.field "Root" 0)), isArray := some false,
             allowReference := some false, required := some false } none])

/-- A registry whose root type has a new field `c` of the registered type
`Child`, which has a changelog and a field `x`. -/
def nestedRegistry : Registry :=
  [("Root",
      { fields := some
          [{ name := some "c", type := some "Child",
             changelog := some { isNew := some true } }] }),
   ("Child",
      { changelog := some { isModified := some true }
        fields := some [{ name := some "x", type := some "string" }] })]

/-- The tree `buildTree` returns for `nestedRegistry` and the root `Root`. -/
def nestedTree : Node :=
  .mk { name := some "Root", type := some "Root", definition := some (.entry "Root"),
        typeDocumentationUrl := some "https://spec#root",
        typeChangelog := some (.fresh { newProperties := some [{ name := some "c" }] }),
        allowExtension := some false, isFieldsGroup := some false,
        isOpenapiType := some true }
    (some
      [.mk { name := some "c", type := some "Child", definition := some (.entry "Child"),
             typeDocumentationUrl := some "https://spec#child",
             typeChangelog := some (.ofObject (.entry "Child")),
             allowExtension := some false, isFieldsGroup := some false,
             isOpenapiType := some true,
             changelog := some (.ofObject (.field "Root" 0)), isArray := some false,
             allowReference := some false, required := some false }
          (some [stringLeaf "x" false])])

/-! # Theorems -/

/-! ## The regular expressions -/

theorem isNameChar_iff (c : Char) :
    isNameChar c = true ↔
      (isAsciiLetter c = true ∨ isJsSpace c = true ∨ c = '*' ∨ c = '|') := by
  simp [isNameChar, or_assoc]

theorem pureName_iff_all (s : List Char) : PureName s ↔ s.all isNameChar = true := by
  simp [PureName, isNameChar_iff]

theorem pureName_iff (s : List Char) : PureName s ↔ ∀ c ∈ s, isNameChar c = true := by
  simp [PureName, isNameChar_iff]

theorem blank_iff_all (s : List Char) : Blank s ↔ s.all isJsSpace = true := by
  simp [Blank]

theorem isNameChar_of_isJsSpace {c : Char} (h : isJsSpace c = true) :
    isNameChar c = true := by
  simp [isNameChar, h]

theorem takeWhile_run {p : Char → Bool} (l : List Char) (c : Char) (r : List Char)
    (hl : ∀ a ∈ l, p a = true) (hc : p c = false) :
    (l ++ c :: r).takeWhile p = l := by
  rw [List.takeWhile_append_of_pos hl, List.takeWhile_cons_of_neg (by simp [hc])]
  simp

theorem dropWhile_run {p : Char → Bool} (l : List Char) (c : Char) (r : List Char)
    (hl : ∀ a ∈ l, p a = true) (hc : p c = false) :
    (l ++ c :: r).dropWhile p = c :: r := by
  rw [List.dropWhile_append_of_pos hl, List.dropWhile_cons_of_neg (by simp [hc])]

/-- A list splits into its longest run satisfying `p` and a rest that is empty
or starts with a character failing `p`. -/
theorem span_cases (p : Char → Bool) (s : List Char) :
    (∀ a ∈ s.takeWhile p, p a = true) ∧
    (s.dropWhile p = [] ∨ ∃ c r, s.dropWhile p = c :: r ∧ p c = false) := by
  refine ⟨fun a ha => List.mem_takeWhile_imp ha, ?_⟩
  cases h : s.dropWhile p with
  | nil => exact Or.inl rfl
  | cons c r =>
    refine Or.inr ⟨c, r, rfl, ?_⟩
    have := List.head_dropWhile_not p s (by simp [h])
    simpa [h] using this

/-- The array expression matches exactly the strings of the array shape, and
captures the name between the brackets. -/
theorem ARRAY_REGEX_eq_some_iff (s x : List Char) :
    ARRAY_REGEX s = some x ↔
      ∃ w1 w2 : List Char, Blank w1 ∧ PureName x ∧ Blank w2 ∧
        s = w1 ++ '[' :: (x ++ ']' :: w2) := by
  constructor
  · intro h
    unfold ARRAY_REGEX at h
    obtain ⟨hw1, _⟩ := span_cases isJsSpace s
    have hs := List.takeWhile_append_dropWhile isJsSpace s
    cases h1 : s.dropWhile isJsSpace with
    | nil => simp [h1] at h
    | cons c r =>
      rw [h1] at h hs
      simp only at h
      split at h
      · rename_i hc
        subst hc
        obtain ⟨hx, _⟩ := span_cases isNameChar r
        have hr := List.takeWhile_append_dropWhile isNameChar r
        cases h2 : r.dropWhile isNameChar with
        | nil => simp [h2] at h
        | cons d w =>
          rw [h2] at h hr
          simp only at h
          split at h
          · rename_i hd
            obtain ⟨hd1, hd2⟩ := hd
            subst hd1
            simp only [Option.some.injEq] at h
            subst h
            refine ⟨s.takeWhile isJsSpace, w, hw1, (pureName_iff _).2 hx,
              (blank_iff_all _).2 hd2, ?_⟩
            rw [hr, hs]
          · simp at h
      · simp at h
  · rintro ⟨w1, w2, hw1, hx, hw2, rfl⟩
    unfold ARRAY_REGEX
    rw [dropWhile_run w1 '[' _ hw1 (by decide)]
    simp only [if_true]
    rw [dropWhile_run x ']' w2 ((pureName_iff _).1 hx) (by decide),
      takeWhile_run x ']' w2 ((pureName_iff _).1 hx) (by decide)]
    simp [(blank_iff_all _).1 hw2]

/-- A map expression with a comma: the first group is the name before the
comma, the second the name after it. -/
theorem MAP_REGEX_comma (w1 k x w2 : List Char) (hw1 : Blank w1) (hk : PureName k)
    (hx : PureName x) (hw2 : Blank w2) :
    MAP_REGEX (w1 ++ '{' :: (k ++ ',' :: (x ++ '}' :: w2))) = some (k, x) := by
  unfold MAP_REGEX
  rw [dropWhile_run w1 '{' _ hw1 (by decide)]
  simp only [if_true]
  rw [dropWhile_run k ',' _ ((pureName_iff _).1 hk) (by decide),
    takeWhile_run k ',' _ ((pureName_iff _).1 hk) (by decide)]
  simp only [optComma, if_true]
  rw [dropWhile_run x '}' w2 ((pureName_iff _).1 hx) (by decide),
    takeWhile_run x '}' w2 ((pureName_iff _).1 hx) (by decide)]
  simp [(blank_iff_all _).1 hw2]

/-- A map expression without a comma: the first group is the whole name, the
second group is empty. -/
theorem MAP_REGEX_plain (w1 k w2 : List Char) (hw1 : Blank w1) (hk : PureName k)
    (hw2 : Blank w2) :
    MAP_REGEX (w1 ++ '{' :: (k ++ '}' :: w2)) = some (k, []) := by
  unfold MAP_REGEX
  rw [dropWhile_run w1 '{' _ hw1 (by decide)]
  simp only [if_true]
  rw [dropWhile_run k '}' _ ((pureName_iff _).1 hk) (by decide),
    takeWhile_run k '}' _ ((pureName_iff _).1 hk) (by decide)]
  have h1 : optComma ('}' :: w2) = '}' :: w2 := by
    simp only [optComma]; rw [if_neg (by decide)]
  rw [h1, List.dropWhile_cons_of_neg (by decide), List.takeWhile_cons_of_neg (by decide)]
  simp [(blank_iff_all _).1 hw2]

/-- What a match of the map expression says about the input. -/
theorem MAP_REGEX_some (s g1 g2 : List Char) (h : MAP_REGEX s = some (g1, g2)) :
    ∃ w1 w2 : List Char, Blank w1 ∧ PureName g1 ∧ PureName g2 ∧ Blank w2 ∧
      (s = w1 ++ '{' :: (g1 ++ ',' :: (g2 ++ '}' :: w2)) ∨
        (g2 = [] ∧ s = w1 ++ '{' :: (g1 ++ '}' :: w2))) := by
  unfold MAP_REGEX at h
  obtain ⟨hw1, _⟩ := span_cases isJsSpace s
  have hs := List.takeWhile_append_dropWhile isJsSpace s
  cases h1 : s.dropWhile isJsSpace with
  | nil => simp [h1] at h
  | cons c r =>
    rw [h1] at h hs
    simp only at h
    split at h
    · rename_i hc
      subst hc
      obtain ⟨hg1, hrest⟩ := span_cases isNameChar r
      have hr := List.takeWhile_append_dropWhile isNameChar r
      obtain ⟨hg2, _⟩ := span_cases isNameChar (optComma (r.dropWhile isNameChar))
      have hr2 := List.takeWhile_append_dropWhile isNameChar
        (optComma (r.dropWhile isNameChar))
      cases h2 : (optComma (r.dropWhile isNameChar)).dropWhile isNameChar with
      | nil => simp [h2] at h
      | cons d w =>
        rw [h2] at h hr2
        simp only at h
        split at h
        · rename_i hd
          obtain ⟨hd1, hd2⟩ := hd
          subst hd1
          simp only [Option.some.injEq, Prod.mk.injEq] at h
          obtain ⟨e1, e2⟩ := h
          refine ⟨s.takeWhile isJsSpace, w, hw1, ?_, ?_, (blank_iff_all _).2 hd2, ?_⟩
          · rw [← e1]; exact (pureName_iff _).2 hg1
          · rw [← e2]; exact (pureName_iff _).2 hg2
          · rcases hrest with h3 | ⟨c, r3, h3, hc⟩
            · rw [h3] at hr2
              simp [optComma] at hr2
            · rw [h3] at hr hr2 e2
              by_cases hcc : c = ','
              · subst hcc
                left
                simp only [optComma, if_true] at hr2 e2
                rw [← e1, ← e2, hr2, hr, hs]
              · right
                have h4 : optComma (c :: r3) = c :: r3 := by
                  simp only [optComma]; rw [if_neg hcc]
                rw [h4, List.takeWhile_cons_of_neg (by simp [hc])] at hr2 e2
                simp only [List.nil_append, List.cons.injEq] at hr2
                obtain ⟨e3, e4⟩ := hr2
                subst e3 e4
                refine ⟨e2.symm, ?_⟩
                rw [← e1, hr, hs]
        · simp at h
    · simp at h

/-- The map expression matches exactly the strings of the map shape. -/
theorem MAP_REGEX_isSome_iff (t : String) :
    (∃ g, MAP_REGEX t.data = some g) ↔ MapShape t := by
  constructor
  · rintro ⟨⟨g1, g2⟩, h⟩
    obtain ⟨w1, w2, hw1, hg1, hg2, hw2, h | ⟨_, h⟩⟩ := MAP_REGEX_some _ _ _ h
    · exact ⟨w1, g1, true, g2, w2, hw1, hg1, hg2, hw2, by simpa using h⟩
    · exact ⟨w1, g1, false, [], w2, hw1, hg1, by simp [PureName], hw2, by simpa using h⟩
  · rintro ⟨w1, k, comma, x, w2, hw1, hk, hx, hw2, h⟩
    cases comma
    · refine ⟨(k ++ x, []), ?_⟩
      have hkx : PureName (k ++ x) := by
        intro c hc
        rcases List.mem_append.1 hc with h1 | h1
        · exact hk c h1
        · exact hx c h1
      have := MAP_REGEX_plain w1 (k ++ x) w2 hw1 hkx hw2
      rw [h]
      simpa using this
    · refine ⟨(k, x), ?_⟩
      have := MAP_REGEX_comma w1 k x w2 hw1 hk hx hw2
      rw [h]
      simpa using this

/-- The array expression matches exactly the strings of the array shape. -/
theorem ARRAY_REGEX_isSome_iff (t : String) :
    (∃ x, ARRAY_REGEX t.data = some x) ↔ ArrayShape t := by
  constructor
  · rintro ⟨x, h⟩
    obtain ⟨w1, w2, h1, h2, h3, h4⟩ := (ARRAY_REGEX_eq_some_iff _ _).1 h
    exact ⟨w1, x, w2, h1, h2, h3, h4⟩
  · rintro ⟨w1, x, w2, h1, h2, h3, h4⟩
    exact ⟨x, (ARRAY_REGEX_eq_some_iff _ _).2 ⟨w1, w2, h1, h2, h3, h4⟩⟩

/-! ## The type-expression parser -/

theorem trim_mk_data (s : String) : trim ⟨s.data⟩ = trim s := rfl

theorem not_nameChar_of_mem {s : List Char} {c : Char} (hc : c ∈ s)
    (hn : isNameChar c = false) : ATOMIC_REGEX s = false := by
  unfold ATOMIC_REGEX
  rw [Bool.eq_false_iff]
  intro h
  rw [List.all_eq_true] at h
  simp [h c hc] at hn

/-- A string the map expression matches is neither atomic nor an array. -/
theorem not_atomic_not_array_of_map {s : List Char} {g : List Char × List Char}
    (h : MAP_REGEX s = some g) : ATOMIC_REGEX s = false ∧ ARRAY_REGEX s = none := by
  unfold MAP_REGEX at h
  cases h1 : s.dropWhile isJsSpace with
  | nil => simp [h1] at h
  | cons c r =>
    rw [h1] at h
    simp only at h
    split at h
    · rename_i hc
      subst hc
      constructor
      · refine not_nameChar_of_mem (c := '{') ?_ (by decide)
        have : '{' ∈ s.dropWhile isJsSpace := by rw [h1]; simp
        exact (List.dropWhile_sublist _).subset this
      · unfold ARRAY_REGEX
        rw [h1]
        simp only
        rw [if_neg (by decide)]
    · simp at h

/-- A string the array expression matches is not atomic and not a map. -/
theorem not_atomic_not_map_of_array {s x : List Char}
    (h : ARRAY_REGEX s = some x) : ATOMIC_REGEX s = false ∧ MAP_REGEX s = none := by
  unfold ARRAY_REGEX at h
  cases h1 : s.dropWhile isJsSpace with
  | nil => simp [h1] at h
  | cons c r =>
    rw [h1] at h
    simp only at h
    split at h
    · rename_i hc
      subst hc
      constructor
      · refine not_nameChar_of_mem (c := '[') ?_ (by decide)
        have : '[' ∈ s.dropWhile isJsSpace := by rw [h1]; simp
        exact (List.dropWhile_sublist _).subset this
      · unfold MAP_REGEX
        rw [h1]
        simp only
        rw [if_neg (by decide)]
    · simp at h

/-- An atomic string is not matched by the map expression. -/
theorem MAP_REGEX_none_of_atomic {s : List Char} (h : ATOMIC_REGEX s = true) :
    MAP_REGEX s = none := by
  cases hm : MAP_REGEX s with
  | none => rfl
  | some g =>
    have := (not_atomic_not_array_of_map hm).1
    rw [h] at this
    cases this

/-- The result of `getOpenapiTypeName` on a string the array expression
matches. -/
theorem getOpenapiTypeName_of_array {t : String} {x : List Char}
    (h : ARRAY_REGEX t.data = some x) : getOpenapiTypeName t = .ok (trim ⟨x⟩) := by
  unfold getOpenapiTypeName
  rw [(not_atomic_not_map_of_array h).1, h]
  simp

/-- The result of `getOpenapiTypeName` on an atomic string. -/
theorem getOpenapiTypeName_of_atomic {t : String} (h : PureName t.data) :
    getOpenapiTypeName t = .ok (trim t) := by
  unfold getOpenapiTypeName ATOMIC_REGEX
  rw [(pureName_iff_all _).1 h]
  simp

/-- C5: for pure names `K` and `X`, `getMapType` of `{X}` is the default key
`name` with the trimmed `X`, and `getMapType` of `{K, X}` is the trimmed `K`
with the trimmed `X`. -/
theorem getMapType_braces (K X : String) (hK : PureName K.data) (hX : PureName X.data) :
    getMapType ("\x7b" ++ X ++ "\x7d") = .ok { key := "name", type := trim X } ∧
    getMapType ("\x7b" ++ K ++ ", " ++ X ++ "\x7d") = .ok { key := trim K, type := trim X } := by
  constructor
  · have h := MAP_REGEX_plain [] X.data [] (by simp [Blank]) hX (by simp [Blank])
    have e : ("\x7b" ++ X ++ "\x7d").data = [] ++ '{' :: (X.data ++ '}' :: []) := by simp
    unfold getMapType
    rw [e, h]
    simp only [List.length_nil, gt_iff_lt, lt_self_iff_false, if_false, trim_mk_data]
    rfl
  · have hX2 : PureName (' ' :: X.data) := by
      intro c hc
      rcases List.mem_cons.1 hc with rfl | h1
      · right; left; decide
      · exact hX c h1
    have h := MAP_REGEX_comma [] K.data (' ' :: X.data) [] (by simp [Blank]) hK hX2
      (by simp [Blank])
    have e : ("\x7b" ++ K ++ ", " ++ X ++ "\x7d").data
        = [] ++ '{' :: (K.data ++ ',' :: ((' ' :: X.data) ++ '}' :: [])) := by simp
    unfold getMapType
    rw [e, h]
    have e2 : trim ⟨' ' :: X.data⟩ = trim X := by
      unfold trim
      rw [List.dropWhile_cons_of_pos (by decide)]
    simp [trim_mk_data, e2]

/-- C5 at `K = "key "`, `X = "Path Item Object"`. -/
theorem getMapType_braces_witness :
    getMapType ("\x7b" ++ "Path Item Object" ++ "\x7d")
      = .ok { key := "name", type := trim "Path Item Object" } ∧
    getMapType ("\x7b" ++ "key " ++ ", " ++ "Path Item Object" ++ "\x7d")
      = .ok { key := trim "key ", type := trim "Path Item Object" } :=
  getMapType_braces "key " "Path Item Object" (by decide) (by decide)

/-- C6: a string of letters, whitespace, `*` and `|` only takes the atomic
branch of `getOpenapiTypeName`, which returns the trimmed string. -/
theorem getOpenapiTypeName_atomic (t : String) (h : PureName t.data) :
    ATOMIC_REGEX t.data = true ∧ getOpenapiTypeName t = .ok (trim t) :=
  ⟨(pureName_iff_all _).1 h, getOpenapiTypeName_of_atomic h⟩

/-- C6 at `" Contact Object"`. -/
theorem getOpenapiTypeName_atomic_witness :
    ATOMIC_REGEX " Contact Object".data = true ∧
      getOpenapiTypeName " Contact Object" = .ok (trim " Contact Object") :=
  getOpenapiTypeName_atomic " Contact Object" (by decide)

/-- C7: for a pure name `X`, `isArray` holds of `[X]` and `getOpenapiTypeName`
of `[X]` is the trimmed `X`. -/
theorem getOpenapiTypeName_brackets (X : String) (hX : PureName X.data) :
    isArray ("[" ++ X ++ "]") = true ∧
      getOpenapiTypeName ("[" ++ X ++ "]") = .ok (trim X) := by
  have e : ("[" ++ X ++ "]").data = [] ++ '[' :: (X.data ++ ']' :: []) := by simp
  constructor
  · unfold isArray
    rw [e]
    simp
  · have h : ARRAY_REGEX ("[" ++ X ++ "]").data = some X.data := by
      rw [e]
      exact (ARRAY_REGEX_eq_some_iff _ _).2 ⟨[], [], by simp [Blank], hX, by simp [Blank], rfl⟩
    rw [getOpenapiTypeName_of_array h, trim_mk_data]

/-- C7 at `X = "Server Object "`. -/
theorem getOpenapiTypeName_brackets_witness :
    isArray ("[" ++ "Server Object " ++ "]") = true ∧
      getOpenapiTypeName ("[" ++ "Server Object " ++ "]") = .ok (trim "Server Object ") :=
  getOpenapiTypeName_brackets "Server Object " (by decide)

/-- C8: whenever `getMapType` succeeds on `t`, `getOpenapiTypeName` succeeds
on `t` with the `type` of that result; and on an array expression around the
name `x`, `getOpenapiTypeName` returns what it returns on `x` alone, the
trimmed `x`. -/
theorem getOpenapiTypeName_consistent (t : String) :
    (∀ m, getMapType t = .ok m → getOpenapiTypeName t = .ok m.type) ∧
    (∀ w1 x w2 : List Char, Blank w1 → PureName x → Blank w2 →
      t.data = w1 ++ '[' :: (x ++ ']' :: w2) →
      getOpenapiTypeName t = getOpenapiTypeName ⟨x⟩ ∧
        getOpenapiTypeName t = .ok (trim ⟨x⟩)) := by
  constructor
  · intro m hm
    unfold getMapType at hm
    cases h : MAP_REGEX t.data with
    | none => simp [h] at hm
    | some g =>
      obtain ⟨g1, g2⟩ := g
      obtain ⟨ha, hb⟩ := not_atomic_not_array_of_map h
      unfold getOpenapiTypeName
      rw [ha, hb, h]
      rw [h] at hm
      simp only at hm ⊢
      by_cases hl : g2.length > 0
      · rw [if_pos hl] at hm ⊢
        simp only [Bool.false_eq_true, if_false]
        cases hm
        rfl
      · rw [if_neg hl] at hm ⊢
        simp only [Bool.false_eq_true, if_false]
        cases hm
        rfl
  · intro w1 x w2 hw1 hx hw2 ht
    have h : ARRAY_REGEX t.data = some x :=
      (ARRAY_REGEX_eq_some_iff _ _).2 ⟨w1, w2, hw1, hx, hw2, ht⟩
    have hx2 : getOpenapiTypeName ⟨x⟩ = .ok (trim ⟨x⟩) :=
      getOpenapiTypeName_of_atomic (t := ⟨x⟩) hx
    rw [getOpenapiTypeName_of_array h, hx2]
    exact ⟨rfl, rfl⟩

/-- C8 at the map expression `{name, Header Object}` and the array expression
` [Tag Object]`. -/
theorem getOpenapiTypeName_consistent_witness :
    getOpenapiTypeName "\x7bname, Header Object\x7d" = .ok "Header Object" ∧
    getOpenapiTypeName " [Tag Object]" = getOpenapiTypeName "Tag Object" :=
  ⟨(getOpenapiTypeName_consistent "\x7bname, Header Object\x7d").1
      { key := "name", type := "Header Object" } rfl,
    ((getOpenapiTypeName_consistent " [Tag Object]").2 " ".data "Tag Object".data []
      (by decide) (by decide) (by decide) rfl).1⟩

/-- C9: `getOpenapiTypeName` throws exactly on the strings that have none of
the three shapes (atomic, array, map, as the three regular expressions describe
them), and returns a name on every string that has one of them. -/
theorem getOpenapiTypeName_throws_iff (t : String) :
    (getOpenapiTypeName t = .error (.thrown ("Unexpected type format:" ++ t)) ↔
      ¬ (AtomicShape t ∨ ArrayShape t ∨ MapShape t)) ∧
    ((AtomicShape t ∨ ArrayShape t ∨ MapShape t) ↔ ∃ n, getOpenapiTypeName t = .ok n) := by
  have key : (AtomicShape t ∨ ArrayShape t ∨ MapShape t) → ∃ n, getOpenapiTypeName t = .ok n := by
    rintro (h | h | h)
    · exact ⟨_, getOpenapiTypeName_of_atomic h⟩
    · obtain ⟨x, hx⟩ := (ARRAY_REGEX_isSome_iff t).2 h
      exact ⟨_, getOpenapiTypeName_of_array hx⟩
    · obtain ⟨⟨g1, g2⟩, hg⟩ := (MAP_REGEX_isSome_iff t).2 h
      obtain ⟨ha, hb⟩ := not_atomic_not_array_of_map hg
      unfold getOpenapiTypeName
      rw [ha, hb, hg]
      simp only [Bool.false_eq_true, if_false]
      by_cases hl : g2.length > 0
      · exact ⟨_, by rw [if_pos hl]⟩
      · exact ⟨_, by rw [if_neg hl]⟩
  have key2 : ¬ (AtomicShape t ∨ ArrayShape t ∨ MapShape t) →
      getOpenapiTypeName t = .error (.thrown ("Unexpected type format:" ++ t)) := by
    intro hn
    have h1 : ATOMIC_REGEX t.data = false := by
      rw [Bool.eq_false_iff]
      exact fun h => hn (Or.inl ((pureName_iff_all _).2 h))
    have h2 : ARRAY_REGEX t.data = none := by
      cases h : ARRAY_REGEX t.data with
      | none => rfl
      | some x => exact absurd (Or.inr (Or.inl ((ARRAY_REGEX_isSome_iff t).1 ⟨x, h⟩))) hn
    have h3 : MAP_REGEX t.data = none := by
      cases h : MAP_REGEX t.data with
      | none => rfl
      | some g => exact absurd (Or.inr (Or.inr ((MAP_REGEX_isSome_iff t).1 ⟨g, h⟩))) hn
    unfold getOpenapiTypeName
    rw [h1, h2, h3]
    simp
  refine ⟨⟨fun h hs => ?_, key2⟩, ⟨key, fun ⟨n, hn⟩ => ?_⟩⟩
  · obtain ⟨n, hn⟩ := key hs
    rw [hn] at h
    cases h
  · by_contra hs
    rw [key2 hs] at hn
    cases hn

/-- C10: `getMapType` throws exactly on the strings that do not have the map
shape, so on every atomic and on every array expression, and returns a result
on every string of the map shape. -/
theorem getMapType_throws_iff (t : String) :
    (getMapType t = .error (.thrown ("Unexpected type format:" ++ t)) ↔ ¬ MapShape t) ∧
    (MapShape t ↔ ∃ m, getMapType t = .ok m) ∧
    (AtomicShape t → getMapType t = .error (.thrown ("Unexpected type format:" ++ t))) ∧
    (ArrayShape t → getMapType t = .error (.thrown ("Unexpected type format:" ++ t))) := by
  have hnone : MAP_REGEX t.data = none →
      getMapType t = .error (.thrown ("Unexpected type format:" ++ t)) := by
    intro h
    unfold getMapType
    rw [h]
  have hsome : ∀ g, MAP_REGEX t.data = some g → ∃ m, getMapType t = .ok m := by
    rintro ⟨g1, g2⟩ h
    unfold getMapType
    rw [h]
    simp only
    by_cases hl : g2.length > 0
    · exact ⟨_, by rw [if_pos hl]⟩
    · exact ⟨_, by rw [if_neg hl]⟩
  refine ⟨⟨fun h hs => ?_, fun hs => ?_⟩, ⟨fun hs => ?_, fun ⟨m, hm⟩ => ?_⟩, fun ha => ?_,
    fun ha => ?_⟩
  · obtain ⟨g, hg⟩ := (MAP_REGEX_isSome_iff t).2 hs
    obtain ⟨m, hm⟩ := hsome g hg
    rw [hm] at h
    cases h
  · cases h : MAP_REGEX t.data with
    | none => exact hnone h
    | some g => exact absurd ((MAP_REGEX_isSome_iff t).1 ⟨g, h⟩) hs
  · obtain ⟨g, hg⟩ := (MAP_REGEX_isSome_iff t).2 hs
    exact hsome g hg
  · cases h : MAP_REGEX t.data with
    | none => rw [hnone h] at hm; cases hm
    | some g => exact (MAP_REGEX_isSome_iff t).1 ⟨g, h⟩
  · exact hnone (MAP_REGEX_none_of_atomic ((pureName_iff_all _).1 ha))
  · obtain ⟨x, hx⟩ := (ARRAY_REGEX_isSome_iff t).2 ha
    exact hnone (not_atomic_not_map_of_array hx).2

/-! ## Results of `Except` -/

theorem bind_eq_ok {α β : Type} (x : Except Err α) (f : α → Except Err β) (b : β) :
    (x >>= f) = .ok b ↔ ∃ a, x = .ok a ∧ f a = .ok b := by
  cases x with
  | error e => simp [bind, Except.bind]
  | ok a => simp [bind, Except.bind]

theorem defined_eq_ok {α : Type} (o : Option α) (a : α) : defined o = .ok a ↔ o = some a := by
  cases o <;> simp [defined]

/-! ## The frame of the registry -/

theorem modifyAt_frame (g : Field → Field) (hg : ∀ f, (g f).frame = f.frame) (i : Nat)
    (fs : List Field) : (modifyAt g i fs).map Field.frame = fs.map Field.frame := by
  induction fs generalizing i with
  | nil => cases i <;> rfl
  | cons a l ih =>
    cases i with
    | zero => simp [modifyAt, hg]
    | succ n => simp [modifyAt, ih]

theorem get_of_own {doc : Registry} {key : String} {e : TypeDefinition}
    (h : doc.own key = some e) : doc.get key = some e := by
  unfold Registry.get
  rw [h]

/-- A member of `Object.prototype`, read as a definition, has no changelog, no
fields and no `fieldsGroup`. -/
theorem inheritedMember_plain (key : String) (e : TypeDefinition)
    (h : inheritedMember key = some e) :
    e.changelog = none ∧ e.fields = none ∧ e.fieldsGroup = none ∧ e.frame = e := by
  unfold inheritedMember at h
  split at h
  · cases h
    exact ⟨rfl, rfl, rfl, rfl⟩
  · split at h
    · cases h
      exact ⟨rfl, rfl, rfl, rfl⟩
    · split at h
      · cases h
        exact ⟨rfl, rfl, rfl, rfl⟩
      · cases h

theorem inheritedMember_eq_none (key : String)
    (h : objectPrototypeNames.contains key = false) : inheritedMember key = none := by
  unfold inheritedMember
  have h1 : key ≠ "constructor" := by
    rintro rfl
    revert h
    decide
  have h2 : key ≠ "__proto__" := by
    rintro rfl
    revert h
    decide
  rw [if_neg h1, if_neg h2, h]
  rfl

/-- Under a name that is not the name of a member of `Object.prototype`, the
read of the registry gives its own entry. -/
theorem get_eq_own (doc : Registry) (key : String)
    (h : objectPrototypeNames.contains key = false) : doc.get key = doc.own key := by
  unfold Registry.get
  rw [inheritedMember_eq_none key h]
  cases doc.own key <;> rfl

theorem modifyEntry_frame_own (key : String) (g : TypeDefinition → TypeDefinition)
    (doc : Registry) (hg : ∀ e, doc.own key = some e → (g e).frame = e.frame) :
    (Registry.modifyEntry key g doc).frame = doc.frame := by
  induction doc with
  | nil => rfl
  | cons p rest ih =>
    obtain ⟨k, e⟩ := p
    unfold Registry.modifyEntry
    by_cases h : k = key
    · rw [if_pos h]
      have := hg e (by simp [Registry.own, List.lookup_cons, h])
      simp [Registry.frame, this]
    · rw [if_neg h]
      have h2 : (key == k) = false := by
        simp only [beq_eq_false_iff_ne, ne_eq]
        exact fun h3 => h h3.symm
      have := ih (fun e1 he1 => hg e1 (by
        simpa [Registry.own, List.lookup_cons, h2] using he1))
      simp only [Registry.frame, List.map_cons, List.cons.injEq, true_and] at this ⊢
      exact this

theorem modifyEntry_frame (key : String) (g : TypeDefinition → TypeDefinition)
    (doc : Registry) (hg : ∀ e, doc.get key = some e → (g e).frame = e.frame) :
    (Registry.modifyEntry key g doc).frame = doc.frame :=
  modifyEntry_frame_own key g doc (fun e he => hg e (get_of_own he))

/-- An assignment to the changelog of the entry `key` that keeps the frame of
that changelog keeps the frame of the registry. -/
theorem modifyChangelog_entry_frame (doc : Registry) (key : String)
    (f : Changelog → Changelog)
    (hf : ∀ e c, doc.get key = some e → e.changelog = some c → (f c).frame = c.frame) :
    (doc.modifyChangelog (.entry key) f).frame = doc.frame := by
  apply modifyEntry_frame
  intro e he
  simp only [TypeDefinition.frame, Field.frame]
  cases h : e.changelog with
  | none => simp
  | some c => simp [hf e c he h]

/-- An assignment to a changelog that keeps its frame keeps the frame of the
registry. -/
theorem modifyChangelog_frame (doc : Registry) (r : ObjRef) (f : Changelog → Changelog)
    (hf : ∀ c, (f c).frame = c.frame) : (doc.modifyChangelog r f).frame = doc.frame := by
  cases r with
  | entry key => exact modifyChangelog_entry_frame doc key f (fun _ c _ _ => hf c)
  | field key index =>
    apply modifyEntry_frame
    intro e _
    simp only [TypeDefinition.frame]
    cases h : e.fields with
    | none => simp
    | some fs =>
      simp only [Option.map_some']
      rw [modifyAt_frame]
      intro fld
      simp only [Field.frame]
      cases h2 : fld.changelog <;> simp [hf]

theorem own_frame (doc : Registry) (key : String) :
    doc.frame.own key = (doc.own key).map TypeDefinition.frame := by
  induction doc with
  | nil => rfl
  | cons p rest ih =>
    obtain ⟨k, e⟩ := p
    simp only [Registry.own, Registry.frame, List.map_cons, List.lookup_cons] at ih ⊢
    cases h : key == k
    · simpa using ih
    · simp

theorem get_frame (doc : Registry) (key : String) :
    doc.frame.get key = (doc.get key).map TypeDefinition.frame := by
  unfold Registry.get
  rw [own_frame]
  cases doc.own key with
  | some e => rfl
  | none =>
    simp only [Option.map_none']
    cases h : inheritedMember key with
    | none => rfl
    | some e => simp [(inheritedMember_plain key e h).2.2.2]

/-- Two registries with the same frame have the same keys, and entries with
the same frame. -/
theorem get_of_frame_eq {doc1 doc2 : Registry} (h : doc1.frame = doc2.frame) (key : String) :
    (doc1.get key).map TypeDefinition.frame = (doc2.get key).map TypeDefinition.frame := by
  rw [← get_frame, ← get_frame, h]

theorem assignChangelog_frame (doc : Registry) (f : Changelog → Changelog)
    (hf : ∀ c, (f c).frame = c.frame) (c : ChangelogRef) :
    (assignChangelog doc f c).2.frame = doc.frame := by
  cases c with
  | ofObject r => exact modifyChangelog_frame doc r f hf
  | fresh c => rfl

theorem attachList_frame (doc : Registry) (tc : Option ChangelogRef) (init : Changelog)
    (f : Changelog → Changelog) (hf : ∀ c, (f c).frame = c.frame) :
    (attachList doc tc init f).2.frame = doc.frame := by
  cases tc with
  | none => rfl
  | some c => exact assignChangelog_frame doc f hf c

theorem resolveOne_frame (url : String) (p p1 : DeletedProperty)
    (h : resolveOne url p = .ok p1) : p1.frame = p.frame := by
  unfold resolveOne at h
  cases hs : p.see with
  | none =>
    rw [hs] at h
    simp only [pure, Except.pure, Except.ok.injEq] at h
    rw [h]
  | some see =>
    rw [hs] at h
    obtain ⟨u, _, h⟩ := (bind_eq_ok _ _ _).1 h
    simp only [pure, Except.pure, Except.ok.injEq] at h
    subst h
    simp [DeletedProperty.frame, hs]

/-- The list `resolveSee` returns differs from its input in the property
`documentationUrl` only. -/
theorem resolveSee_frame (url : String) (ds rs : List DeletedProperty)
    (h : resolveSee url ds = .ok rs) :
    rs.map DeletedProperty.frame = ds.map DeletedProperty.frame := by
  induction ds generalizing rs with
  | nil =>
    simp only [resolveSee, pure, Except.pure, Except.ok.injEq] at h
    subst h
    rfl
  | cons p rest ih =>
    simp only [resolveSee] at h
    obtain ⟨p1, hp1, h⟩ := (bind_eq_ok _ _ _).1 h
    obtain ⟨rest1, hrest1, h⟩ := (bind_eq_ok _ _ _).1 h
    simp only [pure, Except.pure, Except.ok.injEq] at h
    subst h
    simp [resolveOne_frame url p p1 hp1, ih rest1 hrest1]

theorem own_modifyEntry (key : String) (g : TypeDefinition → TypeDefinition)
    (doc : Registry) :
    (Registry.modifyEntry key g doc).own key = (doc.own key).map g := by
  induction doc with
  | nil => rfl
  | cons p rest ih =>
    obtain ⟨k, e⟩ := p
    unfold Registry.modifyEntry
    by_cases h : k = key
    · rw [if_pos h]
      simp [Registry.own, List.lookup_cons, h]
    · rw [if_neg h]
      have h2 : (key == k) = false := by
        simp only [beq_eq_false_iff_ne, ne_eq]
        exact fun h3 => h h3.symm
      simp only [Registry.own, List.lookup_cons, h2] at ih ⊢
      exact ih

/-- The read of the entry `key` after an assignment to it; the assignment does
not touch a member of `Object.prototype`. -/
theorem get_modifyEntry (key : String) (g : TypeDefinition → TypeDefinition)
    (doc : Registry) (hg : ∀ e, inheritedMember key = some e → g e = e) :
    (Registry.modifyEntry key g doc).get key = (doc.get key).map g := by
  unfold Registry.get
  rw [own_modifyEntry]
  cases doc.own key with
  | some e => rfl
  | none =>
    simp only [Option.map_none']
    cases h : inheritedMember key with
    | none => rfl
    | some e => simp [hg e h]

theorem get_modifyChangelog_entry (doc : Registry) (key : String)
    (f : Changelog → Changelog) :
    (doc.modifyChangelog (.entry key) f).get key
      = (doc.get key).map (fun e => { e with changelog := e.changelog.map f }) := by
  unfold Registry.modifyChangelog
  apply get_modifyEntry
  intro e he
  obtain ⟨h1, _⟩ := inheritedMember_plain key e he
  obtain ⟨⟨n, t, d, r, c, nf, at_, v, md, ar, mi⟩, fs, ae, fg, sa⟩ := e
  simp only at h1
  subst h1
  rfl

theorem get_modifyChangelog_field (doc : Registry) (key : String) (index : Nat)
    (f : Changelog → Changelog) :
    (doc.modifyChangelog (.field key index) f).get key
      = (doc.get key).map (fun e =>
          { e with
            fields := e.fields.map
              (modifyAt (fun fld => { fld with changelog := fld.changelog.map f }) index) }) := by
  unfold Registry.modifyChangelog
  apply get_modifyEntry
  intro e he
  obtain ⟨_, h1, _⟩ := inheritedMember_plain key e he
  obtain ⟨fld, fs, ae, fg, sa⟩ := e
  simp only at h1
  subst h1
  rfl

theorem attachList_refOk (key : String) (doc : Registry) (tc : Option ChangelogRef)
    (init : Changelog) (f : Changelog → Changelog) (h : RefOk key tc) :
    RefOk key (attachList doc tc init f).1 := by
  cases tc with
  | none => intro r hr; cases hr
  | some c =>
    cases c with
    | ofObject r0 => exact h
    | fresh c => intro r hr; cases hr

theorem attachList_frame_of (key : String) (doc : Registry) (tc : Option ChangelogRef)
    (init : Changelog) (f : Changelog → Changelog) (h : RefOk key tc)
    (hf : (doc.modifyChangelog (.entry key) f).frame = doc.frame) :
    (attachList doc tc init f).2.frame = doc.frame := by
  cases tc with
  | none => rfl
  | some c =>
    cases c with
    | ofObject r0 =>
      have := h r0 rfl
      subst this
      exact hf
    | fresh c => rfl

/-- The registry `getDeletedProperties` leaves has the frame of the one it
got, and the changelog of the entry holds the list it returns. -/
theorem getDeletedProperties_frame (doc : Registry) (key url : String)
    (r : List DeletedProperty × Registry) (h : getDeletedProperties doc key url = .ok r) :
    r.2.frame = doc.frame ∧
    (r.1 ≠ [] → ∀ e c, r.2.get key = some e → e.changelog = some c →
      c.deletedProperties = some r.1) := by
  unfold getDeletedProperties at h
  obtain ⟨type, htype, h⟩ := (bind_eq_ok _ _ _).1 h
  rw [defined_eq_ok] at htype
  cases hd : type.changelog.bind (fun c => c.deletedProperties) with
  | none =>
    rw [hd] at h
    simp only [pure, Except.pure, Except.ok.injEq] at h
    subst h
    exact ⟨rfl, fun h => absurd rfl h⟩
  | some deleted =>
    rw [hd] at h
    simp only at h
    obtain ⟨result, hresult, h⟩ := (bind_eq_ok _ _ _).1 h
    simp only [pure, Except.pure, Except.ok.injEq] at h
    subst h
    constructor
    · apply modifyChangelog_entry_frame
      intro e c he hc
      rw [htype] at he
      cases he
      rw [hc] at hd
      simp only [Option.some_bind] at hd
      simp only [Changelog.frame, hd, Option.map_some',
        resolveSee_frame url deleted result hresult]
    · intro _ e c he hc
      rw [get_modifyChangelog_entry, htype] at he
      simp only [Option.map_some', Option.some.injEq] at he
      subst he
      simp only at hc
      cases h3 : type.changelog with
      | none => rw [h3] at hc; simp at hc
      | some c0 =>
        rw [h3] at hc
        simp only [Option.map_some', Option.some.injEq] at hc
        subst hc
        rfl

/-- The part of `buildNodeFromOpenapiType` before the children: what it
returns when it returns. -/
theorem typeNodeWithoutChildren_ok (marked : String → String) (fuel : Nat) (doc : Registry)
    (openapiType : Option String) (url : String) (key : String) (d : TypeDefinition)
    (n : Node) (doc5 : Registry)
    (h : typeNodeWithoutChildren marked fuel doc openapiType url = .ok (key, d, n, doc5)) :
    doc5.frame = doc.frame ∧
    (∃ t, openapiType = some t ∧ getOpenapiTypeName t = .ok key) ∧
    doc.get key = some d ∧
    n.closedChildren = some [] ∧
    n.attrs.changelog = none ∧
    n.attrs.isMap = none ∧
    (∃ b, n.attrs.isFieldsGroup = some b ∧ isFieldsGroup doc openapiType = .ok b) := by
  unfold typeNodeWithoutChildren at h
  obtain ⟨t, ht, h⟩ := (bind_eq_ok _ _ _).1 h
  rw [defined_eq_ok] at ht
  obtain ⟨key1, hkey, h⟩ := (bind_eq_ok _ _ _).1 h
  obtain ⟨d1, hd, h⟩ := (bind_eq_ok _ _ _).1 h
  rw [defined_eq_ok] at hd
  obtain ⟨u, _, h⟩ := (bind_eq_ok _ _ _).1 h
  obtain ⟨isFG, hFG, h⟩ := (bind_eq_ok _ _ _).1 h
  obtain ⟨isOT, _, h⟩ := (bind_eq_ok _ _ _).1 h
  obtain ⟨np, _, h⟩ := (bind_eq_ok _ _ _).1 h
  obtain ⟨mp, _, h⟩ := (bind_eq_ok _ _ _).1 h
  obtain ⟨del, hdel, h⟩ := (bind_eq_ok _ _ _).1 h
  simp only [pure, Except.pure, Except.ok.injEq, Prod.mk.injEq] at h
  obtain ⟨rfl, rfl, hn, hdoc⟩ := h
  refine ⟨?_, ⟨t, ht, hkey⟩, hd, ?_, ?_, ?_, ⟨isFG, ?_, hFG⟩⟩
  · rw [← hdoc]
    obtain ⟨hD, hD2⟩ := getDeletedProperties_frame _ _ _ _ hdel
    have h1 : (match d1.changelog.bind (fun c => c.details) with
      | some details =>
        doc.modifyChangelog (.entry key1)
          (fun c => { c with details := getHTMLFromMD marked (some details) url })
      | none => doc).frame = doc.frame := by
      split
      · exact modifyChangelog_frame _ _ _ (fun c => rfl)
      · rfl
    have r1 : RefOk key1
        (d1.changelog.map (fun _ => ChangelogRef.ofObject (ObjRef.entry key1))) := by
      intro r hr
      cases hc : d1.changelog with
      | none => rw [hc] at hr; cases hr
      | some c => rw [hc] at hr; cases hr; rfl
    generalize (match d1.changelog.bind (fun c => c.details) with
      | some details =>
        doc.modifyChangelog (.entry key1)
          (fun c => { c with details := getHTMLFromMD marked (some details) url })
      | none => doc) = doc1 at h1 hdel hD hD2 ⊢
    generalize (d1.changelog.map (fun _ => ChangelogRef.ofObject (ObjRef.entry key1))) = tc
      at r1 hdel hD hD2 ⊢
    have h2 : ∀ s2 : Option ChangelogRef × Registry,
        s2 = (if np.length > 0 then
          attachList doc1 tc { newProperties := some np }
            (fun c => { c with newProperties := some np })
          else (tc, doc1)) → RefOk key1 s2.1 ∧ s2.2.frame = doc.frame := by
      intro s2 hs2
      subst hs2
      split
      · refine ⟨attachList_refOk _ _ _ _ _ r1, ?_⟩
        rw [attachList_frame]
        · exact h1
        · intro c; rfl
      · exact ⟨r1, h1⟩
    generalize (if np.length > 0 then
          attachList doc1 tc { newProperties := some np }
            (fun c => { c with newProperties := some np })
          else (tc, doc1)) = s2 at h2 hdel hD hD2 ⊢
    obtain ⟨r2, f2⟩ := h2 s2 rfl
    have h3 : ∀ s3 : Option ChangelogRef × Registry,
        s3 = (if mp.length > 0 then
          attachList s2.2 s2.1 { modifiedProperties := some mp }
            (fun c => { c with modifiedProperties := some mp })
          else s2) → RefOk key1 s3.1 ∧ s3.2.frame = doc.frame := by
      intro s3 hs3
      subst hs3
      split
      · refine ⟨attachList_refOk _ _ _ _ _ r2, ?_⟩
        rw [attachList_frame]
        · exact f2
        · intro c; rfl
      · exact ⟨r2, f2⟩
    generalize (if mp.length > 0 then
          attachList s2.2 s2.1 { modifiedProperties := some mp }
            (fun c => { c with modifiedProperties := some mp })
          else s2) = s3 at h3 hdel hD hD2 ⊢
    obtain ⟨r3, f3⟩ := h3 s3 rfl
    split
    · rename_i hlen
      rw [attachList_frame_of key1 _ _ _ _ r3, hD, f3]
      apply modifyChangelog_entry_frame
      intro e c he hc
      have hne : del.1 ≠ [] := by
        intro h0
        rw [h0] at hlen
        simp at hlen
      have := hD2 hne e c he hc
      simp only [Changelog.frame, this]
    · exact hD.trans f3
  · rw [← hn]; rfl
  · rw [← hn]; rfl
  · rw [← hn]; rfl
  · rw [← hn]; rfl

/-! ## The loops over the children -/

/-- The children loop builds one child for every index, in order, each from a
registry with the frame of the first. -/
theorem buildChildren_ok (build : Registry → FieldRef → Except Err (Node × Registry))
    (key : String)
    (hb : ∀ doc ref r, build doc ref = .ok r → r.2.frame = doc.frame)
    (indices : List Nat) (doc : Registry) (r : List Node × Registry)
    (h : buildChildren build key indices doc = .ok r) :
    r.2.frame = doc.frame ∧
    List.Forall₂ (fun index child => ∃ d c, d.frame = doc.frame ∧
      build d (.stored (.field key index)) = .ok c ∧ c.1 = child) indices r.1 := by
  induction indices generalizing doc r with
  | nil =>
    simp only [buildChildren, pure, Except.pure, Except.ok.injEq] at h
    subst h
    exact ⟨rfl, List.Forall₂.nil⟩
  | cons index rest ih =>
    simp only [buildChildren] at h
    obtain ⟨child, hchild, h⟩ := (bind_eq_ok _ _ _).1 h
    obtain ⟨children, hchildren, h⟩ := (bind_eq_ok _ _ _).1 h
    simp only [pure, Except.pure, Except.ok.injEq] at h
    subst h
    have h1 := hb _ _ _ hchild
    obtain ⟨h2, h3⟩ := ih _ _ hchildren
    refine ⟨h2.trans h1, List.Forall₂.cons ⟨doc, child, rfl, hchild, rfl⟩ ?_⟩
    refine h3.imp ?_
    rintro a b ⟨d, c, hd, hc, hcb⟩
    exact ⟨d, c, hd.trans h1, hc, hcb⟩

/-- What pushing one technical child returns, when it returns. -/
theorem pushTechnicalChild_ok (build : Registry → FieldRef → Except Err (Node × Registry))
    (cond : Bool) (key : String) (node : Node) (doc : Registry) (r : Node × Registry)
    (h : pushTechnicalChild build cond key node doc = .ok r) :
    (cond = false ∧ r = (node, doc)) ∨
    (cond = true ∧ ∃ built cs, build doc (.stored (.entry key)) = .ok built ∧
      node.closedChildren = some cs ∧
      r = (Node.mk node.attrs
            (some (cs ++ [built.1.update (fun a => { a with isTechnical := some true })])),
          built.2)) := by
  unfold pushTechnicalChild at h
  cases cond with
  | false =>
    simp only [Bool.false_eq_true, if_false, pure, Except.pure, Except.ok.injEq] at h
    exact Or.inl ⟨rfl, h.symm⟩
  | true =>
    simp only [if_true] at h
    obtain ⟨built, hbuilt, h⟩ := (bind_eq_ok _ _ _).1 h
    obtain ⟨node1, hnode1, h⟩ := (bind_eq_ok _ _ _).1 h
    simp only [pure, Except.pure, Except.ok.injEq] at h
    subst h
    obtain ⟨a, c⟩ := node
    cases c with
    | none => simp [Node.push] at hnode1
    | some cs =>
      simp only [Node.push, Except.ok.injEq] at hnode1
      subst hnode1
      exact Or.inr ⟨rfl, built, cs, hbuilt, rfl, rfl⟩

theorem pushTechnicalChildren_frame
    (build : Registry → FieldRef → Except Err (Node × Registry))
    (hb : ∀ doc ref r, build doc ref = .ok r → r.2.frame = doc.frame)
    (ext allowRef : Bool) (node : Node) (doc : Registry) (r : Node × Registry)
    (h : pushTechnicalChildren build ext allowRef node doc = .ok r) :
    r.2.frame = doc.frame := by
  unfold pushTechnicalChildren at h
  obtain ⟨s1, hs1, h⟩ := (bind_eq_ok _ _ _).1 h
  have f1 : s1.2.frame = doc.frame := by
    rcases pushTechnicalChild_ok _ _ _ _ _ _ hs1 with ⟨_, rfl⟩ | ⟨_, built, cs, hbuilt, _, rfl⟩
    · rfl
    · exact hb _ _ built hbuilt
  rcases pushTechnicalChild_ok _ _ _ _ _ _ h with ⟨_, rfl⟩ | ⟨_, built, cs, hbuilt, _, rfl⟩
  · exact f1
  · exact (hb _ _ built hbuilt).trans f1

theorem renderDetails_frame (marked : String → String) (url : String) (doc : Registry)
    (c : Option ChangelogRef) : (renderDetails marked url doc c).2.frame = doc.frame := by
  unfold renderDetails
  split
  · split
    · simp only
      rw [assignChangelog_frame]
      intro c; rfl
    · rfl
  · rfl

/-! ## The frame of the registry is kept by the tree builder -/

theorem builders_frame (marked : String → String) (url : String) (fuel : Nat) :
    (∀ doc t p w a r, buildNodeFromOpenapiType marked fuel doc t url p w a = .ok r →
      r.2.frame = doc.frame) ∧
    (∀ doc ref p r, buildNodeFromField marked fuel doc ref url p = .ok r →
      r.2.frame = doc.frame) ∧
    (∀ doc ref p r, buildNodeFromMapField marked fuel doc ref url p = .ok r →
      r.2.frame = doc.frame) ∧
    (∀ doc ref p r, buildNodeFromArrayOrObjectField marked fuel doc ref url p = .ok r →
      r.2.frame = doc.frame) := by
  induction fuel with
  | zero =>
    refine ⟨?_, ?_, ?_, ?_⟩
    · intro doc t p w a r h
      simp [buildNodeFromOpenapiType] at h
    · intro doc ref p r h
      simp [buildNodeFromField] at h
    · intro doc ref p r h
      simp [buildNodeFromMapField] at h
    · intro doc ref p r h
      simp [buildNodeFromArrayOrObjectField] at h
  | succ fuel ih =>
    obtain ⟨ihT, ihF, ihM, ihA⟩ := ih
    refine ⟨?_, ?_, ?_, ?_⟩
    · intro doc t p w a r h
      rw [buildNodeFromOpenapiType] at h
      obtain ⟨header, hheader, h⟩ := (bind_eq_ok _ _ _).1 h
      obtain ⟨key, d, n, doc5⟩ := header
      obtain ⟨f5, _⟩ := typeNodeWithoutChildren_ok _ _ _ _ _ _ _ _ _ hheader
      simp only at h
      cases w with
      | false =>
        simp only [Bool.false_eq_true, if_false, pure, Except.pure, Except.ok.injEq] at h
        subst h
        exact f5
      | true =>
        simp only [if_true] at h
        obtain ⟨d5, _, h⟩ := (bind_eq_ok _ _ _).1 h
        obtain ⟨fields, _, h⟩ := (bind_eq_ok _ _ _).1 h
        obtain ⟨children, hchildren, h⟩ := (bind_eq_ok _ _ _).1 h
        obtain ⟨f6, _⟩ := buildChildren_ok _ _ (fun doc ref r hr => ihF doc ref _ r hr) _ _ _
          hchildren
        have f7 := pushTechnicalChildren_frame _ (fun doc ref r hr => ihF doc ref _ r hr)
          _ _ _ _ _ h
        exact f7.trans (f6.trans f5)
    · intro doc ref p r h
      rw [buildNodeFromField] at h
      obtain ⟨field, _, h⟩ := (bind_eq_ok _ _ _).1 h
      obtain ⟨type, _, h⟩ := (bind_eq_ok _ _ _).1 h
      split at h
      · exact ihM _ _ _ _ h
      · exact ihA _ _ _ _ h
    · intro doc ref p r h
      rw [buildNodeFromMapField] at h
      obtain ⟨field, _, h⟩ := (bind_eq_ok _ _ _).1 h
      obtain ⟨type, _, h⟩ := (bind_eq_ok _ _ _).1 h
      split at h
      · obtain ⟨mapType, _, h⟩ := (bind_eq_ok _ _ _).1 h
        obtain ⟨isOT, _, h⟩ := (bind_eq_ok _ _ _).1 h
        obtain ⟨child, hchild, h⟩ := (bind_eq_ok _ _ _).1 h
        obtain ⟨node1, _, h⟩ := (bind_eq_ok _ _ _).1 h
        simp only [pure, Except.pure, Except.ok.injEq] at h
        subst h
        exact ihF _ _ _ child hchild
      · cases h
    · intro doc ref p r h
      rw [buildNodeFromArrayOrObjectField] at h
      obtain ⟨field, _, h⟩ := (bind_eq_ok _ _ _).1 h
      obtain ⟨atomic, _, h⟩ := (bind_eq_ok _ _ _).1 h
      obtain ⟨built, hbuilt, h⟩ := (bind_eq_ok _ _ _).1 h
      obtain ⟨type, _, h⟩ := (bind_eq_ok _ _ _).1 h
      simp only [pure, Except.pure, Except.ok.injEq] at h
      subst h
      simp only
      rw [renderDetails_frame]
      cases atomic with
      | true =>
        simp only [Bool.not_true, Bool.false_eq_true, if_false, pure, Except.pure,
          Except.ok.injEq] at hbuilt
        subst hbuilt
        rfl
      | false =>
        simp only [Bool.not_false, if_true] at hbuilt
        exact ihT _ _ _ _ _ built hbuilt

/-! ## The nodes of fields -/

theorem push_attrs (node child node1 : Node) (h : node.push child = .ok node1) :
    node1.attrs = node.attrs ∧
    ∃ cs, node.closedChildren = some cs ∧ node1.closedChildren = some (cs ++ [child]) := by
  obtain ⟨a, c⟩ := node
  cases c with
  | none => simp [Node.push] at h
  | some cs =>
    simp only [Node.push, Except.ok.injEq] at h
    subst h
    exact ⟨rfl, cs, rfl, rfl⟩

theorem update_closedChildren (node : Node) (f : NodeAttrs → NodeAttrs) :
    (node.update f).closedChildren = node.closedChildren := by
  cases node; rfl

theorem update_attrs (node : Node) (f : NodeAttrs → NodeAttrs) :
    (node.update f).attrs = f node.attrs := by
  cases node; rfl

/-- What `buildNodeFromArrayOrObjectField` returns, when it returns. -/
theorem buildNodeFromArrayOrObjectField_ok (marked : String → String) (fuel : Nat)
    (doc : Registry) (ref : FieldRef) (url : String) (p : Option Node) (r : Node × Registry)
    (h : buildNodeFromArrayOrObjectField marked (fuel + 1) doc ref url p = .ok r) :
    ∃ field type atomic built,
      doc.readField ref = some field ∧ field.type = some type ∧
      isAtomicField doc field = .ok atomic ∧
      (atomic = true → built = (Node.mk { type := field.type } none, doc)) ∧
      (atomic = false →
        buildNodeFromOpenapiType marked fuel doc field.type url p
          (if field.noFollow = some true then false else true) (allowReference field)
          = .ok built) ∧
      r.1 = built.1.update (stampField marked url field type p
        (renderDetails marked url built.2 (changelogRefOf ref field)).1) := by
  rw [buildNodeFromArrayOrObjectField] at h
  obtain ⟨field, hfield, h⟩ := (bind_eq_ok _ _ _).1 h
  obtain ⟨atomic, hatomic, h⟩ := (bind_eq_ok _ _ _).1 h
  obtain ⟨built, hbuilt, h⟩ := (bind_eq_ok _ _ _).1 h
  obtain ⟨type, htype, h⟩ := (bind_eq_ok _ _ _).1 h
  simp only [pure, Except.pure, Except.ok.injEq] at h
  subst h
  rw [defined_eq_ok] at hfield htype
  refine ⟨field, type, atomic, built, hfield, htype, hatomic, ?_, ?_, rfl⟩
  · intro ha
    subst ha
    simp only [Bool.not_true, Bool.false_eq_true, if_false, pure, Except.pure,
      Except.ok.injEq] at hbuilt
    exact hbuilt.symm
  · intro ha
    subst ha
    simpa using hbuilt

/-- What `buildNodeFromMapField` returns, when it returns. -/
theorem buildNodeFromMapField_ok (marked : String → String) (fuel : Nat)
    (doc : Registry) (ref : FieldRef) (url : String) (p : Option Node) (r : Node × Registry)
    (h : buildNodeFromMapField marked (fuel + 1) doc ref url p = .ok r) :
    ∃ field type, doc.readField ref = some field ∧ field.type = some type ∧
      isMap type = true ∧ r.1.attrs.name = field.name ∧ r.1.attrs.isMap = some true ∧
      r.1.attrs.isFieldsGroup = none := by
  rw [buildNodeFromMapField] at h
  obtain ⟨field, hfield, h⟩ := (bind_eq_ok _ _ _).1 h
  obtain ⟨type, htype, h⟩ := (bind_eq_ok _ _ _).1 h
  rw [defined_eq_ok] at hfield htype
  split at h
  · rename_i hmap
    obtain ⟨mapType, _, h⟩ := (bind_eq_ok _ _ _).1 h
    obtain ⟨isOT, _, h⟩ := (bind_eq_ok _ _ _).1 h
    obtain ⟨child, hchild, h⟩ := (bind_eq_ok _ _ _).1 h
    obtain ⟨node1, hnode1, h⟩ := (bind_eq_ok _ _ _).1 h
    simp only [pure, Except.pure, Except.ok.injEq] at h
    subst h
    obtain ⟨ha, _⟩ := push_attrs _ _ _ hnode1
    refine ⟨field, type, hfield, htype, hmap, ?_, ?_, ?_⟩ <;> simp only [ha] <;> rfl
  · cases h

/-- What `buildNodeFromField` returns, when it returns: the result of one of
the two builders, chosen by `isMap`. -/
theorem buildNodeFromField_ok (marked : String → String) (fuel : Nat)
    (doc : Registry) (ref : FieldRef) (url : String) (p : Option Node) (r : Node × Registry)
    (h : buildNodeFromField marked (fuel + 1) doc ref url p = .ok r) :
    ∃ field type, doc.readField ref = some field ∧ field.type = some type ∧
      ((isMap type = true ∧ buildNodeFromMapField marked fuel doc ref url p = .ok r) ∨
       (isMap type = false ∧
         buildNodeFromArrayOrObjectField marked fuel doc ref url p = .ok r)) := by
  rw [buildNodeFromField] at h
  obtain ⟨field, hfield, h⟩ := (bind_eq_ok _ _ _).1 h
  obtain ⟨type, htype, h⟩ := (bind_eq_ok _ _ _).1 h
  rw [defined_eq_ok] at hfield htype
  refine ⟨field, type, hfield, htype, ?_⟩
  split at h
  · rename_i hm
    exact Or.inl ⟨hm, h⟩
  · rename_i hm
    exact Or.inr ⟨by simpa using hm, h⟩

/-- The node of a field carries the name of the field. -/
theorem buildNodeFromField_name (marked : String → String) (fuel : Nat)
    (doc : Registry) (ref : FieldRef) (url : String) (p : Option Node) (r : Node × Registry)
    (field : Field) (hfield : doc.readField ref = some field)
    (h : buildNodeFromField marked fuel doc ref url p = .ok r) :
    r.1.attrs.name = field.name := by
  cases fuel with
  | zero => simp [buildNodeFromField] at h
  | succ fuel =>
    obtain ⟨field1, type, hf1, _, h | h⟩ := buildNodeFromField_ok _ _ _ _ _ _ _ h
    · obtain ⟨_, h⟩ := h
      cases fuel with
      | zero => simp [buildNodeFromMapField] at h
      | succ fuel =>
        obtain ⟨field2, _, hf2, _, _, hname, _⟩ := buildNodeFromMapField_ok _ _ _ _ _ _ _ h
        rw [hfield] at hf2
        cases hf2
        exact hname
    · obtain ⟨_, h⟩ := h
      cases fuel with
      | zero => simp [buildNodeFromArrayOrObjectField] at h
      | succ fuel =>
        obtain ⟨field2, _, _, _, hf2, _, _, _, _, hr⟩ :=
          buildNodeFromArrayOrObjectField_ok _ _ _ _ _ _ _ h
        rw [hfield] at hf2
        cases hf2
        rw [hr, update_attrs]
        rfl

/-! ## Reading a registry through its frame -/

theorem frame_toField (e : TypeDefinition) : e.frame.toField = e.toField.frame := rfl

theorem frame_fields (e : TypeDefinition) :
    e.frame.fields = e.fields.map (List.map Field.frame) := rfl

theorem frame_fieldsGroup (e : TypeDefinition) : e.frame.fieldsGroup = e.fieldsGroup := rfl

theorem frame_allowExtension (e : TypeDefinition) :
    e.frame.allowExtension = e.allowExtension := rfl

/-- Two registries with the same frame hold, at every reference, fields with
the same frame. -/
theorem readObject_of_frame_eq {d doc : Registry} (h : d.frame = doc.frame) (r : ObjRef) :
    (d.readObject r).map Field.frame = (doc.readObject r).map Field.frame := by
  have hg := get_of_frame_eq h
  cases r with
  | entry key =>
    have := hg key
    simp only [Registry.readObject]
    cases h1 : d.get key <;> cases h2 : doc.get key <;> rw [h1, h2] at this <;>
      simp only [Option.map_none', Option.map_some', Option.some.injEq] at this ⊢
    · cases this
    · cases this
    · rw [← frame_toField, ← frame_toField, this]
  | field key index =>
    have := hg key
    simp only [Registry.readObject]
    cases h1 : d.get key <;> cases h2 : doc.get key <;> rw [h1, h2] at this <;>
      simp only [Option.map_none', Option.map_some', Option.some.injEq, Option.none_bind,
        Option.some_bind] at this ⊢
    · cases this
    · cases this
    · rename_i e1 e2
      have hf : e1.frame.fields = e2.frame.fields := by rw [this]
      rw [frame_fields, frame_fields] at hf
      cases h3 : e1.fields <;> cases h4 : e2.fields <;> rw [h3, h4] at hf <;>
        simp only [Option.map_none', Option.map_some', Option.some.injEq, Option.none_bind,
          Option.some_bind] at hf ⊢
      · cases hf
      · cases hf
      · rename_i fs1 fs2
        rw [← List.getElem?_map, ← List.getElem?_map, hf]

/-- A field read from a registry with the same frame has the same frame. -/
theorem readField_of_frame_eq {d doc : Registry} (h : d.frame = doc.frame) (r : ObjRef)
    (field : Field) (hfield : doc.readField (.stored r) = some field) :
    ∃ field0, d.readField (.stored r) = some field0 ∧ field0.frame = field.frame := by
  have := readObject_of_frame_eq h r
  simp only [Registry.readField] at hfield ⊢
  rw [hfield] at this
  cases h1 : d.readObject r with
  | none => rw [h1] at this; cases this
  | some field0 =>
    rw [h1] at this
    simp only [Option.map_some', Option.some.injEq] at this
    exact ⟨field0, rfl, this⟩

theorem isFieldsGroup_of_frame_eq {d doc : Registry} (h : d.frame = doc.frame)
    (t : Option String) : isFieldsGroup d t = isFieldsGroup doc t := by
  unfold isFieldsGroup
  cases t with
  | none => rfl
  | some t =>
    simp only [defined, bind, Except.bind]
    cases getOpenapiTypeName t with
    | error e => rfl
    | ok key =>
      simp only
      have := get_of_frame_eq h key
      cases h1 : d.get key <;> cases h2 : doc.get key <;> rw [h1, h2] at this <;>
        simp only [Option.map_none', Option.map_some', Option.some.injEq] at this ⊢
      · cases this
      · cases this
      · rename_i e1 e2
        have hf : e1.frame.fieldsGroup = e2.frame.fieldsGroup := by rw [this]
        rw [frame_fieldsGroup, frame_fieldsGroup] at hf
        rw [hf]

/-- The declared fields of an entry, read from a registry with the same
frame. -/
theorem fields_of_frame_eq {d doc : Registry} (h : d.frame = doc.frame) (key : String)
    (e : TypeDefinition) (fields : List Field) (he : doc.get key = some e)
    (hfields : e.fields = some fields) :
    ∃ e0 fields0, d.get key = some e0 ∧ e0.fields = some fields0 ∧
      fields0.map Field.frame = fields.map Field.frame ∧
      e0.allowExtension = e.allowExtension := by
  have := get_of_frame_eq h key
  rw [he] at this
  cases h1 : d.get key with
  | none => rw [h1] at this; cases this
  | some e0 =>
    rw [h1] at this
    simp only [Option.map_some', Option.some.injEq] at this
    have hf : e0.frame.fields = e.frame.fields := by rw [this]
    have ha : e0.frame.allowExtension = e.frame.allowExtension := by rw [this]
    rw [frame_fields, frame_fields, hfields] at hf
    cases h3 : e0.fields with
    | none => rw [h3] at hf; cases hf
    | some fields0 =>
      rw [h3] at hf
      simp only [Option.map_some', Option.some.injEq] at hf
      exact ⟨e0, fields0, rfl, h3, hf, ha⟩

/-! ## The children of a type node -/

/-- What `buildNodeFromOpenapiType` returns with children, when it returns:
the children built from the declared fields, in the order of their indices,
followed by the technical children. -/
theorem buildNodeFromOpenapiType_ok (marked : String → String) (fuel : Nat)
    (doc : Registry) (t : Option String) (url : String) (p : Option Node) (a : Bool)
    (r : Node × Registry)
    (h : buildNodeFromOpenapiType marked (fuel + 1) doc t url p true a = .ok r) :
    ∃ key d n doc5 fields children extPart refPart,
      typeNodeWithoutChildren marked (fuel + 1) doc t url = .ok (key, d, n, doc5) ∧
      r.1.attrs = n.attrs ∧
      (∃ d5, doc5.get key = some d5 ∧ d5.fields = some fields) ∧
      r.1.closedChildren = some (children ++ (extPart ++ refPart)) ∧
      List.Forall₂ (BuiltFromField marked fuel doc url key (some n))
        (List.range fields.length) children ∧
      TechnicalPart marked fuel doc url "Specification Extensions" (allowExtension d) extPart ∧
      TechnicalPart marked fuel doc url "Reference Object" a refPart := by
  rw [buildNodeFromOpenapiType] at h
  obtain ⟨header, hheader, h⟩ := (bind_eq_ok _ _ _).1 h
  obtain ⟨key, d, n, doc5⟩ := header
  obtain ⟨f5, _, _, hn, _⟩ := typeNodeWithoutChildren_ok _ _ _ _ _ _ _ _ _ hheader
  simp only [if_true] at h
  obtain ⟨d5, hd5, h⟩ := (bind_eq_ok _ _ _).1 h
  obtain ⟨fields, hfields, h⟩ := (bind_eq_ok _ _ _).1 h
  obtain ⟨children, hchildren, h⟩ := (bind_eq_ok _ _ _).1 h
  rw [defined_eq_ok] at hd5 hfields
  have hF := fun doc ref r hr => (builders_frame marked url fuel).2.1 doc ref (some n) r hr
  have hF0 := fun doc ref r hr => (builders_frame marked url fuel).2.1 doc ref none r hr
  obtain ⟨f6, hall⟩ := buildChildren_ok _ _ hF _ _ _ hchildren
  unfold pushTechnicalChildren at h
  obtain ⟨s1, hs1, h⟩ := (bind_eq_ok _ _ _).1 h
  have hall2 : List.Forall₂ (BuiltFromField marked fuel doc url key (some n))
      (List.range fields.length) children.1 := by
    refine hall.imp ?_
    rintro i c ⟨d0, b, hd0, hb, hbc⟩
    exact ⟨d0, b, hd0.trans f5, hb, hbc⟩
  rcases pushTechnicalChild_ok _ _ _ _ _ _ hs1 with ⟨he, rfl⟩ | ⟨he, built, cs, hbuilt, hcs, rfl⟩
  · rcases pushTechnicalChild_ok _ _ _ _ _ _ h with ⟨ha, rfl⟩ | ⟨ha, built2, cs2, hb2, hcs2, rfl⟩
    · exact ⟨key, d, n, doc5, fields, children.1, [], [], hheader, rfl, ⟨d5, hd5, hfields⟩,
        by simp [Node.closedChildren], hall2, Or.inl ⟨he, rfl⟩, Or.inl ⟨ha, rfl⟩⟩
    · simp only [Node.closedChildren, Option.some.injEq] at hcs2
      subst hcs2
      exact ⟨key, d, n, doc5, fields, children.1, [], _, hheader, rfl, ⟨d5, hd5, hfields⟩,
        by simp [Node.closedChildren], hall2, Or.inl ⟨he, rfl⟩,
        Or.inr ⟨ha, _, built2, f6.trans f5, hb2, rfl⟩⟩
  · simp only [Node.closedChildren, Option.some.injEq] at hcs
    subst hcs
    have f7 : built.2.frame = doc.frame := (hF0 _ _ built hbuilt).trans (f6.trans f5)
    rcases pushTechnicalChild_ok _ _ _ _ _ _ h with ⟨ha, rfl⟩ | ⟨ha, built2, cs2, hb2, hcs2, rfl⟩
    · exact ⟨key, d, n, doc5, fields, children.1, _, [], hheader, rfl, ⟨d5, hd5, hfields⟩,
        by simp [Node.closedChildren], hall2,
        Or.inr ⟨he, _, built, f6.trans f5, hbuilt, rfl⟩, Or.inl ⟨ha, rfl⟩⟩
    · simp only [Node.closedChildren, Option.some.injEq] at hcs2
      subst hcs2
      exact ⟨key, d, n, doc5, fields, children.1, _, _, hheader, rfl, ⟨d5, hd5, hfields⟩,
        by simp [Node.closedChildren], hall2,
        Or.inr ⟨he, _, built, f6.trans f5, hbuilt, rfl⟩,
        Or.inr ⟨ha, _, built2, f7, hb2, rfl⟩⟩

theorem forall₂_range_index {β : Type} {R : Nat → β → Prop} {n : Nat} {l : List β}
    (h : List.Forall₂ R (List.range n) l) :
    l.length = n ∧ ∀ i c, l[i]? = some c → R i c := by
  have hlen : l.length = n := by
    rw [← h.length_eq, List.length_range]
  refine ⟨hlen, fun i c hc => ?_⟩
  obtain ⟨hi, hic⟩ := List.getElem?_eq_some.1 hc
  have := h.get (i := i) (by rw [List.length_range, ← hlen]; exact hi) hi
  simp only [List.get_eq_getElem, List.getElem_range] at this
  rw [hic] at this
  exact this

theorem readField_declared (doc : Registry) (key : String) (e : TypeDefinition)
    (fields : List Field) (he : doc.get key = some e) (hfields : e.fields = some fields)
    (i : Nat) : doc.readField (.stored (.field key i)) = fields[i]? := by
  simp [Registry.readField, Registry.readObject, he, hfields]

theorem frame_name {f g : Field} (h : f.frame = g.frame) : f.name = g.name := by
  have : f.frame.name = g.frame.name := by rw [h]
  exact this

theorem frame_type {f g : Field} (h : f.frame = g.frame) : f.type = g.type := by
  have : f.frame.type = g.frame.type := by rw [h]
  exact this

theorem frame_noFollow {f g : Field} (h : f.frame = g.frame) : f.noFollow = g.noFollow := by
  have : f.frame.noFollow = g.frame.noFollow := by rw [h]
  exact this

theorem frame_required {f g : Field} (h : f.frame = g.frame) : f.required = g.required := by
  have : f.frame.required = g.frame.required := by rw [h]
  exact this

/-- The children built from the declared fields carry, in order, the names of
the declared fields. -/
theorem names_of_builtFromField (marked : String → String) (fuel : Nat) (doc : Registry)
    (url key : String) (parent : Option Node) (e : TypeDefinition) (fields : List Field)
    (he : doc.get key = some e) (hfields : e.fields = some fields) (m : Nat)
    (hm : m = fields.length) (children : List Node)
    (h : List.Forall₂ (BuiltFromField marked fuel doc url key parent) (List.range m)
      children) :
    children.map (fun c => c.attrs.name) = fields.map (fun f => f.name) := by
  obtain ⟨hlen, hidx⟩ := forall₂_range_index h
  apply List.ext_getElem?
  intro i
  simp only [List.getElem?_map]
  cases hc : children[i]? with
  | none =>
    have : fields[i]? = none := by
      rw [List.getElem?_eq_none_iff] at hc ⊢
      omega
    rw [this]
    rfl
  | some c =>
    obtain ⟨d0, b, hd0, hb, hbc⟩ := hidx i c hc
    obtain ⟨hi, _⟩ := List.getElem?_eq_some.1 hc
    cases hfi : fields[i]? with
    | none =>
      rw [List.getElem?_eq_none_iff] at hfi
      omega
    | some f =>
    have h1 : doc.readField (.stored (.field key i)) = some f := by
      rw [readField_declared doc key e fields he hfields, hfi]
    obtain ⟨field0, hf0, hfr⟩ := readField_of_frame_eq hd0 _ _ h1
    have := buildNodeFromField_name _ _ _ _ _ _ _ field0 hf0 hb
    simp only [Option.map_some', Option.some.injEq]
    rw [← hbc, this, frame_name hfr]

theorem map_name_of_map_frame {fs gs : List Field}
    (h : fs.map Field.frame = gs.map Field.frame) :
    fs.map (fun f => f.name) = gs.map (fun f => f.name) := by
  have : (fs.map Field.frame).map (fun f => f.name) = (gs.map Field.frame).map (fun f => f.name) := by
    rw [h]
  simpa [List.map_map, Function.comp_def, Field.frame] using this

/-- The properties of a type node are those of the node without children. -/
theorem buildNodeFromOpenapiType_attrs (marked : String → String) (fuel : Nat)
    (doc : Registry) (t : Option String) (url : String) (p : Option Node) (w a : Bool)
    (r : Node × Registry)
    (h : buildNodeFromOpenapiType marked (fuel + 1) doc t url p w a = .ok r) :
    ∃ key d n doc5,
      typeNodeWithoutChildren marked (fuel + 1) doc t url = .ok (key, d, n, doc5) ∧
      r.1.attrs = n.attrs := by
  cases w with
  | true =>
    obtain ⟨key, d, n, doc5, _, _, _, _, hh, ha, _⟩ :=
      buildNodeFromOpenapiType_ok _ _ _ _ _ _ _ _ h
    exact ⟨key, d, n, doc5, hh, ha⟩
  | false =>
    rw [buildNodeFromOpenapiType] at h
    obtain ⟨header, hheader, h⟩ := (bind_eq_ok _ _ _).1 h
    obtain ⟨key, d, n, doc5⟩ := header
    simp only [Bool.false_eq_true, if_false, pure, Except.pure, Except.ok.injEq] at h
    subst h
    exact ⟨key, d, n, doc5, hheader, rfl⟩

/-- The children of a type node built with children: the children of the
declared fields, carrying their names in order, then at most two technical
children. -/
theorem typeNode_children (marked : String → String) (fuel : Nat)
    (doc : Registry) (t : String) (url : String) (p : Option Node) (a : Bool)
    (r : Node × Registry) (key : String) (d : TypeDefinition) (fields : List Field)
    (h : buildNodeFromOpenapiType marked (fuel + 1) doc (some t) url p true a = .ok r)
    (hkey : getOpenapiTypeName t = .ok key) (hd : doc.get key = some d)
    (hfields : d.fields = some fields) :
    ∃ n children extPart refPart,
      r.1.attrs = n.attrs ∧
      r.1.closedChildren = some (children ++ (extPart ++ refPart)) ∧
      List.Forall₂ (BuiltFromField marked fuel doc url key (some n))
        (List.range fields.length) children ∧
      children.map (fun c => c.attrs.name) = fields.map (fun f => f.name) ∧
      TechnicalPart marked fuel doc url "Specification Extensions" (allowExtension d) extPart ∧
      TechnicalPart marked fuel doc url "Reference Object" a refPart := by
  obtain ⟨key1, d1, n, doc5, fields5, children, extPart, refPart, hh, ha, ⟨d5, hd5, hf5⟩, hc,
    hall, hext, href⟩ := buildNodeFromOpenapiType_ok _ _ _ _ _ _ _ _ h
  obtain ⟨f5, ⟨t1, ht1, hk1⟩, hd1, _⟩ := typeNodeWithoutChildren_ok _ _ _ _ _ _ _ _ _ hh
  cases ht1
  rw [hkey] at hk1
  cases hk1
  rw [hd] at hd1
  cases hd1
  obtain ⟨e0, fields0, he0, hf0, hfr, _⟩ := fields_of_frame_eq f5 key d fields hd hfields
  rw [hd5] at he0
  cases he0
  rw [hf5] at hf0
  cases hf0
  have hlen : fields5.length = fields.length := by
    have := congrArg List.length hfr
    simpa using this
  rw [hlen] at hall
  exact ⟨n, children, extPart, refPart, ha, hc, hall,
    names_of_builtFromField _ _ _ _ _ _ d fields hd hfields _ rfl _ hall, hext, href⟩

/-- The node of a field whose type is an entry of the registry and not a map
expression: it carries the flag `isFieldsGroup` of that entry, and unless the
field says `noFollow` its first children are those of the declared fields of
the entry. -/
theorem fieldNode_of_registry_type (marked : String → String) (fuel : Nat)
    (doc : Registry) (ref : FieldRef) (url : String) (p : Option Node) (r : Node × Registry)
    (field : Field) (ty gk : String) (G : TypeDefinition)
    (h : buildNodeFromField marked fuel doc ref url p = .ok r)
    (hfield : doc.readField ref = some field) (hty : field.type = some ty)
    (hmap : isMap ty = false) (hgk : getOpenapiTypeName ty = .ok gk)
    (hG : doc.get gk = some G) :
    (∃ b, isFieldsGroup doc (some ty) = .ok b ∧ r.1.attrs.isFieldsGroup = some b) ∧
    (field.noFollow ≠ some true → ∀ gfields, G.fields = some gfields →
      ∃ gchildren gtech, r.1.closedChildren = some (gchildren ++ gtech) ∧
        gchildren.map (fun c => c.attrs.name) = gfields.map (fun f => f.name)) := by
  cases fuel with
  | zero => simp [buildNodeFromField] at h
  | succ fuel =>
  obtain ⟨field1, type1, hf1, hty1, h | h⟩ := buildNodeFromField_ok _ _ _ _ _ _ _ h
  · rw [hfield] at hf1
    cases hf1
    rw [hty] at hty1
    cases hty1
    rw [hmap] at h
    cases h.1
  · obtain ⟨_, h⟩ := h
    cases fuel with
    | zero => simp [buildNodeFromArrayOrObjectField] at h
    | succ fuel =>
    obtain ⟨field2, type2, atomic, built, hf2, hty2, hatomic, _, hbuilt, hr⟩ :=
      buildNodeFromArrayOrObjectField_ok _ _ _ _ _ _ _ h
    rw [hfield] at hf2
    cases hf2
    have hat : atomic = false := by
      unfold isAtomicField at hatomic
      rw [hty] at hatomic
      simp only [bind, Except.bind, hgk, hG, pure, Except.pure, Except.ok.injEq] at hatomic
      exact hatomic.symm
    have hbuilt := hbuilt hat
    rw [hty] at hbuilt
    cases fuel with
    | zero => simp [buildNodeFromOpenapiType] at hbuilt
    | succ fuel =>
    constructor
    · obtain ⟨key, d, n, doc5, hh, ha⟩ := buildNodeFromOpenapiType_attrs _ _ _ _ _ _ _ _ _ hbuilt
      obtain ⟨_, _, _, _, _, _, b, hb1, hb2⟩ := typeNodeWithoutChildren_ok _ _ _ _ _ _ _ _ _ hh
      refine ⟨b, hb2, ?_⟩
      rw [hr, update_attrs]
      simp only [stampField]
      rw [ha, hb1]
    · intro hnf gfields hgf
      rw [if_neg hnf] at hbuilt
      obtain ⟨n, children, extPart, refPart, _, hc, _, hnames, _⟩ :=
        typeNode_children _ _ _ _ _ _ _ _ _ _ _ hbuilt hgk hG hgf
      refine ⟨children, extPart ++ refPart, ?_, hnames⟩
      rw [hr, update_closedChildren, hc]

/-- `buildTree` keeps the frame of the registry: it assigns nothing but
`details`, `newProperties`, `modifiedProperties` of changelogs and
`documentationUrl` of deleted-property entries. -/
theorem buildTree_frame (marked : String → String) (fuel : Nat) (doc : Registry)
    (root url : String) (r : Node × Registry)
    (h : buildTree marked fuel doc root url = .ok r) : r.2.frame = doc.frame :=
  (builders_frame marked url fuel).1 doc (some root) none true false r h

/-! ## The children of a type node and fields groups (C1) -/

/-- C1, counterexample: in `groupRegistry` the field `g` of `Root` has the
fields group `Group` as its type.  The tree built for `Root` has three
children, named `a`, `g`, `b`: the field `g` has a child node of its own,
flagged `isFieldsGroup`, and the field `x` of the group is a child of that
node, not of the root.  The flattened field list of `Root` is `a`, `x`, `b`. -/
theorem buildTree_fieldsGroup_child_counterexample :
    buildTree id 6 groupRegistry "Root" "https://spec" = .ok (groupTree, groupRegistry) ∧
    groupTree.closedChildren.map (List.map (fun c => c.attrs.name))
      = some [some "a", some "g", some "b"] ∧
    groupTree.closedChildren.map (List.map (fun c => c.attrs.isFieldsGroup))
      = some [none, some true, none] ∧
    (getFields 2 (groupRegistry.get "Root") groupRegistry).map
        (List.map (fun f => f.name))
      = .ok [some "a", some "x", some "b"] := by
  decide!

/-! ## The technical children (C3) -/

/-- C3: a type node built with children and with `allowReference`, for a
definition with `allowExtension = true`, has as children the nodes of the
declared fields, in order and carrying their names, followed by exactly two
more: the node built from the entry `Specification Extensions`, then the node
built from the entry `Reference Object`, both flagged `isTechnical`.
Conversely the build returns this node whenever the part before the children,
the loop over the declared fields and the builds of the two reserved entries
return. -/
theorem technical_children_order (marked : String → String) (fuel : Nat)
    (doc : Registry) (t : String) (url : String) (p : Option Node)
    (key : String) (d : TypeDefinition) (fields : List Field)
    (hkey : getOpenapiTypeName t = .ok key) (hd : doc.get key = some d)
    (hext : d.allowExtension = some true) (hfields : d.fields = some fields) :
    (∀ r, buildNodeFromOpenapiType marked (fuel + 1) doc (some t) url p true true = .ok r →
      ∃ n children extension reference,
        r.1.closedChildren = some (children ++ [extension, reference]) ∧
        List.Forall₂ (BuiltFromField marked fuel doc url key (some n))
          (List.range fields.length) children ∧
        children.map (fun c => c.attrs.name) = fields.map (fun f => f.name) ∧
        TechnicalPart marked fuel doc url "Specification Extensions" true [extension] ∧
        TechnicalPart marked fuel doc url "Reference Object" true [reference] ∧
        extension.attrs.isTechnical = some true ∧
        reference.attrs.isTechnical = some true) ∧
    (∀ n doc5 d5 fields5 children extension reference,
      typeNodeWithoutChildren marked (fuel + 1) doc (some t) url = .ok (key, d, n, doc5) →
      doc5.get key = some d5 → d5.fields = some fields5 →
      buildChildren
        (fun doc ref => buildNodeFromField marked fuel doc ref url (some n)) key
        (List.range fields5.length) doc5 = .ok children →
      buildNodeFromField marked fuel children.2
        (.stored (.entry "Specification Extensions")) url none = .ok extension →
      buildNodeFromField marked fuel extension.2
        (.stored (.entry "Reference Object")) url none = .ok reference →
      buildNodeFromOpenapiType marked (fuel + 1) doc (some t) url p true true =
        .ok (Node.mk n.attrs (some (children.1 ++
            [extension.1.update (fun a => { a with isTechnical := some true }),
             reference.1.update (fun a => { a with isTechnical := some true })])),
          reference.2)) := by
  have hae : allowExtension d = true := by
    unfold allowExtension
    rw [hext]
  constructor
  · intro r h
    obtain ⟨n, children, extPart, refPart, _, hc, hall, hnames, hextP, hrefP⟩ :=
      typeNode_children _ _ _ _ _ _ _ _ _ _ _ h hkey hd hfields
    rw [hae] at hextP
    rcases hextP with ⟨h0, _⟩ | ⟨_, d6, b6, hd6, hb6, rfl⟩
    · cases h0
    rcases hrefP with ⟨h0, _⟩ | ⟨_, d7, b7, hd7, hb7, rfl⟩
    · cases h0
    refine ⟨n, children, _, _, hc, hall, hnames, Or.inr ⟨rfl, d6, b6, hd6, hb6, rfl⟩,
      Or.inr ⟨rfl, d7, b7, hd7, hb7, rfl⟩, ?_, ?_⟩
    · rw [update_attrs]
    · rw [update_attrs]
  · intro n doc5 d5 fields5 children extension reference hh hd5 hf5 hch he hr
    rw [buildNodeFromOpenapiType]
    simp only [bind, Except.bind, hh, if_true, hd5, defined, hf5, hch, hae,
      pushTechnicalChildren, pushTechnicalChild, he, hr, Node.push, pure, Except.pure,
      List.append_assoc, List.singleton_append]

/-- C3 at `technicalRegistry`: the children of `technicalTree` are the node of
the declared field `a`, then the extension child, then the reference child. -/
theorem technical_children_order_witness :
    ∃ n children extension reference,
      technicalTree.closedChildren = some (children ++ [extension, reference]) ∧
      List.Forall₂ (BuiltFromField id 2 technicalRegistry "https://spec" "Root" (some n))
        (List.range 1) children ∧
      children.map (fun c => c.attrs.name) = [some "a"] ∧
      TechnicalPart id 2 technicalRegistry "https://spec" "Specification Extensions" true
        [extension] ∧
      TechnicalPart id 2 technicalRegistry "https://spec" "Reference Object" true
        [reference] ∧
      extension.attrs.isTechnical = some true ∧
      reference.attrs.isTechnical = some true :=
  (technical_children_order id 2 technicalRegistry "Root" "https://spec" none "Root"
    { allowExtension := some true
      fields := some [{ name := some "a", type := some "string", required := some true }] }
    _ (by decide!) (by decide!) rfl rfl).1 (technicalTree, technicalRegistry) (by decide!)

/-! ## A root type with one required atomic field (C2) -/

theorem mem_of_mem_trim {s : String} {c : Char} (h : c ∈ (trim s).data) : c ∈ s.data := by
  simp only [trim, List.rdropWhile] at h
  have h1 := List.mem_reverse.1 h
  have h2 := (List.dropWhile_sublist _).subset h1
  have h3 := List.mem_reverse.1 h2
  exact (List.dropWhile_sublist _).subset h3

theorem pureName_trim {s : String} (h : PureName s.data) : PureName (trim s).data :=
  fun c hc => h c (mem_of_mem_trim hc)

/-- The name `getOpenapiTypeName` returns is a pure name. -/
theorem pureName_of_getOpenapiTypeName {t key : String}
    (h : getOpenapiTypeName t = .ok key) : PureName key.data := by
  unfold getOpenapiTypeName at h
  split at h
  · rename_i ha
    cases h
    exact pureName_trim ((pureName_iff_all _).2 ha)
  · split at h
    · rename_i m1 hm
      cases h
      obtain ⟨_, _, _, hx, _⟩ := (ARRAY_REGEX_eq_some_iff _ _).1 hm
      exact pureName_trim (s := ⟨m1⟩) hx
    · split at h
      · rename_i m1 m2 hm
        obtain ⟨_, _, _, h1, h2, _⟩ := MAP_REGEX_some _ _ _ hm
        split at h
        · cases h
          exact pureName_trim (s := ⟨m2⟩) h2
        · cases h
          exact pureName_trim (s := ⟨m1⟩) h1
      · cases h

theorem getAnchorForType_ok {t key : String} (h : getOpenapiTypeName t = .ok key) :
    ∃ a, getAnchorForType t = .ok a := by
  unfold getAnchorForType
  rw [h]
  exact ⟨_, rfl⟩

theorem getDocumentationUrl_ok {t key : String} (h : getOpenapiTypeName t = .ok key)
    (anchor : Option String) (url : String) :
    ∃ u, getDocumentationUrl (some t) anchor url = .ok u := by
  unfold getDocumentationUrl
  cases anchor with
  | some a => exact ⟨_, rfl⟩
  | none =>
    obtain ⟨a, ha⟩ := getAnchorForType_ok h
    simp only [ha, bind, Except.bind]
    exact ⟨_, rfl⟩

theorem isFieldsGroup_ok (doc : Registry) {t key : String}
    (h : getOpenapiTypeName t = .ok key) : ∃ b, isFieldsGroup doc (some t) = .ok b := by
  unfold isFieldsGroup
  simp only [defined, bind, Except.bind, h]
  cases doc.get key with
  | none => exact ⟨_, rfl⟩
  | some d =>
    simp only
    cases d.fieldsGroup <;> exact ⟨_, rfl⟩

theorem isOpenapiType_ok (doc : Registry) {t key : String}
    (h : getOpenapiTypeName t = .ok key) : ∃ b, isOpenapiType doc (some t) = .ok b := by
  unfold isOpenapiType
  obtain ⟨b, hb⟩ := isFieldsGroup_ok doc h
  simp only [defined, bind, Except.bind, h]
  cases doc.get key with
  | none => exact ⟨_, rfl⟩
  | some d =>
    simp only [hb]
    cases b <;> exact ⟨_, rfl⟩

theorem resolveSee_ok (url : String) (ds : List DeletedProperty)
    (h : ∀ p ∈ ds, ∀ s, p.see = some s → ∃ n, getOpenapiTypeName s = .ok n) :
    ∃ rs, resolveSee url ds = .ok rs := by
  induction ds with
  | nil => exact ⟨_, rfl⟩
  | cons p rest ih =>
    obtain ⟨rs, hrs⟩ := ih (fun q hq => h q (List.mem_cons_of_mem _ hq))
    have h1 : ∃ p1, resolveOne url p = .ok p1 := by
      unfold resolveOne
      cases hs : p.see with
      | none => exact ⟨_, rfl⟩
      | some s =>
        obtain ⟨n, hn⟩ := h p (List.mem_cons_self _ _) s hs
        obtain ⟨u, hu⟩ := getDocumentationUrl_ok hn none url
        simp only [hu, bind, Except.bind]
        exact ⟨_, rfl⟩
    obtain ⟨p1, hp1⟩ := h1
    simp only [resolveSee, hp1, hrs, bind, Except.bind]
    exact ⟨_, rfl⟩

theorem frame_changelog (e : TypeDefinition) :
    e.frame.changelog = e.changelog.map Changelog.frame := rfl

theorem frame_deletedProperties (c : Changelog) :
    c.frame.deletedProperties = c.deletedProperties.map (List.map DeletedProperty.frame) :=
  rfl

/-- The condition `SeeOk` reads the frame of the definition only. -/
theorem seeOk_of_frame_eq {d1 d : TypeDefinition} (h : d1.frame = d.frame) (hd : SeeOk d) :
    SeeOk d1 := by
  intro c1 ds1 hc1 hds1 p1 hp1 s hs
  have h1 : d1.frame.changelog = d.frame.changelog := by rw [h]
  rw [frame_changelog, frame_changelog, hc1] at h1
  cases hc : d.changelog with
  | none => rw [hc] at h1; cases h1
  | some c =>
    rw [hc] at h1
    simp only [Option.map_some', Option.some.injEq] at h1
    have h2 : c1.frame.deletedProperties = c.frame.deletedProperties := by rw [h1]
    rw [frame_deletedProperties, frame_deletedProperties, hds1] at h2
    cases hds : c.deletedProperties with
    | none => rw [hds] at h2; cases h2
    | some ds =>
      rw [hds] at h2
      simp only [Option.map_some', Option.some.injEq] at h2
      have h3 : p1.frame ∈ ds.map DeletedProperty.frame := by
        rw [← h2]
        exact List.mem_map_of_mem _ hp1
      obtain ⟨p, hp, hpf⟩ := List.mem_map.1 h3
      have h4 : p.see = p1.see := by
        have : p.frame.see = p1.frame.see := by rw [hpf]
        exact this
      exact hd c ds hc hds p hp s (by rw [h4, hs])

theorem getDeletedProperties_ok (doc : Registry) (key url : String) (d : TypeDefinition)
    (hd : doc.get key = some d) (hsee : SeeOk d) :
    ∃ r, getDeletedProperties doc key url = .ok r := by
  unfold getDeletedProperties
  simp only [hd, defined, bind, Except.bind]
  cases hdel : d.changelog.bind (fun c => c.deletedProperties) with
  | none => exact ⟨_, rfl⟩
  | some deleted =>
    simp only
    cases hc : d.changelog with
    | none => rw [hc] at hdel; cases hdel
    | some c =>
      rw [hc] at hdel
      simp only [Option.some_bind] at hdel
      obtain ⟨rs, hrs⟩ := resolveSee_ok url deleted (hsee c deleted hc hdel)
      simp only [hrs]
      exact ⟨_, rfl⟩

/-- The part of `buildNodeFromOpenapiType` before the children returns when
the type name has an entry in the registry, `getFields` returns on every
registry with the frame of this one, and the `see` references of the deleted
properties are well formed. -/
theorem typeNodeWithoutChildren_returns (marked : String → String) (fuel : Nat)
    (doc : Registry) (t url key : String) (d : TypeDefinition)
    (hkey : getOpenapiTypeName t = .ok key) (hd : doc.get key = some d)
    (hfields : ∀ doc1 : Registry, doc1.frame = doc.frame →
      ∃ fs, getFields fuel (doc1.get key) doc1 = .ok fs)
    (hsee : SeeOk d) :
    ∃ n doc5, typeNodeWithoutChildren marked fuel doc (some t) url = .ok (key, d, n, doc5) := by
  have hpure := pureName_of_getOpenapiTypeName hkey
  obtain ⟨u, hu⟩ := getDocumentationUrl_ok (getOpenapiTypeName_of_atomic hpure)
    d.specificationAnchor url
  obtain ⟨b1, hb1⟩ := isFieldsGroup_ok doc hkey
  obtain ⟨b2, hb2⟩ := isOpenapiType_ok doc hkey
  have hnew : ∀ doc1 : Registry, doc1.frame = doc.frame →
      ∃ np, getNewProperties marked fuel (doc1.get key) doc1 url = .ok np := by
    intro doc1 h1
    obtain ⟨fs, hfs⟩ := hfields doc1 h1
    unfold getNewProperties
    simp only [hfs, bind, Except.bind]
    exact ⟨_, rfl⟩
  have hmod : ∀ doc1 : Registry, doc1.frame = doc.frame →
      ∃ mp, getModifiedProperties marked fuel (doc1.get key) doc1 url = .ok mp := by
    intro doc1 h1
    obtain ⟨fs, hfs⟩ := hfields doc1 h1
    unfold getModifiedProperties
    simp only [hfs, bind, Except.bind]
    exact ⟨_, rfl⟩
  have hdel : ∀ doc1 : Registry, doc1.frame = doc.frame →
      ∃ r, getDeletedProperties doc1 key url = .ok r := by
    intro doc1 h1
    have := get_of_frame_eq h1 key
    rw [hd] at this
    cases hg : doc1.get key with
    | none => rw [hg] at this; cases this
    | some d1 =>
      rw [hg] at this
      simp only [Option.map_some', Option.some.injEq] at this
      exact getDeletedProperties_ok doc1 key url d1 hg (seeOk_of_frame_eq this hsee)
  unfold typeNodeWithoutChildren
  simp only [defined, bind, Except.bind, hkey, hd, hu, hb1, hb2]
  have f1 : (match d.changelog.bind (fun c => c.details) with
      | some details =>
        doc.modifyChangelog (.entry key)
          (fun c => { c with details := getHTMLFromMD marked (some details) url })
      | none => doc).frame = doc.frame := by
    split
    · exact modifyChangelog_frame _ _ _ (fun c => rfl)
    · rfl
  generalize (match d.changelog.bind (fun c => c.details) with
      | some details =>
        doc.modifyChangelog (.entry key)
          (fun c => { c with details := getHTMLFromMD marked (some details) url })
      | none => doc) = doc1 at f1 ⊢
  obtain ⟨np, hnp⟩ := hnew doc1 f1
  simp only [hnp]
  generalize (d.changelog.map (fun _ => ChangelogRef.ofObject (ObjRef.entry key))) = tc
  have f2 : (if np.length > 0 then
        attachList doc1 tc { newProperties := some np }
          (fun c => { c with newProperties := some np })
      else (tc, doc1)).2.frame = doc.frame := by
    split
    · rw [attachList_frame]
      · exact f1
      · intro c; rfl
    · exact f1
  generalize (if np.length > 0 then
        attachList doc1 tc { newProperties := some np }
          (fun c => { c with newProperties := some np })
      else (tc, doc1)) = s2 at f2 ⊢
  obtain ⟨mp, hmp⟩ := hmod s2.2 f2
  simp only [hmp]
  have f3 : (if mp.length > 0 then
        attachList s2.2 s2.1 { modifiedProperties := some mp }
          (fun c => { c with modifiedProperties := some mp })
      else s2).2.frame = doc.frame := by
    split
    · rw [attachList_frame]
      · exact f2
      · intro c; rfl
    · exact f2
  generalize (if mp.length > 0 then
        attachList s2.2 s2.1 { modifiedProperties := some mp }
          (fun c => { c with modifiedProperties := some mp })
      else s2) = s3 at f3 ⊢
  obtain ⟨del, hdel1⟩ := hdel s3.2 f3
  simp only [hdel1, pure, Except.pure]
  exact ⟨_, _, rfl⟩

theorem not_mem_of_pureName {s : List Char} (h : PureName s) (c : Char)
    (hc : isNameChar c = false) : s.contains c = false := by
  rw [Bool.eq_false_iff]
  intro hmem
  have := (pureName_iff _).1 h c (by simpa using hmem)
  rw [hc] at this
  cases this

theorem isFieldsGroup_unregistered (doc : Registry) (t : String) (hpure : PureName t.data)
    (hunk : doc.get (trim t) = none) : isFieldsGroup doc (some t) = .ok false := by
  unfold isFieldsGroup
  simp only [defined, bind, Except.bind, getOpenapiTypeName_of_atomic hpure, hunk]
  rfl

/-- `getFields` on a definition whose one field has an unregistered atomic
type returns that field. -/
theorem getFields_single_atomic (fuel : Nat) (doc : Registry) (d : TypeDefinition)
    (f : Field) (t : String) (hfields : d.fields = some [f]) (hty : f.type = some t)
    (hpure : PureName t.data) (hunk : doc.get (trim t) = none) :
    getFields (fuel + 1) (some d) doc = .ok [f] := by
  rw [getFields]
  simp only [defined, bind, Except.bind, hfields, getFieldsLoop, hty,
    isFieldsGroup_unregistered doc t hpure hunk, Bool.false_eq_true, if_false, pure,
    Except.pure, List.append_nil]

/-- The node of a field with an unregistered atomic type is a leaf: the object
with the property `type` alone, stamped with the properties of the field. -/
theorem buildNodeFromField_atomic (marked : String → String) (fuel : Nat) (doc : Registry)
    (ref : FieldRef) (url : String) (p : Option Node) (field : Field) (t : String)
    (hfield : doc.readField ref = some field) (hty : field.type = some t)
    (hpure : PureName t.data) (hunk : doc.get (trim t) = none) :
    buildNodeFromField marked (fuel + 2) doc ref url p =
      .ok (Node.mk (stampField marked url field t p
            (renderDetails marked url doc (changelogRefOf ref field)).1
            { type := field.type }) none,
          (renderDetails marked url doc (changelogRefOf ref field)).2) := by
  have hm : isMap t = false := not_mem_of_pureName hpure _ (by decide)
  have ha : isAtomicField doc field = .ok true := by
    unfold isAtomicField
    simp only [hty, bind, Except.bind, getOpenapiTypeName_of_atomic hpure, hunk]
    rfl
  rw [buildNodeFromField]
  simp only [hfield, defined, bind, Except.bind, hty, hm, Bool.false_eq_true, if_false]
  rw [buildNodeFromArrayOrObjectField]
  simp only [hfield, defined, bind, Except.bind, ha, Bool.not_true, Bool.false_eq_true,
    if_false, pure, Except.pure, hty, Node.update]

/-- C2, counterexample: `singleRegistry` has the root type `Root` with one
field, required, of the unregistered atomic type `string`, and `Root` does not
allow extension.  The tree has one child without children, with
`required = true` and `isArray = false`; the child has no property `isMap`
(it is `undefined`, not `false`).  In `badSeeRegistry`, the same registry
with a deleted property of `Root` whose `see` reference is not a type
expression, `buildTree` throws the string of `getOpenapiTypeName`.  In
`constructorRegistry`, the same registry with the field of the type
`constructor`, the registry has no entry for the type, the read of the
registry finds the member of `Object.prototype`, the field is not atomic and
`buildTree` fails with a `TypeError`. -/
theorem buildTree_leaf_isMap_counterexample :
    buildTree id 3 singleRegistry "Root" "https://spec" = .ok (singleTree, singleRegistry) ∧
    singleTree.closedChildren = some [stringLeaf "a" true] ∧
    (stringLeaf "a" true).closedChildren = none ∧
    (stringLeaf "a" true).attrs.required = some true ∧
    (stringLeaf "a" true).attrs.isArray = some false ∧
    (stringLeaf "a" true).attrs.isMap = none ∧
    (stringLeaf "a" true).attrs.isMap ≠ some false ∧
    buildTree id 3 badSeeRegistry "Root" "https://spec"
      = .error (.thrown "Unexpected type format:Contact-Object") ∧
    constructorRegistry.own "constructor" = none ∧
    buildTree id 6 constructorRegistry "Root" "https://spec" = .error .typeError := by
  decide!

/-- C2, amended: for a root type whose definition has exactly one field, that
field required and of an atomic type whose type name has no entry in the
registry and is not the name of a member of `Object.prototype`, the root type
not allowing extension and the `see` references of its deleted properties
being well formed, `buildTree` returns (with any recursion budget of three or
more) a root with exactly one child; the child has no children,
`required = true`, `isArray = false` and no property `isMap`. -/
theorem buildTree_single_atomic_field (marked : String → String) (fuel : Nat)
    (doc : Registry) (root url key : String) (d : TypeDefinition) (f : Field) (t : String)
    (hroot : getOpenapiTypeName root = .ok key) (hd : doc.get key = some d)
    (hfields : d.fields = some [f]) (hreq : f.required = some true)
    (hty : f.type = some t) (hpure : PureName t.data) (hown : doc.own (trim t) = none)
    (hproto : objectPrototypeNames.contains (trim t) = false)
    (hext : allowExtension d = false) (hsee : SeeOk d) :
    ∃ rootAttrs childAttrs doc1,
      buildTree marked (fuel + 3) doc root url
        = .ok (Node.mk rootAttrs (some [Node.mk childAttrs none]), doc1) ∧
      childAttrs.required = some true ∧
      childAttrs.isArray = some false ∧
      childAttrs.isMap = none := by
  have hunk : doc.get (trim t) = none := by
    rw [get_eq_own doc _ hproto]
    exact hown
  have hgf : ∀ doc1 : Registry, doc1.frame = doc.frame →
      ∃ fs, getFields (fuel + 3) (doc1.get key) doc1 = .ok fs := by
    intro doc1 h1
    obtain ⟨d1, fields1, hd1, hf1, hfr, _⟩ := fields_of_frame_eq h1 key d [f] hd hfields
    cases fields1 with
    | nil => simp at hfr
    | cons f1 rest =>
      cases rest with
      | cons _ _ => simp at hfr
      | nil =>
        simp only [List.map_cons, List.map_nil, List.cons.injEq, and_true] at hfr
        have hunk1 : doc1.get (trim t) = none := by
          have := get_of_frame_eq h1 (trim t)
          rw [hunk] at this
          cases hg : doc1.get (trim t) with
          | none => rfl
          | some x => rw [hg] at this; cases this
        rw [hd1]
        exact ⟨_, getFields_single_atomic _ doc1 d1 f1 t hf1
          (by rw [frame_type hfr, hty]) hpure hunk1⟩
  obtain ⟨n, doc5, hh⟩ :=
    typeNodeWithoutChildren_returns marked (fuel + 3) doc root url key d hroot hd hgf hsee
  obtain ⟨f5, _, _, hn, _⟩ := typeNodeWithoutChildren_ok _ _ _ _ _ _ _ _ _ hh
  obtain ⟨d5, fields5, hd5, hf5, hfr, _⟩ := fields_of_frame_eq f5 key d [f] hd hfields
  cases fields5 with
  | nil => simp at hfr
  | cons f1 rest =>
    cases rest with
    | cons _ _ => simp at hfr
    | nil =>
      simp only [List.map_cons, List.map_nil, List.cons.injEq, and_true] at hfr
      have hunk5 : doc5.get (trim t) = none := by
        have := get_of_frame_eq f5 (trim t)
        rw [hunk] at this
        cases hg : doc5.get (trim t) with
        | none => rfl
        | some x => rw [hg] at this; cases this
      have hty1 : f1.type = some t := by rw [frame_type hfr, hty]
      have hread : doc5.readField (.stored (.field key 0)) = some f1 := by
        rw [readField_declared doc5 key d5 [f1] hd5 hf5]
        rfl
      have hchild := buildNodeFromField_atomic marked fuel doc5 (.stored (.field key 0)) url
        (some n) f1 t hread hty1 hpure hunk5
      refine ⟨n.attrs,
        stampField marked url f1 t (some n)
          (renderDetails marked url doc5 (changelogRefOf (.stored (.field key 0)) f1)).1
          { type := f1.type },
        (renderDetails marked url doc5 (changelogRefOf (.stored (.field key 0)) f1)).2,
        ?_, ?_, ?_, ?_⟩
      · unfold buildTree
        rw [buildNodeFromOpenapiType]
        simp only [bind, Except.bind, hh, if_true, hd5, defined, hf5, List.length_singleton,
          List.range_succ, List.range_zero, List.nil_append, buildChildren, hchild,
          pushTechnicalChildren, pushTechnicalChild, hext, Bool.false_eq_true, if_false,
          pure, Except.pure]
      · simp only [stampField, frame_required hfr, hreq, truthy]
      · simp only [stampField]
        rw [show isArray t = false from not_mem_of_pureName hpure _ (by decide)]
      · rfl

/-- C2, amended, at `singleRegistry`. -/
theorem buildTree_single_atomic_field_witness :
    ∃ rootAttrs childAttrs doc1,
      buildTree id (0 + 3) singleRegistry "Root" "https://spec"
        = .ok (Node.mk rootAttrs (some [Node.mk childAttrs none]), doc1) ∧
      childAttrs.required = some true ∧
      childAttrs.isArray = some false ∧
      childAttrs.isMap = none :=
  buildTree_single_atomic_field id 0 singleRegistry "Root" "https://spec" "Root"
    { fields := some [{ name := some "a", type := some "string", required := some true }] }
    { name := some "a", type := some "string", required := some true } "string"
    (by decide!) (by decide!) rfl rfl rfl (by decide) (by decide!) (by decide!) (by decide!)
    (fun c ds hc => by cases hc)

/-! ## The registry after a build (C4) -/

/-- C4, the code at a failing input: `buildTree` on `changelogRegistry` leaves
the registry `changelogRegistryAfter`, in which the details of the changelog of
`Root` and of its field are rendered, the list `newProperties` is attached to
the changelog of `Root` and the deleted property has a `documentationUrl`.  A
second call on that registry renders the details once more, so the changelog
the root of the second tree refers to differs from the one the root of the
first tree referred to after the first call. -/
theorem buildTree_changes_registry :
    buildTree paragraph 3 changelogRegistry "Root" "https://spec"
      = .ok (changelogTree, changelogRegistryAfter) ∧
    changelogRegistryAfter ≠ changelogRegistry ∧
    buildTree paragraph 3 changelogRegistryAfter "Root" "https://spec"
      = .ok (changelogTree, changelogRegistryAfter2) ∧
    changelogRegistryAfter2 ≠ changelogRegistryAfter ∧
    (changelogTree.attrs.typeChangelog.bind (ChangelogRef.read changelogRegistryAfter)).bind
        (fun c => c.details) = some "<p>renamed</p>" ∧
    (changelogTree.attrs.typeChangelog.bind (ChangelogRef.read changelogRegistryAfter2)).bind
        (fun c => c.details) = some "<p><p>renamed</p></p>" := by
  decide!

/-! ## Shapes and guards (C20) -/

theorem getOpenapiTypeName_ok_of_shape (t : String)
    (h : AtomicShape t ∨ ArrayShape t ∨ MapShape t) : ∃ n, getOpenapiTypeName t = .ok n := by
  rcases h with h | h | h
  · exact ⟨_, getOpenapiTypeName_of_atomic h⟩
  · obtain ⟨x, hx⟩ := (ARRAY_REGEX_isSome_iff t).2 h
    exact ⟨_, getOpenapiTypeName_of_array hx⟩
  · obtain ⟨⟨g1, g2⟩, hg⟩ := (MAP_REGEX_isSome_iff t).2 h
    obtain ⟨ha, hb⟩ := not_atomic_not_array_of_map hg
    unfold getOpenapiTypeName
    rw [ha, hb, hg]
    simp only [Bool.false_eq_true, if_false]
    by_cases hl : g2.length > 0
    · exact ⟨_, by rw [if_pos hl]⟩
    · exact ⟨_, by rw [if_neg hl]⟩

theorem shape_of_getOpenapiTypeName_ok (t n : String) (h : getOpenapiTypeName t = .ok n) :
    AtomicShape t ∨ ArrayShape t ∨ MapShape t := by
  unfold getOpenapiTypeName at h
  split at h
  · rename_i ha
    exact Or.inl ((pureName_iff_all _).2 ha)
  · split at h
    · rename_i m1 hm
      exact Or.inr (Or.inl ((ARRAY_REGEX_isSome_iff t).1 ⟨m1, hm⟩))
    · split at h
      · rename_i m1 m2 hm
        exact Or.inr (Or.inr ((MAP_REGEX_isSome_iff t).1 ⟨(m1, m2), hm⟩))
      · cases h

theorem contains_false_of_forall {s : List Char} {c : Char} (h : ∀ a ∈ s, a ≠ c) :
    s.contains c = false := by
  rw [Bool.eq_false_iff]
  intro hmem
  exact h c (by simpa using hmem) rfl

theorem ne_of_isJsSpace {a c : Char} (ha : isJsSpace a = true) (hc : isJsSpace c = false) :
    a ≠ c := by
  intro h
  rw [h, hc] at ha
  cases ha

theorem ne_of_isNameChar {a c : Char} (ha : isNameChar a = true) (hc : isNameChar c = false) :
    a ≠ c := by
  intro h
  rw [h, hc] at ha
  cases ha

theorem guards_of_atomic {t : String} (h : AtomicShape t) :
    isArray t = false ∧ isMap t = false :=
  ⟨not_mem_of_pureName h _ (by decide), not_mem_of_pureName h _ (by decide)⟩

theorem guards_of_array {t : String} (h : ArrayShape t) :
    isArray t = true ∧ isMap t = false := by
  obtain ⟨w1, x, w2, hw1, hx, hw2, ht⟩ := h
  constructor
  · unfold isArray
    rw [ht]
    simp
  · unfold isMap
    rw [ht]
    apply contains_false_of_forall
    intro a ha
    simp only [List.mem_append, List.mem_cons] at ha
    rcases ha with ha | rfl | ha | rfl | ha
    · exact ne_of_isJsSpace (hw1 a ha) (by decide)
    · decide
    · exact ne_of_isNameChar ((pureName_iff _).1 hx a ha) (by decide)
    · decide
    · exact ne_of_isJsSpace (hw2 a ha) (by decide)

theorem guards_of_map {t : String} (h : MapShape t) :
    isArray t = false ∧ isMap t = true := by
  obtain ⟨w1, k, comma, x, w2, hw1, hk, hx, hw2, ht⟩ := h
  constructor
  · unfold isArray
    rw [ht]
    apply contains_false_of_forall
    intro a ha
    simp only [List.mem_append, List.mem_cons] at ha
    rcases ha with ha | rfl | ha | ha | ha | rfl | ha
    · exact ne_of_isJsSpace (hw1 a ha) (by decide)
    · decide
    · exact ne_of_isNameChar ((pureName_iff _).1 hk a ha) (by decide)
    · cases comma
      · simp at ha
      · simp only [if_true, List.mem_singleton] at ha
        subst ha
        decide
    · exact ne_of_isNameChar ((pureName_iff _).1 hx a ha) (by decide)
    · decide
    · exact ne_of_isJsSpace (hw2 a ha) (by decide)
  · unfold isMap
    rw [ht]
    simp

/-- C20: an expression `getOpenapiTypeName` accepts has exactly one of the
three shapes, and the guards tell which: it has the map shape exactly when
`isMap` holds, the array shape exactly when `isArray` holds, the atomic shape
exactly when neither holds; the two guards never hold together. -/
theorem shapes_and_guards (t n : String) (h : getOpenapiTypeName t = .ok n) :
    (AtomicShape t ∨ ArrayShape t ∨ MapShape t) ∧
    ¬ (AtomicShape t ∧ ArrayShape t) ∧ ¬ (AtomicShape t ∧ MapShape t) ∧
    ¬ (ArrayShape t ∧ MapShape t) ∧
    (MapShape t ↔ isMap t = true) ∧
    (ArrayShape t ↔ isArray t = true) ∧
    (AtomicShape t ↔ (isArray t = false ∧ isMap t = false)) ∧
    ¬ (isArray t = true ∧ isMap t = true) := by
  have hs := shape_of_getOpenapiTypeName_ok t n h
  refine ⟨hs, ?_, ?_, ?_, ⟨fun hm => (guards_of_map hm).2, fun hg => ?_⟩,
    ⟨fun ha => (guards_of_array ha).1, fun hg => ?_⟩,
    ⟨guards_of_atomic, fun hg => ?_⟩, ?_⟩
  · rintro ⟨h1, h2⟩
    have := (guards_of_atomic h1).1
    rw [(guards_of_array h2).1] at this
    cases this
  · rintro ⟨h1, h2⟩
    have := (guards_of_atomic h1).2
    rw [(guards_of_map h2).2] at this
    cases this
  · rintro ⟨h1, h2⟩
    have := (guards_of_array h1).1
    rw [(guards_of_map h2).1] at this
    cases this
  · rcases hs with h1 | h1 | h1
    · rw [(guards_of_atomic h1).2] at hg; cases hg
    · rw [(guards_of_array h1).2] at hg; cases hg
    · exact h1
  · rcases hs with h1 | h1 | h1
    · rw [(guards_of_atomic h1).1] at hg; cases hg
    · exact h1
    · rw [(guards_of_map h1).1] at hg; cases hg
  · rcases hs with h1 | h1 | h1
    · exact h1
    · rw [(guards_of_array h1).1] at hg; cases hg.1
    · rw [(guards_of_map h1).2] at hg; cases hg.2
  · rintro ⟨h1, h2⟩
    rcases hs with h3 | h3 | h3
    · rw [(guards_of_atomic h3).1] at h1; cases h1
    · rw [(guards_of_array h3).2] at h2; cases h2
    · rw [(guards_of_map h3).1] at h1; cases h1

/-- C20 at the map expression `{name, Header Object}`. -/
theorem shapes_and_guards_witness :
    (AtomicShape "\x7bname, Header Object\x7d" ∨ ArrayShape "\x7bname, Header Object\x7d" ∨
      MapShape "\x7bname, Header Object\x7d") ∧
    ¬ (AtomicShape "\x7bname, Header Object\x7d" ∧ ArrayShape "\x7bname, Header Object\x7d") ∧
    ¬ (AtomicShape "\x7bname, Header Object\x7d" ∧ MapShape "\x7bname, Header Object\x7d") ∧
    ¬ (ArrayShape "\x7bname, Header Object\x7d" ∧ MapShape "\x7bname, Header Object\x7d") ∧
    (MapShape "\x7bname, Header Object\x7d" ↔ isMap "\x7bname, Header Object\x7d" = true) ∧
    (ArrayShape "\x7bname, Header Object\x7d" ↔
      isArray "\x7bname, Header Object\x7d" = true) ∧
    (AtomicShape "\x7bname, Header Object\x7d" ↔
      (isArray "\x7bname, Header Object\x7d" = false ∧
        isMap "\x7bname, Header Object\x7d" = false)) ∧
    ¬ (isArray "\x7bname, Header Object\x7d" = true ∧
        isMap "\x7bname, Header Object\x7d" = true) :=
  shapes_and_guards "\x7bname, Header Object\x7d" "Header Object" (by decide!)

/-! ## Unknown types (C11) -/

/-- C11: for a type expression whose type name has no entry in the registry,
`buildNodeFromOpenapiType` never returns a node, whatever `withChildren` and
`allowReference` are: with any positive recursion budget it fails with a
`TypeError`, that of reading `definition.name` on `undefined` (or, when the
type name is the name of a member of `Object.prototype`, that of reading
`fields.length` on that member, which has no `fields`); and so does
`buildTree` for such a root. -/
theorem buildNodeFromOpenapiType_unknown_type (marked : String → String) (doc : Registry)
    (t key url : String) (p : Option Node) (w a : Bool)
    (hkey : getOpenapiTypeName t = .ok key) (hnone : doc.own key = none) :
    (∀ fuel, buildNodeFromOpenapiType marked (fuel + 1) doc (some t) url p w a
      = .error .typeError) ∧
    (∀ fuel r, buildNodeFromOpenapiType marked fuel doc (some t) url p w a ≠ .ok r) ∧
    (∀ fuel, buildTree marked (fuel + 1) doc t url = .error .typeError) ∧
    (∀ fuel r, buildTree marked fuel doc t url ≠ .ok r) := by
  have h1 : ∀ (p : Option Node) (w a : Bool) (fuel : Nat),
      buildNodeFromOpenapiType marked (fuel + 1) doc (some t) url p w a
        = .error .typeError := by
    intro p w a fuel
    rw [buildNodeFromOpenapiType]
    cases hi : inheritedMember key with
    | none =>
      have hget : doc.get key = none := by
        unfold Registry.get
        rw [hnone, hi]
      simp only [typeNodeWithoutChildren, defined, bind, Except.bind, hkey, hget]
    | some e =>
      have hget : doc.get key = some e := by
        unfold Registry.get
        rw [hnone, hi]
      obtain ⟨hc, hf, _, _⟩ := inheritedMember_plain key e hi
      have hpure := pureName_of_getOpenapiTypeName hkey
      obtain ⟨u, hu⟩ := getDocumentationUrl_ok (getOpenapiTypeName_of_atomic hpure)
        e.specificationAnchor url
      obtain ⟨b1, hb1⟩ := isFieldsGroup_ok doc hkey
      obtain ⟨b2, hb2⟩ := isOpenapiType_ok doc hkey
      simp only [typeNodeWithoutChildren, defined, bind, Except.bind, hkey, hget, hu, hb1,
        hb2, hc, Option.bind, getNewProperties, getFields, hf]
  have h2 : ∀ (p : Option Node) (w a : Bool) (fuel : Nat) (r : Node × Registry),
      buildNodeFromOpenapiType marked fuel doc (some t) url p w a ≠ .ok r := by
    intro p w a fuel r h
    cases fuel with
    | zero => simp [buildNodeFromOpenapiType] at h
    | succ fuel => rw [h1] at h; cases h
  exact ⟨h1 p w a, h2 p w a, fun fuel => h1 none true false fuel,
    fun fuel r => h2 none true false fuel r⟩

/-- C11 at `singleRegistry` and the type `Contact Object`, which it does not
have. -/
theorem buildNodeFromOpenapiType_unknown_type_witness :
    (∀ fuel, buildNodeFromOpenapiType id (fuel + 1) singleRegistry (some "[Contact Object]")
      "https://spec" none false true = .error .typeError) ∧
    (∀ fuel r, buildNodeFromOpenapiType id fuel singleRegistry (some "[Contact Object]")
      "https://spec" none false true ≠ .ok r) ∧
    (∀ fuel, buildTree id (fuel + 1) singleRegistry "[Contact Object]" "https://spec"
      = .error .typeError) ∧
    (∀ fuel r, buildTree id fuel singleRegistry "[Contact Object]" "https://spec" ≠ .ok r) :=
  buildNodeFromOpenapiType_unknown_type id singleRegistry "[Contact Object]" "Contact Object"
    "https://spec" none false true (by decide!) (by decide!)

/-! ## Atomic fields (C16) -/

/-- C16, counterexample: a field without `type` is not atomic for
`isAtomicField`, which returns false for it.  Nor is a field of the type
`constructor`, for which `singleRegistry` has no entry: the read of the
registry finds the member of `Object.prototype` of that name. -/
theorem isAtomicField_no_type_counterexample :
    isAtomicField singleRegistry { name := some "a" } = .ok false ∧
    isAtomicField singleRegistry { name := some "a" } ≠ .ok true ∧
    getOpenapiTypeName "constructor" = .ok "constructor" ∧
    singleRegistry.own "constructor" = none ∧
    isAtomicField singleRegistry { name := some "a", type := some "constructor" }
      = .ok false := by
  decide!

/-- C16, amended: `isAtomicField` returns false for a field without type.  For
a field with a type whose type name is not the name of a member of
`Object.prototype`, it returns true exactly when the registry has no entry
under the type name, and false exactly when it has one.  It throws exactly
when the type is not a type expression. -/
theorem isAtomicField_iff (doc : Registry) (field : Field) :
    (field.type = none → isAtomicField doc field = .ok false) ∧
    (∀ t key, field.type = some t → getOpenapiTypeName t = .ok key →
      objectPrototypeNames.contains key = false →
      (isAtomicField doc field = .ok true ↔ doc.own key = none) ∧
      (isAtomicField doc field = .ok false ↔ ∃ e, doc.own key = some e)) ∧
    ((∃ e, isAtomicField doc field = .error e) ↔
      ∃ t e, field.type = some t ∧ getOpenapiTypeName t = .error e) := by
  refine ⟨?_, ?_, ?_⟩
  · intro ht
    unfold isAtomicField
    rw [ht]
    rfl
  · intro t key ht hk hproto
    unfold isAtomicField
    rw [ht]
    simp only [bind, Except.bind, hk]
    rw [get_eq_own doc key hproto]
    cases hg : doc.own key with
    | none => simp [pure, Except.pure]
    | some e => simp [pure, Except.pure]
  · unfold isAtomicField
    cases ht : field.type with
    | none => simp [pure, Except.pure]
    | some t =>
      simp only [bind, Except.bind]
      cases hk : getOpenapiTypeName t with
      | error e => simp [hk]
      | ok key =>
        simp only
        cases hg : doc.get key with
        | none => simp [pure, Except.pure, hk]
        | some e => simp [pure, Except.pure, hk]

/-! ## Anchors (C12) -/

theorem toLowerChar_ne_space (c : Char) (hc : c ≠ ' ') : toLowerChar c ≠ ' ' := by
  unfold toLowerChar
  split
  · rename_i h
    obtain ⟨h1, h2⟩ := h
    generalize c.toNat = n at h1 h2
    interval_cases n <;> decide
  · split
    · decide
    · exact hc

theorem take_one_map_append_drop_one (l : List Char) :
    (l.take 1).map toLowerChar ++ l.drop 1 = lowerFirst l := by
  cases l <;> rfl

theorem not_mem_lowerFirst (l : List Char) (h : ' ' ∉ l) : ' ' ∉ lowerFirst l := by
  cases l with
  | nil => simp [lowerFirst]
  | cons c r =>
    simp only [lowerFirst, List.mem_cons, not_or] at h ⊢
    exact ⟨fun e => toLowerChar_ne_space c (fun e2 => h.1 e2.symm) e.symm, h.2⟩

theorem not_mem_withoutSpaces (s : List Char) : ' ' ∉ withoutSpaces s := by
  simp [withoutSpaces]

/-- C12: on every expression `getOpenapiTypeName` accepts (atomic, array or
map), `getAnchorForType` returns the type name without its space characters
and with its first character in lower case, the others unchanged; the result
has no space character; and the anchor of `Contact Object` is
`contactObject`. -/
theorem getAnchorForType_spec :
    (∀ t : String, (AtomicShape t ∨ ArrayShape t ∨ MapShape t) →
      ∃ n, getOpenapiTypeName t = .ok n ∧
        getAnchorForType t = .ok ⟨lowerFirst (withoutSpaces n.data)⟩ ∧
        ' ' ∉ lowerFirst (withoutSpaces n.data)) ∧
    getAnchorForType "Contact Object" = .ok "contactObject" := by
  constructor
  · intro t h
    obtain ⟨n, hn⟩ := getOpenapiTypeName_ok_of_shape t h
    refine ⟨n, hn, ?_, not_mem_lowerFirst _ (not_mem_withoutSpaces _)⟩
    unfold getAnchorForType
    simp only [hn, bind, Except.bind, pure, Except.pure]
    rw [← take_one_map_append_drop_one]
    rfl
  · decide!

/-! ## Replacing every occurrence of a text -/

theorem expandTemplate_plain (matched before after : List Char) (tmpl : List Char)
    (h : '$' ∉ tmpl) : expandTemplate matched before after tmpl = tmpl := by
  induction tmpl with
  | nil => rfl
  | cons c t ih =>
    cases t with
    | nil => rfl
    | cons d r =>
      have hc : c ≠ '$' := fun e => h (by simp [e])
      rw [expandTemplate, if_neg hc, ih (fun hm => h (List.mem_cons_of_mem _ hm))]

theorem startsWith_append (pat rest : List Char) : startsWith pat (pat ++ rest) = true := by
  induction pat with
  | nil => simp [startsWith]
  | cons p ps ih => simp [startsWith, ih]

theorem eq_append_of_startsWith (pat s : List Char) (h : startsWith pat s = true) :
    s = pat ++ s.drop pat.length := by
  induction pat generalizing s with
  | nil => simp
  | cons p ps ih =>
    cases s with
    | nil => simp [startsWith] at h
    | cons c cs =>
      simp only [startsWith, Bool.and_eq_true, beq_iff_eq] at h
      obtain ⟨rfl, h2⟩ := h
      simp only [List.length_cons, List.drop_succ_cons, List.cons_append, List.cons.injEq,
        true_and]
      exact ih cs h2

/-- The characters still to be dropped are dropped. -/
theorem replaceAllLoop_skip (pat tmpl : List Char) (h : '$' ∉ tmpl) (k : Nat)
    (b1 b2 s : List Char) :
    replaceAllLoop pat tmpl k b1 s = replaceAllLoop pat tmpl 0 b2 (s.drop k) := by
  induction s generalizing k b1 b2 with
  | nil => simp [replaceAllLoop]
  | cons c s ih =>
    cases k with
    | succ k =>
      rw [replaceAllLoop, List.drop_succ_cons]
      exact ih k _ _
    | zero =>
      simp only [List.drop_zero]
      rw [replaceAllLoop, replaceAllLoop]
      split
      · rw [expandTemplate_plain _ _ _ _ h, expandTemplate_plain _ _ _ _ h,
          ih _ (c :: b1) [], ih _ (c :: b2) []]
      · rw [ih 0 (c :: b1) (c :: b2)]
        simp

/-- The result of `addTargetBlankToURL`, on lists of characters. -/
theorem addTargetBlankToURL_data (h : String) :
    (addTargetBlankToURL h).data = replaceAllLoop linkTag blankLink 0 [] h.data := rfl

theorem blank_nil : replaceAllLoop linkTag blankLink 0 [] [] = [] := rfl

theorem blankLink_plain : '$' ∉ blankLink := by decide

/-- At a link tag the replacement is written and the loop goes on after the
tag. -/
theorem blank_match (rest : List Char) :
    replaceAllLoop linkTag blankLink 0 [] (linkTag ++ rest)
      = blankLink ++ replaceAllLoop linkTag blankLink 0 [] rest := by
  have h1 : linkTag ++ rest = '<' :: (['a', ' ', 'h', 'r', 'e', 'f', '='] ++ rest) := rfl
  rw [h1, replaceAllLoop, if_pos (by rw [← h1]; exact startsWith_append _ _),
    expandTemplate_plain _ _ _ _ blankLink_plain,
    replaceAllLoop_skip _ _ blankLink_plain _ _ []]
  rfl

/-- Elsewhere the character is kept. -/
theorem blank_no_match (c : Char) (s : List Char) (h : startsWith linkTag (c :: s) = false) :
    replaceAllLoop linkTag blankLink 0 [] (c :: s)
      = c :: replaceAllLoop linkTag blankLink 0 [] s := by
  rw [replaceAllLoop, if_neg (by rw [h]; simp),
    replaceAllLoop_skip _ _ blankLink_plain 0 _ []]
  rfl

/-- An induction principle for the loop of `addTargetBlankToURL`: the empty
text, a text that starts with a link tag, a text that does not. -/
theorem blank_induction (P : List Char → Prop) (hnil : P [])
    (hmatch : ∀ rest, P rest → P (linkTag ++ rest))
    (hno : ∀ c s, startsWith linkTag (c :: s) = false → P s → P (c :: s)) :
    ∀ s, P s := by
  have key : ∀ n : Nat, ∀ s : List Char, s.length ≤ n → P s := by
    intro n
    induction n with
    | zero =>
      intro s hs
      cases s with
      | nil => exact hnil
      | cons c s => simp at hs
    | succ n ih =>
      intro s hs
      cases s with
      | nil => exact hnil
      | cons c s =>
        simp only [List.length_cons, Nat.add_le_add_iff_right] at hs
        cases hm : startsWith linkTag (c :: s) with
        | false => exact hno c s hm (ih s hs)
        | true =>
          have e := eq_append_of_startsWith _ _ hm
          rw [e]
          refine hmatch _ (ih _ ?_)
          simp only [linkTag, List.length_cons, List.length_nil, List.drop_succ_cons,
            List.length_drop]
          omega
  exact fun s => key s.length s (Nat.le_refl _)

/-- A text without `<` starts the result exactly when it starts the input:
the result differs from the input after a `<` only. -/
theorem startsWith_blank (q : List Char) (hq : '<' ∉ q) (s : List Char) :
    startsWith q (replaceAllLoop linkTag blankLink 0 [] s) = startsWith q s := by
  induction q generalizing s with
  | nil => simp [startsWith]
  | cons a q ih =>
    have ha : a ≠ '<' := fun e => hq (by simp [e])
    have hq2 : '<' ∉ q := fun hm => hq (List.mem_cons_of_mem _ hm)
    cases s with
    | nil => rfl
    | cons c s =>
      cases hm : startsWith linkTag (c :: s) with
      | false =>
        rw [blank_no_match c s hm]
        simp only [startsWith, ih hq2 s]
      | true =>
        have e := eq_append_of_startsWith _ _ hm
        rw [e, blank_match]
        have hb : (a == '<') = false := beq_eq_false_iff_ne.2 ha
        simp [linkTag, blankLink, startsWith, hb]

theorem countOcc_link_blankLink (x : List Char) :
    countOcc linkTag (blankLink ++ x) = countOcc linkTag x := by
  simp [countOcc, linkTag, blankLink, startsWith]

theorem countOcc_link_linkTag (x : List Char) :
    countOcc linkTag (linkTag ++ x) = 1 + countOcc linkTag x := by
  simp [countOcc, linkTag, startsWith]

theorem countOcc_target_linkTag (x : List Char) :
    countOcc blankTarget (linkTag ++ x) = countOcc blankTarget x := by
  simp [countOcc, linkTag, blankTarget, startsWith]

theorem countOcc_target_blankLink (x : List Char) :
    countOcc blankTarget (blankLink ++ x) = 1 + countOcc blankTarget x := by
  simp [countOcc, blankLink, blankTarget, startsWith]

/-- The result of the loop has no link tag `<a href=` left. -/
theorem countOcc_link_blank (s : List Char) :
    countOcc linkTag (replaceAllLoop linkTag blankLink 0 [] s) = 0 := by
  refine blank_induction
    (fun s => countOcc linkTag (replaceAllLoop linkTag blankLink 0 [] s) = 0) rfl ?_ ?_ s
  · intro rest ih
    rw [blank_match, countOcc_link_blankLink, ih]
  · intro c s hm ih
    rw [blank_no_match c s hm, countOcc, ih]
    have h1 : startsWith linkTag (c :: replaceAllLoop linkTag blankLink 0 [] s) = false := by
      have h2 : startsWith linkTag (c :: s) = ('<' == c && startsWith linkTag.tail s) := rfl
      have h3 : startsWith linkTag (c :: replaceAllLoop linkTag blankLink 0 [] s)
          = ('<' == c && startsWith linkTag.tail (replaceAllLoop linkTag blankLink 0 [] s)) :=
        rfl
      rw [h3, startsWith_blank _ (by decide), ← h2, hm]
    rw [h1]
    rfl

/-- The loop adds one attribute `target="_blank"` for every link tag. -/
theorem countOcc_target_blank (s : List Char) :
    countOcc blankTarget (replaceAllLoop linkTag blankLink 0 [] s)
      = countOcc blankTarget s + countOcc linkTag s := by
  refine blank_induction
    (fun s => countOcc blankTarget (replaceAllLoop linkTag blankLink 0 [] s)
      = countOcc blankTarget s + countOcc linkTag s) rfl ?_ ?_ s
  · intro rest ih
    rw [blank_match, countOcc_target_blankLink, ih, countOcc_target_linkTag,
      countOcc_link_linkTag]
    omega
  · intro c s hm ih
    rw [blank_no_match c s hm, countOcc, countOcc, countOcc, ih, hm]
    have h2 : startsWith blankTarget (c :: s) = ('t' == c && startsWith blankTarget.tail s) :=
      rfl
    have h3 : startsWith blankTarget (c :: replaceAllLoop linkTag blankLink 0 [] s)
        = ('t' == c && startsWith blankTarget.tail (replaceAllLoop linkTag blankLink 0 [] s)) :=
      rfl
    rw [h3, startsWith_blank _ (by decide), ← h2]
    simp only [Bool.false_eq_true, if_false]
    omega

/-- A text without link tag is left as it is. -/
theorem blank_of_no_link (s : List Char) (h : countOcc linkTag s = 0) :
    replaceAllLoop linkTag blankLink 0 [] s = s := by
  induction s with
  | nil => rfl
  | cons c s ih =>
    rw [countOcc] at h
    have hm : startsWith linkTag (c :: s) = false := by
      cases hs : startsWith linkTag (c :: s) with
      | false => rfl
      | true => rw [hs] at h; simp at h
    rw [hm] at h
    rw [blank_no_match c s hm, ih (by simpa using h)]

/-- A text that does not start with `<` after its first character starts a
text cut before a `<` only if it starts the part before the cut. -/
theorem startsWith_of_startsWith_append (q u z : List Char) (hq : '<' ∉ q)
    (h : startsWith q (u ++ '<' :: z) = true) : startsWith q u = true := by
  induction q generalizing u with
  | nil => simp [startsWith]
  | cons a q ih =>
    have ha : a ≠ '<' := fun e => hq (by simp [e])
    cases u with
    | nil =>
      simp only [List.nil_append, startsWith, Bool.and_eq_true, beq_iff_eq] at h
      exact absurd h.1 ha
    | cons c u =>
      simp only [List.cons_append, startsWith, Bool.and_eq_true, beq_iff_eq] at h ⊢
      exact ⟨h.1, ih u (fun hm => hq (List.mem_cons_of_mem _ hm)) h.2⟩

/-- The first link tag of a text is replaced and the text before it kept. -/
theorem blank_first_link (u v : List Char) (h : countOcc linkTag u = 0) :
    replaceAllLoop linkTag blankLink 0 [] (u ++ (linkTag ++ v))
      = u ++ (blankLink ++ replaceAllLoop linkTag blankLink 0 [] v) := by
  induction u with
  | nil => exact blank_match v
  | cons c u ih =>
    rw [countOcc] at h
    have hm : startsWith linkTag (c :: u) = false := by
      cases hs : startsWith linkTag (c :: u) with
      | false => rfl
      | true => rw [hs] at h; simp at h
    rw [hm] at h
    have hm2 : startsWith linkTag (c :: (u ++ (linkTag ++ v))) = false := by
      cases hs : startsWith linkTag (c :: (u ++ (linkTag ++ v))) with
      | false => rfl
      | true =>
        have h2 : startsWith linkTag (c :: (u ++ (linkTag ++ v)))
            = ('<' == c && startsWith linkTag.tail (u ++ '<' :: (linkTag.tail ++ v))) := rfl
        rw [h2, Bool.and_eq_true] at hs
        have h3 := startsWith_of_startsWith_append _ _ _ (by decide) hs.2
        have h4 : startsWith linkTag (c :: u) = ('<' == c && startsWith linkTag.tail u) := rfl
        rw [h4, hs.1, h3] at hm
        cases hm
    rw [List.cons_append, blank_no_match _ _ hm2, ih (by simpa using h)]
    rfl

/-! ## `addTargetBlankToURL` (C14, C15) -/

/-- C14: one pass of `addTargetBlankToURL` adds one attribute
`target="_blank"` for every link tag `<a href=` of the input: the occurrences
of the attribute in the result are those of the input and one more for every
link tag; a text without link tag is returned as it is; and in a text with a
link tag the text before the first link tag is kept, the tag becomes
`<a target="_blank" href=`, and the rest is treated in the same way. -/
theorem addTargetBlankToURL_adds_one_per_link (h : String) :
    countOcc blankTarget (addTargetBlankToURL h).data
      = countOcc blankTarget h.data + countOcc linkTag h.data ∧
    (countOcc linkTag h.data = 0 → addTargetBlankToURL h = h) ∧
    (∀ u v : String, h = u ++ "<a href=" ++ v → countOcc linkTag u.data = 0 →
      addTargetBlankToURL h = u ++ "<a target=\"_blank\" href=" ++ addTargetBlankToURL v) := by
  refine ⟨countOcc_target_blank h.data, fun h0 => ?_, fun u v huv hu => ?_⟩
  · apply String.ext
    exact blank_of_no_link h.data h0
  · apply String.ext
    rw [addTargetBlankToURL_data, huv]
    simp only [String.data_append, List.append_assoc]
    exact blank_first_link u.data v.data hu

/-- C15, counterexample: there is no text with a link tag on which a second
pass of `addTargetBlankToURL` changes the result of the first. -/
theorem addTargetBlankToURL_second_pass_counterexample :
    ¬ ∃ h : String, 0 < countOcc linkTag h.data ∧
      addTargetBlankToURL (addTargetBlankToURL h) ≠ addTargetBlankToURL h := by
  rintro ⟨h, _, hne⟩
  apply hne
  apply String.ext
  rw [addTargetBlankToURL_data]
  exact blank_of_no_link _ (countOcc_link_blank h.data)

/-- C15, amended: `addTargetBlankToURL` is idempotent.  The result of a pass
has no link tag `<a href=` left (every one has become
`<a target="_blank" href=`), so a second pass returns it as it is; on
`<a href="x">y</a>` both one pass and two passes give
`<a target="_blank" href="x">y</a>`. -/
theorem addTargetBlankToURL_idempotent (h : String) :
    countOcc linkTag (addTargetBlankToURL h).data = 0 ∧
    addTargetBlankToURL (addTargetBlankToURL h) = addTargetBlankToURL h ∧
    addTargetBlankToURL "<a href=\"x\">y</a>" = "<a target=\"_blank\" href=\"x\">y</a>" ∧
    addTargetBlankToURL (addTargetBlankToURL "<a href=\"x\">y</a>")
      = "<a target=\"_blank\" href=\"x\">y</a>" := by
  refine ⟨countOcc_link_blank h.data, ?_, by decide!, by decide!⟩
  apply String.ext
  rw [addTargetBlankToURL_data]
  exact blank_of_no_link _ (countOcc_link_blank h.data)

/-! ## Map fields and the parent changelog -/

theorem head_rdropWhile (p : Char → Bool) (l : List Char) (a : Char)
    (h : (l.rdropWhile p).head? = some a) : l.head? = some a := by
  induction l using List.reverseRecOn with
  | nil => simp at h
  | append_singleton l x ih =>
    rw [List.rdropWhile_concat] at h
    split at h
    · have h1 := ih h
      cases l with
      | nil => simp at h1
      | cons b t => simpa using h1
    · exact h

/-- Trimming a trimmed string changes nothing. -/
theorem trim_trim (s : String) : trim (trim s) = trim s := by
  unfold trim
  simp only
  have h1 : ((s.data.dropWhile isJsSpace).rdropWhile isJsSpace).dropWhile isJsSpace
      = (s.data.dropWhile isJsSpace).rdropWhile isJsSpace := by
    cases h : (s.data.dropWhile isJsSpace).rdropWhile isJsSpace with
    | nil => rfl
    | cons a t =>
      have h2 := head_rdropWhile isJsSpace _ a (by rw [h]; rfl)
      have h3 : isJsSpace a = false := by
        cases hd : s.data.dropWhile isJsSpace with
        | nil => rw [hd] at h2; simp at h2
        | cons b u =>
          rw [hd] at h2
          simp only [List.head?_cons, Option.some.injEq] at h2
          subst h2
          have h4 := List.head_dropWhile_not isJsSpace s.data (by rw [hd]; simp)
          simpa [hd] using h4
      simp [List.dropWhile, h3]
  rw [h1, List.rdropWhile_idempotent]

/-- What `getMapType` returns, when it returns: the expression has a brace, and
the value type is a trimmed pure name. -/
theorem getMapType_ok {ty : String} {m : MapType} (h : getMapType ty = .ok m) :
    isMap ty = true ∧ PureName m.type.data ∧ trim m.type = m.type := by
  unfold getMapType at h
  cases hr : MAP_REGEX ty.data with
  | none => simp [hr] at h
  | some g =>
    obtain ⟨g1, g2⟩ := g
    rw [hr] at h
    obtain ⟨w1, w2, _, hg1, hg2, _, hs⟩ := MAP_REGEX_some _ _ _ hr
    have hm : isMap ty = true := by
      unfold isMap
      rcases hs with hs | ⟨_, hs⟩ <;> rw [hs] <;> simp
    refine ⟨hm, ?_⟩
    simp only at h
    split at h
    · cases h
      exact ⟨pureName_trim (s := ⟨g2⟩) hg2, trim_trim _⟩
    · cases h
      exact ⟨pureName_trim (s := ⟨g1⟩) hg1, trim_trim _⟩

/-- The node without children carries the type name as its `type`. -/
theorem typeNodeWithoutChildren_type (marked : String → String) (fuel : Nat) (doc : Registry)
    (openapiType : Option String) (url : String) (key : String) (d : TypeDefinition)
    (n : Node) (doc5 : Registry)
    (h : typeNodeWithoutChildren marked fuel doc openapiType url = .ok (key, d, n, doc5)) :
    n.attrs.type = some key := by
  unfold typeNodeWithoutChildren at h
  obtain ⟨t, ht, h⟩ := (bind_eq_ok _ _ _).1 h
  obtain ⟨key1, hkey, h⟩ := (bind_eq_ok _ _ _).1 h
  obtain ⟨d1, hd, h⟩ := (bind_eq_ok _ _ _).1 h
  obtain ⟨u, _, h⟩ := (bind_eq_ok _ _ _).1 h
  obtain ⟨isFG, hFG, h⟩ := (bind_eq_ok _ _ _).1 h
  obtain ⟨isOT, _, h⟩ := (bind_eq_ok _ _ _).1 h
  obtain ⟨np, _, h⟩ := (bind_eq_ok _ _ _).1 h
  obtain ⟨mp, _, h⟩ := (bind_eq_ok _ _ _).1 h
  obtain ⟨del, hdel, h⟩ := (bind_eq_ok _ _ _).1 h
  simp only [pure, Except.pure, Except.ok.injEq, Prod.mk.injEq] at h
  obtain ⟨rfl, rfl, hn, hdoc⟩ := h
  rw [← hn]
  rfl

/-- The node of a field whose type is a trimmed pure name carries that type,
the `allowReference` of the field and the `changelog` of its parent node. -/
theorem buildNodeFromField_of_pure (marked : String → String) (fuel : Nat)
    (doc : Registry) (ref : FieldRef) (url : String) (p : Option Node) (r : Node × Registry)
    (field : Field) (ty : String)
    (hfield : doc.readField ref = some field) (hty : field.type = some ty)
    (hpure : PureName ty.data) (htrim : trim ty = ty)
    (h : buildNodeFromField marked fuel doc ref url p = .ok r) :
    r.1.attrs.type = some ty ∧ r.1.attrs.allowReference = some (allowReference field) ∧
      ∀ q, p = some q → r.1.attrs.parentChangelog = q.attrs.changelog := by
  have hm : isMap ty = false := not_mem_of_pureName hpure _ (by decide)
  cases fuel with
  | zero => simp [buildNodeFromField] at h
  | succ fuel =>
    obtain ⟨field1, type1, hf1, ht1, h | h⟩ := buildNodeFromField_ok _ _ _ _ _ _ _ h
    · rw [hfield] at hf1
      cases hf1
      rw [hty] at ht1
      cases ht1
      rw [hm] at h
      cases h.1
    · obtain ⟨_, h⟩ := h
      cases fuel with
      | zero => simp [buildNodeFromArrayOrObjectField] at h
      | succ fuel =>
        obtain ⟨field2, type2, atomic, built, hf2, ht2, _, hat, hnat, hr⟩ :=
          buildNodeFromArrayOrObjectField_ok _ _ _ _ _ _ _ h
        rw [hfield] at hf2
        cases hf2
        rw [hty] at ht2
        cases ht2
        rw [hr, update_attrs]
        refine ⟨?_, rfl, ?_⟩
        · show built.1.attrs.type = some ty
          cases atomic with
          | true =>
            rw [hat rfl]
            exact hty
          | false =>
            have hb := hnat rfl
            cases fuel with
            | zero => simp [buildNodeFromOpenapiType] at hb
            | succ fuel =>
              obtain ⟨key, d, n, doc5, hh, ha⟩ :=
                buildNodeFromOpenapiType_attrs _ _ _ _ _ _ _ _ _ hb
              obtain ⟨_, ⟨t, ht, hk⟩, _⟩ := typeNodeWithoutChildren_ok _ _ _ _ _ _ _ _ _ hh
              rw [hty] at ht
              cases ht
              rw [getOpenapiTypeName_of_atomic hpure, htrim] at hk
              cases hk
              rw [ha]
              exact typeNodeWithoutChildren_type _ _ _ _ _ _ _ _ _ hh
        · intro q hq
          subst hq
          rfl

/-- What `buildNodeFromMapField` returns, when it returns: the map node and its
one child, the node `buildNodeFromField` builds for the item field below the
map node without children. -/
theorem buildNodeFromMapField_inv (marked : String → String) (fuel : Nat)
    (doc : Registry) (ref : FieldRef) (url : String) (p : Option Node) (r : Node × Registry)
    (h : buildNodeFromMapField marked (fuel + 1) doc ref url p = .ok r) :
    ∃ (field : Field) (type : String) (m : MapType) (parent : Node) (item : Field)
      (child : Node),
      doc.readField ref = some field ∧ field.type = some type ∧ getMapType type = .ok m ∧
      item.name = some ("\x7b" ++ m.key ++ "\x7d") ∧ item.type = some m.type ∧
      item.allowReference = some (allowReference field) ∧ item.isMapItem = some true ∧
      buildNodeFromField marked fuel doc (.item item) url (some parent) = .ok (child, r.2) ∧
      parent.closedChildren = some [] ∧ r.1.attrs = parent.attrs ∧
      r.1.closedChildren = some [child] ∧
      r.1.attrs.isMap = some true ∧ r.1.attrs.isArray = some false ∧
      r.1.attrs.type = some m.type ∧ r.1.attrs.changelog = changelogRefOf ref field := by
  rw [buildNodeFromMapField] at h
  obtain ⟨field, hfield, h⟩ := (bind_eq_ok _ _ _).1 h
  obtain ⟨type, htype, h⟩ := (bind_eq_ok _ _ _).1 h
  rw [defined_eq_ok] at hfield htype
  split at h
  · rename_i hmap
    obtain ⟨mapType, hmt, h⟩ := (bind_eq_ok _ _ _).1 h
    obtain ⟨isOT, _, h⟩ := (bind_eq_ok _ _ _).1 h
    obtain ⟨child, hchild, h⟩ := (bind_eq_ok _ _ _).1 h
    obtain ⟨node1, hnode1, h⟩ := (bind_eq_ok _ _ _).1 h
    simp only [pure, Except.pure, Except.ok.injEq] at h
    subst h
    obtain ⟨ha, cs, hcs, hcs1⟩ := push_attrs _ _ _ hnode1
    cases hcs
    refine ⟨field, type, mapType, _, _, child.1, hfield, htype, hmt, ?_, ?_, ?_, ?_, hchild,
      rfl, ha, hcs1, ?_, ?_, ?_, ?_⟩ <;> first | rfl | (simp only [ha]; rfl)
  · cases h

/-! ## Map fields (C18) -/

/-- C18: for a field whose type is a map expression, with `getMapType` giving
the key and the value type, `buildNodeFromField` builds the map node, with
`isMap = true`, `isArray = false` and the value type as `type`, and an item
field named by the key in braces, with the value type and the `allowReference`
of the map field (`false` when unset).  It returns exactly when
`buildNodeFromField` returns for the item field below the map node, and the
result is the map node with that one child; the child carries the name, the
type and the `allowReference` of the item field.  The key is `name` when the
expression gives none. -/
theorem buildNodeFromField_map (marked : String → String) (fuel : Nat) (doc : Registry)
    (ref : FieldRef) (url : String) (p : Option Node) (field : Field) (ty : String)
    (m : MapType)
    (hfield : doc.readField ref = some field) (hty : field.type = some ty)
    (hm : getMapType ty = .ok m) :
    (∀ X : String, PureName X.data → ty = "\x7b" ++ X ++ "\x7d" → m.key = "name") ∧
    ∃ (item : Field) (parent : Node),
      item.name = some ("\x7b" ++ m.key ++ "\x7d") ∧ item.type = some m.type ∧
      item.allowReference = some (allowReference field) ∧
      parent.attrs.isMap = some true ∧ parent.attrs.isArray = some false ∧
      parent.attrs.type = some m.type ∧ parent.closedChildren = some [] ∧
      (∀ r, buildNodeFromField marked (fuel + 2) doc ref url p = .ok r ↔
        ∃ child,
          buildNodeFromField marked fuel doc (.item item) url (some parent) = .ok (child, r.2) ∧
          r.1 = Node.mk parent.attrs (some [child])) ∧
      (∀ child doc1,
        buildNodeFromField marked fuel doc (.item item) url (some parent) = .ok (child, doc1) →
        child.attrs.name = some ("\x7b" ++ m.key ++ "\x7d") ∧
        child.attrs.type = some m.type ∧
        child.attrs.allowReference = some (allowReference field)) := by
  obtain ⟨hmap, hpure, htrim⟩ := getMapType_ok hm
  obtain ⟨b, hb⟩ := isOpenapiType_ok doc (getOpenapiTypeName_of_atomic hpure)
  constructor
  · intro X hX hX2
    subst hX2
    have h1 := MAP_REGEX_plain [] X.data [] (by simp [Blank]) hX (by simp [Blank])
    have e : ("\x7b" ++ X ++ "\x7d").data = [] ++ '{' :: (X.data ++ '}' :: []) := by simp
    unfold getMapType at hm
    rw [e, h1] at hm
    simp only [List.length_nil, gt_iff_lt, lt_self_iff_false, if_false, Except.ok.injEq] at hm
    rw [← hm]
    rfl
  · refine ⟨
      { name := some ("\x7b" ++ m.key ++ "\x7d")
        type := some m.type
        description :=
          getHTMLFromMD marked (some ("A `" ++ field.name.getD "undefined" ++ "` map item")) url
        isMapItem := some true
        allowReference := some (allowReference field) },
      Node.mk
        { name := field.name
          type := some m.type
          description := getHTMLFromMD marked field.description url
          changelog := changelogRefOf ref field
          allowReference := some false
          isMap := some true
          isArray := some false
          isOpenapiType := some b
          required := some (truthy field.required) } (some []),
      rfl, rfl, rfl, rfl, rfl, rfl, rfl, ?_, ?_⟩
    · intro r
      rw [buildNodeFromField]
      simp only [hfield, defined, bind, Except.bind, hty, hmap, if_true]
      rw [buildNodeFromMapField]
      simp only [hfield, defined, bind, Except.bind, hty, hmap, if_true, hm, hb]
      generalize buildNodeFromField marked fuel doc _ url _ = res
      cases res with
      | error e => simp
      | ok c =>
        obtain ⟨c1, c2⟩ := c
        obtain ⟨r1, r2⟩ := r
        simp [Node.push, pure, Except.pure]
        constructor
        · rintro ⟨rfl, rfl⟩
          exact ⟨c1, ⟨rfl, rfl⟩, rfl⟩
        · rintro ⟨w, ⟨rfl, rfl⟩, rfl⟩
          exact ⟨rfl, rfl⟩
    · intro child doc1 hchild
      have hname := fun f hf => buildNodeFromField_name _ _ _ _ _ _ _ f hf hchild
      have hrest := fun f hf hf2 =>
        buildNodeFromField_of_pure _ _ _ _ _ _ _ f m.type hf hf2 hpure htrim hchild
      obtain ⟨h1, h2, _⟩ := hrest _ rfl rfl
      exact ⟨hname _ rfl, h1, h2⟩

/-- C18 at the map field `paths` of `mapRegistry`, of the type
`\x7bpath, string\x7d`. -/
theorem buildNodeFromField_map_witness :
    (∀ X : String, PureName X.data → "\x7bpath, string\x7d" = "\x7b" ++ X ++ "\x7d" →
      (MapType.mk "path" "string").key = "name") ∧
    ∃ (item : Field) (parent : Node),
      item.name = some ("\x7b" ++ "path" ++ "\x7d") ∧ item.type = some "string" ∧
      item.allowReference = some true ∧
      parent.attrs.isMap = some true ∧ parent.attrs.isArray = some false ∧
      parent.attrs.type = some "string" ∧ parent.closedChildren = some [] ∧
      (∀ r, buildNodeFromField id (1 + 2) mapRegistry (.stored (.field "Root" 0))
          "https://spec" none = .ok r ↔
        ∃ child,
          buildNodeFromField id 1 mapRegistry (.item item) "https://spec" (some parent)
            = .ok (child, r.2) ∧
          r.1 = Node.mk parent.attrs (some [child])) ∧
      (∀ child doc1,
        buildNodeFromField id 1 mapRegistry (.item item) "https://spec" (some parent)
          = .ok (child, doc1) →
        child.attrs.name = some ("\x7b" ++ "path" ++ "\x7d") ∧
        child.attrs.type = some "string" ∧
        child.attrs.allowReference = some true) :=
  buildNodeFromField_map id 1 mapRegistry (.stored (.field "Root" 0)) "https://spec" none
    { name := some "paths", type := some "\x7bpath, string\x7d", allowReference := some true }
    "\x7bpath, string\x7d" ⟨"path", "string"⟩ (by decide!) rfl (by decide!)

/-! ## Flattened fields (C19) -/

/-- C19, the code at a failing input: in `arrayGroupRegistry` the field `g` of
`Root` has the type `[Group]`, whose type name `Group` is a fields group, so
`isFieldsGroup` holds for it; `getFields` then reads the registry at the
expression `[Group]` itself, which has no entry, and the recursive call fails
on `undefined` with a `TypeError`, for every bound on the depth of the
recursion that reaches it.  The same happens with the expression ` Group`, and
`buildTree` fails on these registries.  With the type written `Group` the
fields of the group take the place of the field. -/
theorem getFields_group_by_expression :
    getOpenapiTypeName "[Group]" = .ok "Group" ∧
    isFieldsGroup arrayGroupRegistry (some "[Group]") = .ok true ∧
    arrayGroupRegistry.get "[Group]" = none ∧
    (∀ fuel, getFields (fuel + 2) (arrayGroupRegistry.get "Root") arrayGroupRegistry
      = .error .typeError) ∧
    getOpenapiTypeName " Group" = .ok "Group" ∧
    isFieldsGroup spacedGroupRegistry (some " Group") = .ok true ∧
    (∀ fuel, getFields (fuel + 2) (spacedGroupRegistry.get "Root") spacedGroupRegistry
      = .error .typeError) ∧
    buildTree id 6 arrayGroupRegistry "Root" "https://spec" = .error .typeError ∧
    buildTree id 6 spacedGroupRegistry "Root" "https://spec" = .error .typeError ∧
    (getFields 2 (groupRegistry.get "Root") groupRegistry).map (List.map (fun f => f.name))
      = .ok [some "a", some "x", some "b"] := by
  have h1 : isFieldsGroup arrayGroupRegistry (some "string") = .ok false := by decide!
  have h2 : isFieldsGroup arrayGroupRegistry (some "[Group]") = .ok true := by decide!
  have h3 : isFieldsGroup spacedGroupRegistry (some "string") = .ok false := by decide!
  have h4 : isFieldsGroup spacedGroupRegistry (some " Group") = .ok true := by decide!
  have h5 : arrayGroupRegistry.get "[Group]" = none := by decide!
  have h6 : spacedGroupRegistry.get " Group" = none := by decide!
  refine ⟨by decide!, h2, h5, ?_, by decide!, h4, ?_, by decide!, by decide!, by decide!⟩
  · intro fuel
    have e : arrayGroupRegistry.get "Root" = some
        { fields := some
            [{ name := some "a", type := some "string" },
             { name := some "g", type := some "[Group]" },
             { name := some "b", type := some "string" }] } := by decide!
    rw [e, getFields]
    simp only [defined, bind, Except.bind, getFieldsLoop, h1, h2, Bool.false_eq_true,
      if_false, if_true, pure, Except.pure, Option.bind, h5]
    rw [getFields]
    rfl
  · intro fuel
    have e : spacedGroupRegistry.get "Root" = some
        { fields := some
            [{ name := some "a", type := some "string" },
             { name := some "g", type := some " Group" },
             { name := some "b", type := some "string" }] } := by decide!
    rw [e, getFields]
    simp only [defined, bind, Except.bind, getFieldsLoop, h3, h4, Bool.false_eq_true,
      if_false, if_true, pure, Except.pure, Option.bind, h6]
    rw [getFields]
    rfl

/-! ## The deleted properties of a type node (C13) -/

theorem get_modifyEntry_ne (key k : String) (hk : k ≠ key)
    (g : TypeDefinition → TypeDefinition) (doc : Registry) :
    (Registry.modifyEntry key g doc).get k = doc.get k := by
  have h0 : (Registry.modifyEntry key g doc).own k = doc.own k := by
    induction doc with
    | nil => rfl
    | cons p rest ih =>
      obtain ⟨k1, e⟩ := p
      unfold Registry.modifyEntry
      by_cases h : k1 = key
      · rw [if_pos h]
        have h2 : (k == k1) = false := by
          simp only [beq_eq_false_iff_ne, ne_eq]
          exact fun h3 => hk (h3.trans h)
        simp [Registry.own, List.lookup_cons, h2]
      · rw [if_neg h]
        simp only [Registry.own, List.lookup_cons] at ih ⊢
        rw [ih]
  unfold Registry.get
  rw [h0]

/-- An assignment to a changelog object that leaves the deleted properties of
the changelog of an entry as they are leaves those of every entry. -/
theorem deletedOf_modifyChangelog (doc : Registry) (r : ObjRef) (f : Changelog → Changelog)
    (hf : ∀ key e c, r = .entry key → doc.get key = some e → e.changelog = some c →
      (f c).deletedProperties = c.deletedProperties) (k : String) :
    (doc.modifyChangelog r f).deletedOf k = doc.deletedOf k := by
  cases r with
  | entry key =>
    unfold Registry.deletedOf
    by_cases hk : k = key
    · subst hk
      rw [get_modifyChangelog_entry]
      cases he : doc.get k with
      | none => rfl
      | some e =>
        cases hc : e.changelog with
        | none => simp [hc]
        | some c => simp [hc, hf k e c rfl he hc]
    · unfold Registry.modifyChangelog
      rw [get_modifyEntry_ne _ _ hk]
  | field key index =>
    unfold Registry.deletedOf
    by_cases hk : k = key
    · subst hk
      rw [get_modifyChangelog_field]
      cases doc.get k <;> rfl
    · unfold Registry.modifyChangelog
      simp only [get_modifyEntry_ne _ _ hk]

theorem attachList_deleted (key : String) (doc : Registry) (tc : Option ChangelogRef)
    (init : Changelog) (f : Changelog → Changelog) (hr : RefOk key tc)
    (hf : ∀ e c, doc.get key = some e → e.changelog = some c →
      (f c).deletedProperties = c.deletedProperties) :
    RefOk key (attachList doc tc init f).1 ∧
    (∀ k, (attachList doc tc init f).2.deletedOf k = doc.deletedOf k) ∧
    ((∃ r, tc = some (.ofObject r)) → (attachList doc tc init f).1 = tc) := by
  refine ⟨attachList_refOk _ _ _ _ _ hr, ?_, ?_⟩
  · intro k
    cases tc with
    | none => rfl
    | some c =>
      cases c with
      | ofObject r0 =>
        have h0 := hr r0 rfl
        subst h0
        refine deletedOf_modifyChangelog doc (.entry key) f ?_ k
        intro key1 e c h1 he hc
        injection h1 with h1
        subst h1
        exact hf e c he hc
      | fresh c => rfl
  · rintro ⟨r, rfl⟩
    rfl

theorem renderDetails_deleted (marked : String → String) (url : String) (doc : Registry)
    (c : Option ChangelogRef) (k : String) :
    (renderDetails marked url doc c).2.deletedOf k = doc.deletedOf k := by
  unfold renderDetails
  split
  · split
    · rename_i c1 _ _ _
      cases c1 with
      | ofObject r =>
        refine deletedOf_modifyChangelog doc r _ ?_ k
        intro _ _ _ _ _ _
        rfl
      | fresh c2 => rfl
    · rfl
  · rfl

/-- What `getDeletedProperties` does to the lists of deleted properties of the
registry: the list of the entry is the resolved list it returns, the others
are kept. -/
theorem getDeletedProperties_deleted (doc : Registry) (key url : String)
    (r : List DeletedProperty × Registry) (h : getDeletedProperties doc key url = .ok r) :
    (∀ k, k ≠ key → r.2.deletedOf k = doc.deletedOf k) ∧
    (∀ ds, doc.deletedOf key = some ds →
      resolveSee url ds = .ok r.1 ∧ r.2.deletedOf key = some r.1) ∧
    (doc.deletedOf key = none → r.2 = doc) := by
  unfold getDeletedProperties at h
  obtain ⟨type, htype, h⟩ := (bind_eq_ok _ _ _).1 h
  rw [defined_eq_ok] at htype
  have e0 : doc.deletedOf key = type.changelog.bind (fun c => c.deletedProperties) := by
    unfold Registry.deletedOf
    rw [htype]
    rfl
  cases hd : type.changelog.bind (fun c => c.deletedProperties) with
  | none =>
    rw [hd] at h e0
    simp only [pure, Except.pure, Except.ok.injEq] at h
    subst h
    refine ⟨fun k _ => rfl, ?_, fun _ => rfl⟩
    intro ds hds
    rw [e0] at hds
    cases hds
  | some deleted =>
    rw [hd] at h e0
    simp only at h
    obtain ⟨result, hresult, h⟩ := (bind_eq_ok _ _ _).1 h
    simp only [pure, Except.pure, Except.ok.injEq] at h
    subst h
    refine ⟨?_, ?_, ?_⟩
    · intro k hk
      unfold Registry.deletedOf Registry.modifyChangelog
      rw [get_modifyEntry_ne _ _ hk]
    · intro ds hds
      rw [e0] at hds
      cases hds
      refine ⟨hresult, ?_⟩
      unfold Registry.deletedOf
      rw [get_modifyChangelog_entry, htype]
      cases hc : type.changelog with
      | none => rw [hc] at hd; cases hd
      | some c => simp [hc]
    · intro hnone
      rw [e0] at hnone
      cases hnone

/-- The steps of `buildNodeFromOpenapiType` on the merged changelog: the
reference to the changelog of the definition stays, the deleted properties of
the other entries are kept and those of the entry are resolved. -/
theorem header_deleted (key url : String) (doc1 : Registry) (tc : Option ChangelogRef)
    (np mp : List PropertyChange) (del : List DeletedProperty × Registry)
    (s2 s3 s5 : Option ChangelogRef × Registry)
    (hr : RefOk key tc)
    (h2 : s2 = (if np.length > 0 then
      attachList doc1 tc { newProperties := some np }
        (fun c => { c with newProperties := some np })
      else (tc, doc1)))
    (h3 : s3 = (if mp.length > 0 then
      attachList s2.2 s2.1 { modifiedProperties := some mp }
        (fun c => { c with modifiedProperties := some mp })
      else s2))
    (hdel : getDeletedProperties s3.2 key url = .ok del)
    (h5 : s5 = (if del.1.length > 0 then
      attachList del.2 s3.1 { deletedProperties := some del.1 }
        (fun c => { c with deletedProperties := some del.1 })
      else (s3.1, del.2))) :
    ((∃ r, tc = some (.ofObject r)) → s5.1 = tc) ∧
    (∀ k, k ≠ key → s5.2.deletedOf k = doc1.deletedOf k) ∧
    (∀ ds, doc1.deletedOf key = some ds →
      ∃ rs, resolveSee url ds = .ok rs ∧ s5.2.deletedOf key = some rs) ∧
    (doc1.deletedOf key = none → s5.2.deletedOf key = none) := by
  have i2 : RefOk key s2.1 ∧ (∀ k, s2.2.deletedOf k = doc1.deletedOf k) ∧
      ((∃ r, tc = some (.ofObject r)) → s2.1 = tc) := by
    subst h2
    split
    · exact attachList_deleted key doc1 tc _ _ hr (fun _ _ _ _ => rfl)
    · exact ⟨hr, fun _ => rfl, fun _ => rfl⟩
  obtain ⟨r2, d2, t2⟩ := i2
  have i3 : RefOk key s3.1 ∧ (∀ k, s3.2.deletedOf k = s2.2.deletedOf k) ∧
      ((∃ r, s2.1 = some (.ofObject r)) → s3.1 = s2.1) := by
    subst h3
    split
    · exact attachList_deleted key s2.2 s2.1 _ _ r2 (fun _ _ _ _ => rfl)
    · exact ⟨r2, fun _ => rfl, fun _ => rfl⟩
  obtain ⟨r3, d3, t3⟩ := i3
  obtain ⟨g1, g2, g3⟩ := getDeletedProperties_deleted _ _ _ _ hdel
  obtain ⟨_, g4⟩ := getDeletedProperties_frame _ _ _ _ hdel
  have i5 : (∀ k, s5.2.deletedOf k = del.2.deletedOf k) ∧
      ((∃ r, s3.1 = some (.ofObject r)) → s5.1 = s3.1) := by
    subst h5
    split
    · rename_i hlen
      have hne : del.1 ≠ [] := by
        intro h0
        rw [h0] at hlen
        simp at hlen
      have h6 := attachList_deleted key del.2 s3.1 { deletedProperties := some del.1 }
        (fun c => { c with deletedProperties := some del.1 }) r3
        (fun e c he hc => (g4 hne e c he hc).symm)
      exact ⟨h6.2.1, h6.2.2⟩
    · exact ⟨fun _ => rfl, fun _ => rfl⟩
  obtain ⟨d5, t5⟩ := i5
  refine ⟨?_, ?_, ?_, ?_⟩
  · rintro ⟨r, hr0⟩
    have e2 := t2 ⟨r, hr0⟩
    have e3 := t3 ⟨r, e2.trans hr0⟩
    have e5 := t5 ⟨r, (e3.trans e2).trans hr0⟩
    exact e5.trans (e3.trans e2)
  · intro k hk
    rw [d5, g1 k hk, d3, d2]
  · intro ds hds
    rw [← d2, ← d3] at hds
    obtain ⟨h7, h8⟩ := g2 ds hds
    exact ⟨del.1, h7, by rw [d5, h8]⟩
  · intro hnone
    rw [← d2, ← d3] at hnone
    rw [d5, g3 hnone, hnone]

/-- The node without children of a definition with a changelog refers to that
changelog as its `typeChangelog`; in the registry after the header the deleted
properties of the entry are resolved and those of the other entries are kept. -/
theorem typeNodeWithoutChildren_deleted (marked : String → String) (fuel : Nat)
    (doc : Registry) (openapiType : Option String) (url : String) (key : String)
    (d : TypeDefinition) (n : Node) (doc5 : Registry)
    (h : typeNodeWithoutChildren marked fuel doc openapiType url = .ok (key, d, n, doc5)) :
    (∀ c, d.changelog = some c → n.attrs.typeChangelog = some (.ofObject (.entry key))) ∧
    (∀ k, k ≠ key → doc5.deletedOf k = doc.deletedOf k) ∧
    (∀ ds, doc.deletedOf key = some ds →
      ∃ rs, resolveSee url ds = .ok rs ∧ doc5.deletedOf key = some rs) ∧
    (doc.deletedOf key = none → doc5.deletedOf key = none) := by
  unfold typeNodeWithoutChildren at h
  obtain ⟨t, ht, h⟩ := (bind_eq_ok _ _ _).1 h
  obtain ⟨key1 , hkey, h⟩ := (bind_eq_ok _ _ _).1 h
  obtain ⟨d1, hd, h⟩ := (bind_eq_ok _ _ _).1 h
  obtain ⟨u, _, h⟩ := (bind_eq_ok _ _ _).1 h
  obtain ⟨isFG, hFG, h⟩ := (bind_eq_ok _ _ _).1 h
  obtain ⟨isOT, _, h⟩ := (bind_eq_ok _ _ _).1 h
  obtain ⟨np, _, h⟩ := (bind_eq_ok _ _ _).1 h
  obtain ⟨mp, _, h⟩ := (bind_eq_ok _ _ _).1 h
  obtain ⟨del, hdel, h⟩ := (bind_eq_ok _ _ _).1 h
  simp only [pure, Except.pure, Except.ok.injEq, Prod.mk.injEq] at h
  obtain ⟨rfl, rfl, hn, hdoc⟩ := h
  have r1 : RefOk key1
      (d1.changelog.map (fun _ => ChangelogRef.ofObject (ObjRef.entry key1))) := by
    intro r hr
    cases hc : d1.changelog with
    | none => rw [hc] at hr; cases hr
    | some c => rw [hc] at hr; cases hr; rfl
  have h1 : ∀ k, (match d1.changelog.bind (fun c => c.details) with
      | some details =>
        doc.modifyChangelog (.entry key1)
          (fun c => { c with details := getHTMLFromMD marked (some details) url })
      | none => doc).deletedOf k = doc.deletedOf k := by
    intro k
    split
    · refine deletedOf_modifyChangelog doc (.entry key1) _ ?_ k
      intro _ _ _ _ _ _
      rfl
    · rfl
  obtain ⟨a1, a2, a3, a4⟩ := header_deleted key1 url _ _ np mp del _ _ _ r1 rfl rfl hdel rfl
  rw [← hdoc, ← hn]
  refine ⟨?_, ?_, ?_, ?_⟩
  · intro c hc
    show _ = some (ChangelogRef.ofObject (ObjRef.entry key1))
    have e1 : d1.changelog.map (fun _ => ChangelogRef.ofObject (ObjRef.entry key1))
        = some (.ofObject (.entry key1)) := by rw [hc]; rfl
    exact (a1 ⟨_, e1⟩).trans e1
  · intro k hk
    rw [a2 k hk, h1]
  · intro ds hds
    rw [← h1] at hds
    exact a3 ds hds
  · intro hnone
    rw [← h1] at hnone
    exact a4 hnone

theorem resolveOne_resolved (url : String) (p p1 : DeletedProperty)
    (h : resolveOne url p = .ok p1) :
    ResolvedEntry url p p1 ∧ resolveOne url p1 = .ok p1 := by
  unfold resolveOne at h
  cases hs : p.see with
  | none =>
    rw [hs] at h
    simp only [pure, Except.pure, Except.ok.injEq] at h
    subst h
    refine ⟨⟨rfl, rfl, rfl, ?_⟩, ?_⟩
    · simp only [hs]
    · unfold resolveOne
      simp only [hs]
      rfl
  | some see =>
    rw [hs] at h
    simp only at h
    obtain ⟨u, hu, h⟩ := (bind_eq_ok _ _ _).1 h
    simp only [pure, Except.pure, Except.ok.injEq] at h
    subst h
    unfold getDocumentationUrl at hu
    simp only at hu
    obtain ⟨a, ha, hu⟩ := (bind_eq_ok _ _ _).1 hu
    simp only [pure, Except.pure, Except.ok.injEq] at hu
    subst hu
    refine ⟨⟨rfl, rfl, hs.symm, ?_⟩, ?_⟩
    · simp only [hs]
      exact ⟨a, ha, rfl⟩
    · unfold resolveOne
      simp only [hs]
      unfold getDocumentationUrl
      simp only [ha, bind, Except.bind, pure, Except.pure]

/-- The list `getDeletedProperties` returns: entry by entry the given list,
resolved; resolving it once more changes nothing. -/
theorem resolveSee_resolved (url : String) (ds rs : List DeletedProperty)
    (h : resolveSee url ds = .ok rs) :
    List.Forall₂ (ResolvedEntry url) ds rs ∧ resolveSee url rs = .ok rs := by
  induction ds generalizing rs with
  | nil =>
    simp only [resolveSee, pure, Except.pure, Except.ok.injEq] at h
    subst h
    exact ⟨List.Forall₂.nil, rfl⟩
  | cons p rest ih =>
    simp only [resolveSee] at h
    obtain ⟨p1, hp1, h⟩ := (bind_eq_ok _ _ _).1 h
    obtain ⟨rest1, hrest1, h⟩ := (bind_eq_ok _ _ _).1 h
    simp only [pure, Except.pure, Except.ok.injEq] at h
    subst h
    obtain ⟨h1, h2⟩ := resolveOne_resolved url p p1 hp1
    obtain ⟨h3, h4⟩ := ih rest1 hrest1
    refine ⟨List.Forall₂.cons h1 h3, ?_⟩
    simp only [resolveSee, h2, h4, bind, Except.bind, pure, Except.pure]

theorem keepsResolved_refl (url : String) (doc : Registry) : KeepsResolved url doc doc :=
  fun _ _ h _ => h

theorem keepsResolved_trans {url : String} {a b c : Registry} (h1 : KeepsResolved url a b)
    (h2 : KeepsResolved url b c) : KeepsResolved url a c :=
  fun k rs h hr => h2 k rs (h1 k rs h hr) hr

theorem typeNodeWithoutChildren_keeps (marked : String → String) (fuel : Nat)
    (doc : Registry) (openapiType : Option String) (url : String) (key : String)
    (d : TypeDefinition) (n : Node) (doc5 : Registry)
    (h : typeNodeWithoutChildren marked fuel doc openapiType url = .ok (key, d, n, doc5)) :
    KeepsResolved url doc doc5 := by
  obtain ⟨_, a2, a3, _⟩ := typeNodeWithoutChildren_deleted _ _ _ _ _ _ _ _ _ h
  intro k rs hk hrs
  by_cases e : k = key
  · subst e
    obtain ⟨rs1, h1, h2⟩ := a3 rs hk
    rw [hrs] at h1
    cases h1
    exact h2
  · rw [a2 k e]
    exact hk

theorem renderDetails_keeps (marked : String → String) (url : String) (doc : Registry)
    (c : Option ChangelogRef) : KeepsResolved url doc (renderDetails marked url doc c).2 := by
  intro k rs hk _
  rw [renderDetails_deleted]
  exact hk

theorem buildChildren_keeps (url : String)
    (build : Registry → FieldRef → Except Err (Node × Registry)) (key : String)
    (hb : ∀ doc ref r, build doc ref = .ok r → KeepsResolved url doc r.2)
    (indices : List Nat) (doc : Registry) (r : List Node × Registry)
    (h : buildChildren build key indices doc = .ok r) : KeepsResolved url doc r.2 := by
  induction indices generalizing doc r with
  | nil =>
    simp only [buildChildren, pure, Except.pure, Except.ok.injEq] at h
    subst h
    exact keepsResolved_refl url doc
  | cons index rest ih =>
    simp only [buildChildren] at h
    obtain ⟨child, hchild, h⟩ := (bind_eq_ok _ _ _).1 h
    obtain ⟨children, hchildren, h⟩ := (bind_eq_ok _ _ _).1 h
    simp only [pure, Except.pure, Except.ok.injEq] at h
    subst h
    exact keepsResolved_trans (hb _ _ _ hchild) (ih _ children hchildren)

theorem pushTechnicalChildren_keeps (url : String)
    (build : Registry → FieldRef → Except Err (Node × Registry))
    (hb : ∀ doc ref r, build doc ref = .ok r → KeepsResolved url doc r.2)
    (ext allowRef : Bool) (node : Node) (doc : Registry) (r : Node × Registry)
    (h : pushTechnicalChildren build ext allowRef node doc = .ok r) :
    KeepsResolved url doc r.2 := by
  unfold pushTechnicalChildren at h
  obtain ⟨s1, hs1, h⟩ := (bind_eq_ok _ _ _).1 h
  have f1 : KeepsResolved url doc s1.2 := by
    rcases pushTechnicalChild_ok _ _ _ _ _ _ hs1 with ⟨_, rfl⟩ | ⟨_, built, cs, hbuilt, _, rfl⟩
    · exact keepsResolved_refl url doc
    · exact hb _ _ built hbuilt
  rcases pushTechnicalChild_ok _ _ _ _ _ _ h with ⟨_, rfl⟩ | ⟨_, built, cs, hbuilt, _, rfl⟩
  · exact f1
  · exact keepsResolved_trans f1 (hb _ _ built hbuilt)

/-- The tree builder keeps the resolved lists of deleted properties of the
registry; a type node carries the properties of its node without children, and
the registry after the build keeps the resolved lists of the registry after
the header. -/
theorem builders_keep (marked : String → String) (url : String) (fuel : Nat) :
    (∀ doc t p w a r, buildNodeFromOpenapiType marked fuel doc t url p w a = .ok r →
      ∃ key d n doc5, typeNodeWithoutChildren marked fuel doc t url = .ok (key, d, n, doc5) ∧
        r.1.attrs = n.attrs ∧ KeepsResolved url doc5 r.2) ∧
    (∀ doc ref p r, buildNodeFromField marked fuel doc ref url p = .ok r →
      KeepsResolved url doc r.2) ∧
    (∀ doc ref p r, buildNodeFromMapField marked fuel doc ref url p = .ok r →
      KeepsResolved url doc r.2) ∧
    (∀ doc ref p r, buildNodeFromArrayOrObjectField marked fuel doc ref url p = .ok r →
      KeepsResolved url doc r.2) := by
  induction fuel with
  | zero =>
    refine ⟨?_, ?_, ?_, ?_⟩
    · intro doc t p w a r h
      simp [buildNodeFromOpenapiType] at h
    · intro doc ref p r h
      simp [buildNodeFromField] at h
    · intro doc ref p r h
      simp [buildNodeFromMapField] at h
    · intro doc ref p r h
      simp [buildNodeFromArrayOrObjectField] at h
  | succ fuel ih =>
    obtain ⟨ihT, ihF, ihM, ihA⟩ := ih
    refine ⟨?_, ?_, ?_, ?_⟩
    · intro doc t p w a r h
      cases w with
      | false =>
        rw [buildNodeFromOpenapiType] at h
        obtain ⟨header, hheader, h⟩ := (bind_eq_ok _ _ _).1 h
        obtain ⟨key, d, n, doc5⟩ := header
        simp only [Bool.false_eq_true, if_false, pure, Except.pure, Except.ok.injEq] at h
        subst h
        exact ⟨key, d, n, doc5, hheader, rfl, keepsResolved_refl url doc5⟩
      | true =>
        obtain ⟨key, d, n, doc5, _, _, _, _, hh, ha, _⟩ :=
          buildNodeFromOpenapiType_ok _ _ _ _ _ _ _ _ h
        refine ⟨key, d, n, doc5, hh, ha, ?_⟩
        rw [buildNodeFromOpenapiType] at h
        obtain ⟨header, hheader, h⟩ := (bind_eq_ok _ _ _).1 h
        rw [hh] at hheader
        cases hheader
        simp only [if_true] at h
        obtain ⟨d5, _, h⟩ := (bind_eq_ok _ _ _).1 h
        obtain ⟨fields, _, h⟩ := (bind_eq_ok _ _ _).1 h
        obtain ⟨children, hchildren, h⟩ := (bind_eq_ok _ _ _).1 h
        have f6 := buildChildren_keeps url _ _ (fun doc ref r hr => ihF doc ref _ r hr) _ _ _
          hchildren
        have f7 := pushTechnicalChildren_keeps url _ (fun doc ref r hr => ihF doc ref _ r hr)
          _ _ _ _ _ h
        exact keepsResolved_trans f6 f7
    · intro doc ref p r h
      rw [buildNodeFromField] at h
      obtain ⟨field, _, h⟩ := (bind_eq_ok _ _ _).1 h
      obtain ⟨type, _, h⟩ := (bind_eq_ok _ _ _).1 h
      split at h
      · exact ihM _ _ _ _ h
      · exact ihA _ _ _ _ h
    · intro doc ref p r h
      rw [buildNodeFromMapField] at h
      obtain ⟨field, _, h⟩ := (bind_eq_ok _ _ _).1 h
      obtain ⟨type, _, h⟩ := (bind_eq_ok _ _ _).1 h
      split at h
      · obtain ⟨mapType, _, h⟩ := (bind_eq_ok _ _ _).1 h
        obtain ⟨isOT, _, h⟩ := (bind_eq_ok _ _ _).1 h
        obtain ⟨child, hchild, h⟩ := (bind_eq_ok _ _ _).1 h
        obtain ⟨node1, _, h⟩ := (bind_eq_ok _ _ _).1 h
        simp only [pure, Except.pure, Except.ok.injEq] at h
        subst h
        exact ihF _ _ _ child hchild
      · cases h
    · intro doc ref p r h
      rw [buildNodeFromArrayOrObjectField] at h
      obtain ⟨field, _, h⟩ := (bind_eq_ok _ _ _).1 h
      obtain ⟨atomic, _, h⟩ := (bind_eq_ok _ _ _).1 h
      obtain ⟨built, hbuilt, h⟩ := (bind_eq_ok _ _ _).1 h
      obtain ⟨type, _, h⟩ := (bind_eq_ok _ _ _).1 h
      simp only [pure, Except.pure, Except.ok.injEq] at h
      subst h
      simp only
      refine keepsResolved_trans ?_ (renderDetails_keeps marked url built.2 _)
      cases atomic with
      | true =>
        simp only [Bool.not_true, Bool.false_eq_true, if_false, pure, Except.pure,
          Except.ok.injEq] at hbuilt
        rw [← hbuilt]
        exact keepsResolved_refl url doc
      | false =>
        simp only [Bool.not_false, if_true] at hbuilt
        obtain ⟨key, d, n, doc5, hh, _, hk⟩ := ihT _ _ _ _ _ _ hbuilt
        exact keepsResolved_trans (typeNodeWithoutChildren_keeps _ _ _ _ _ _ _ _ _ hh) hk

/-- C13: when `buildNodeFromOpenapiType` returns a node for a type whose
definition has a changelog with a list `deletedProperties`, the changelog the
node refers to (`typeChangelog`, read in the registry after the build) holds a
list `deletedProperties` with one entry for every entry of that list, in the
same order: each with the name, the description and the `see` reference of the
given entry, and, when the entry has a `see` reference, with the
`documentationUrl` `url + "#" + getAnchorForType(see)`. -/
theorem deletedProperties_resolved (marked : String → String) (fuel : Nat) (doc : Registry)
    (t url : String) (p : Option Node) (w a : Bool) (r : Node × Registry) (key : String)
    (d : TypeDefinition) (c : Changelog) (ds : List DeletedProperty)
    (h : buildNodeFromOpenapiType marked fuel doc (some t) url p w a = .ok r)
    (hkey : getOpenapiTypeName t = .ok key) (hd : doc.get key = some d)
    (hc : d.changelog = some c) (hds : c.deletedProperties = some ds) :
    ∃ rs,
      (r.1.attrs.typeChangelog.bind (ChangelogRef.read r.2)).bind
          (fun c1 => c1.deletedProperties) = some rs ∧
      List.Forall₂ (ResolvedEntry url) ds rs := by
  obtain ⟨key1, d1, n, doc5, hh, ha, hk⟩ := (builders_keep marked url fuel).1 _ _ _ _ _ _ h
  obtain ⟨_, ⟨t1, ht1, hk1⟩, hd1, _⟩ := typeNodeWithoutChildren_ok _ _ _ _ _ _ _ _ _ hh
  cases ht1
  rw [hkey] at hk1
  cases hk1
  rw [hd] at hd1
  cases hd1
  obtain ⟨a1, _, a3, _⟩ := typeNodeWithoutChildren_deleted _ _ _ _ _ _ _ _ _ hh
  have e0 : doc.deletedOf key = some ds := by
    unfold Registry.deletedOf
    rw [hd]
    simp [hc, hds]
  obtain ⟨rs, h1, h2⟩ := a3 ds e0
  obtain ⟨h3, h4⟩ := resolveSee_resolved url ds rs h1
  have h5 := hk key rs h2 h4
  refine ⟨rs, ?_, h3⟩
  rw [ha, a1 c hc]
  unfold Registry.deletedOf at h5
  simp only [Option.some_bind, ChangelogRef.read, Registry.readObject]
  cases he : r.2.get key with
  | none => rw [he] at h5; cases h5
  | some e =>
    rw [he] at h5
    exact h5

/-- C13 at `changelogRegistry`, whose root type has the deleted property `old`
with the `see` reference `Contact Object`. -/
theorem deletedProperties_resolved_witness :
    ∃ rs,
      (changelogTree.attrs.typeChangelog.bind (ChangelogRef.read changelogRegistryAfter)).bind
          (fun c1 => c1.deletedProperties) = some rs ∧
      List.Forall₂ (ResolvedEntry "https://spec")
        [{ name := some "old", see := some "Contact Object" }] rs :=
  deletedProperties_resolved paragraph 3 changelogRegistry "Root" "https://spec" none true
    false (changelogTree, changelogRegistryAfter) "Root"
    { changelog := some
        { details := some "renamed"
          deletedProperties := some [{ name := some "old", see := some "Contact Object" }] }
      fields := some
        [{ name := some "a", type := some "string",
           changelog := some { isNew := some true, details := some "added" } }] }
    { details := some "renamed"
      deletedProperties := some [{ name := some "old", see := some "Contact Object" }] }
    [{ name := some "old", see := some "Contact Object" }]
    (by decide!) (by decide!) (by decide!) rfl rfl

/-! ## The children of a type node and fields groups (C1), amended -/

/-- C1, amended: a type node built with children has one child for every
declared field of the definition, in the order of the declared fields and
carrying their names, followed by at most two technical children.  A field
whose type is the name of a fields group, written as the name itself (the
expression is its own type name), has a child of its own, flagged
`isFieldsGroup`; unless the field says `noFollow`, the first children of that
child are those of the declared fields of the group. -/
theorem children_follow_declared_fields (marked : String → String) (fuel : Nat)
    (doc : Registry) (t : String) (url : String) (p : Option Node) (a : Bool)
    (r : Node × Registry) (key : String) (d : TypeDefinition) (fields : List Field)
    (h : buildNodeFromOpenapiType marked (fuel + 1) doc (some t) url p true a = .ok r)
    (hkey : getOpenapiTypeName t = .ok key) (hd : doc.get key = some d)
    (hfields : d.fields = some fields) :
    ∃ children technical : List Node,
      r.1.closedChildren = some (children ++ technical) ∧
      technical.length ≤ 2 ∧
      children.map (fun c => c.attrs.name) = fields.map (fun f => f.name) ∧
      ∀ (i : Nat) (field : Field) (child : Node) (gk : String) (G : TypeDefinition),
        fields[i]? = some field → children[i]? = some child →
        field.type = some gk → getOpenapiTypeName gk = .ok gk →
        doc.get gk = some G → G.fieldsGroup = some true →
        child.attrs.isFieldsGroup = some true ∧
        (field.noFollow ≠ some true → ∀ gfields : List Field, G.fields = some gfields →
          ∃ gchildren gtechnical : List Node,
            child.closedChildren = some (gchildren ++ gtechnical) ∧
            gchildren.map (fun c => c.attrs.name) = gfields.map (fun f => f.name)) := by
  obtain ⟨n, children, extPart, refPart, _, hc, hall, hnames, hext, href⟩ :=
    typeNode_children _ _ _ _ _ _ _ _ _ _ _ h hkey hd hfields
  refine ⟨children, extPart ++ refPart, hc, ?_, hnames, ?_⟩
  · have h1 : extPart.length ≤ 1 := by
      rcases hext with ⟨_, rfl⟩ | ⟨_, _, _, _, _, rfl⟩ <;> simp
    have h2 : refPart.length ≤ 1 := by
      rcases href with ⟨_, rfl⟩ | ⟨_, _, _, _, _, rfl⟩ <;> simp
    rw [List.length_append]
    omega
  · intro i field child gk G hfi hci hty hgk hG hfg
    have hmap : isMap gk = false :=
      not_mem_of_pureName (pureName_of_getOpenapiTypeName hgk) _ (by decide)
    obtain ⟨_, hidx⟩ := forall₂_range_index hall
    obtain ⟨d0, b, hd0, hb, hbc⟩ := hidx i child hci
    have h1 : doc.readField (.stored (.field key i)) = some field := by
      rw [readField_declared doc key d fields hd hfields, hfi]
    obtain ⟨field0, hf0, hfr⟩ := readField_of_frame_eq hd0 _ _ h1
    have hty0 : field0.type = some gk := by rw [frame_type hfr, hty]
    have hG0 := get_of_frame_eq hd0 gk
    rw [hG] at hG0
    cases hg : d0.get gk with
    | none => rw [hg] at hG0; cases hG0
    | some G0 =>
      rw [hg] at hG0
      simp only [Option.map_some', Option.some.injEq] at hG0
      obtain ⟨⟨b1, hb1, hb2⟩, hkids⟩ :=
        fieldNode_of_registry_type _ _ _ _ _ _ _ field0 gk gk G0 hb hf0 hty0 hmap hgk hg
      have hfg0 : G0.fieldsGroup = some true := by
        rw [← frame_fieldsGroup, hG0, frame_fieldsGroup, hfg]
      have : b1 = true := by
        unfold isFieldsGroup at hb1
        simp only [defined, bind, Except.bind, hgk, hg, hfg0, pure, Except.pure,
          Except.ok.injEq] at hb1
        exact hb1.symm
      subst this
      rw [← hbc]
      refine ⟨hb2, fun hnf gfields hgf => ?_⟩
      obtain ⟨e0, gfields0, he0, hgf0, hfr0, _⟩ :=
        fields_of_frame_eq hd0 gk G gfields hG hgf
      rw [hg] at he0
      cases he0
      obtain ⟨gchildren, gtech, hgc, hgn⟩ :=
        hkids (by rw [frame_noFollow hfr]; exact hnf) gfields0 hgf0
      exact ⟨gchildren, gtech, hgc, hgn.trans (map_name_of_map_frame hfr0)⟩

/-- C1, amended, at `groupRegistry`: the three children of `groupTree` carry
the names of the three declared fields of `Root`, and the child of the field
`g`, of the type `Group`, is flagged `isFieldsGroup`. -/
theorem children_follow_declared_fields_witness :
    ∃ children technical : List Node,
      groupTree.closedChildren = some (children ++ technical) ∧
      technical.length ≤ 2 ∧
      children.map (fun c => c.attrs.name) = [some "a", some "g", some "b"] ∧
      ∀ (i : Nat) (field : Field) (child : Node) (gk : String) (G : TypeDefinition),
        [({ name := some "a", type := some "string" } : Field),
          { name := some "g", type := some "Group" },
          { name := some "b", type := some "string" }][i]? = some field →
        children[i]? = some child →
        field.type = some gk → getOpenapiTypeName gk = .ok gk →
        groupRegistry.get gk = some G →
        G.fieldsGroup = some true →
        child.attrs.isFieldsGroup = some true ∧
        (field.noFollow ≠ some true → ∀ gfields : List Field, G.fields = some gfields →
          ∃ gchildren gtechnical : List Node,
            child.closedChildren = some (gchildren ++ gtechnical) ∧
            gchildren.map (fun c => c.attrs.name) = gfields.map (fun f => f.name)) :=
  children_follow_declared_fields id 5 groupRegistry "Root" "https://spec" none false
    (groupTree, groupRegistry) "Root"
    { fields := some
        [{ name := some "a", type := some "string" },
         { name := some "g", type := some "Group" },
         { name := some "b", type := some "string" }] }
    _ (by decide!) (by decide!) (by decide!) rfl

/-! ## The parent changelog (C17) -/

/-- The node without children has no `parentChangelog`. -/
theorem typeNodeWithoutChildren_parentChangelog (marked : String → String) (fuel : Nat)
    (doc : Registry) (openapiType : Option String) (url : String) (key : String)
    (d : TypeDefinition) (n : Node) (doc5 : Registry)
    (h : typeNodeWithoutChildren marked fuel doc openapiType url = .ok (key, d, n, doc5)) :
    n.attrs.parentChangelog = none := by
  unfold typeNodeWithoutChildren at h
  obtain ⟨t, ht, h⟩ := (bind_eq_ok _ _ _).1 h
  obtain ⟨key1, hkey, h⟩ := (bind_eq_ok _ _ _).1 h
  obtain ⟨d1, hd, h⟩ := (bind_eq_ok _ _ _).1 h
  obtain ⟨u, _, h⟩ := (bind_eq_ok _ _ _).1 h
  obtain ⟨isFG, hFG, h⟩ := (bind_eq_ok _ _ _).1 h
  obtain ⟨isOT, _, h⟩ := (bind_eq_ok _ _ _).1 h
  obtain ⟨np, _, h⟩ := (bind_eq_ok _ _ _).1 h
  obtain ⟨mp, _, h⟩ := (bind_eq_ok _ _ _).1 h
  obtain ⟨del, hdel, h⟩ := (bind_eq_ok _ _ _).1 h
  simp only [pure, Except.pure, Except.ok.injEq, Prod.mk.injEq] at h
  obtain ⟨rfl, rfl, hn, hdoc⟩ := h
  rw [← hn]
  rfl

/-- The node `buildNodeFromField` returns below a parent node that has no
`changelog`, or without a parent node, has no `parentChangelog`. -/
theorem buildNodeFromField_parentChangelog_none (marked : String → String) (fuel : Nat)
    (doc : Registry) (ref : FieldRef) (url : String) (p : Option Node) (r : Node × Registry)
    (hp : ∀ q, p = some q → q.attrs.changelog = none)
    (h : buildNodeFromField marked fuel doc ref url p = .ok r) :
    r.1.attrs.parentChangelog = none := by
  cases fuel with
  | zero => simp [buildNodeFromField] at h
  | succ fuel =>
    obtain ⟨field1, type1, hf1, ht1, h | h⟩ := buildNodeFromField_ok _ _ _ _ _ _ _ h
    · obtain ⟨_, h⟩ := h
      cases fuel with
      | zero => simp [buildNodeFromMapField] at h
      | succ fuel =>
        obtain ⟨_, _, _, par, _, _, _, _, _, _, _, _, _, _, ha, _⟩ :=
          buildNodeFromMapField_inv _ _ _ _ _ _ _ h
        rw [buildNodeFromMapField] at h
        obtain ⟨field, hfield, h⟩ := (bind_eq_ok _ _ _).1 h
        obtain ⟨type, htype, h⟩ := (bind_eq_ok _ _ _).1 h
        split at h
        · obtain ⟨mapType, hmt, h⟩ := (bind_eq_ok _ _ _).1 h
          obtain ⟨isOT, _, h⟩ := (bind_eq_ok _ _ _).1 h
          obtain ⟨child, hchild, h⟩ := (bind_eq_ok _ _ _).1 h
          obtain ⟨node1, hnode1, h⟩ := (bind_eq_ok _ _ _).1 h
          simp only [pure, Except.pure, Except.ok.injEq] at h
          subst h
          obtain ⟨ha1, _⟩ := push_attrs _ _ _ hnode1
          simp only [ha1]
          rfl
        · cases h
    · obtain ⟨_, h⟩ := h
      cases fuel with
      | zero => simp [buildNodeFromArrayOrObjectField] at h
      | succ fuel =>
        obtain ⟨field2, type2, atomic, built, hf2, ht2, _, hat, hnat, hr⟩ :=
          buildNodeFromArrayOrObjectField_ok _ _ _ _ _ _ _ h
        rw [hr, update_attrs]
        cases p with
        | some q => exact hp q rfl
        | none =>
          show built.1.attrs.parentChangelog = none
          cases atomic with
          | true =>
            rw [hat rfl]
            rfl
          | false =>
            have hb := hnat rfl
            cases fuel with
            | zero => simp [buildNodeFromOpenapiType] at hb
            | succ fuel =>
              obtain ⟨key, d, n, doc5, hh, ha⟩ :=
                buildNodeFromOpenapiType_attrs _ _ _ _ _ _ _ _ _ hb
              rw [ha]
              exact typeNodeWithoutChildren_parentChangelog _ _ _ _ _ _ _ _ _ hh

theorem forall₂_right {α β : Type} {R : α → β → Prop} {P : β → Prop} {l1 : List α}
    {l2 : List β} (h : List.Forall₂ R l1 l2) (hR : ∀ a b, R a b → P b) :
    ∀ b ∈ l2, P b := by
  induction h with
  | nil => intro b hb; cases hb
  | cons hab _ ih =>
    intro b hb
    rcases List.mem_cons.1 hb with rfl | hb
    · exact hR _ _ hab
    · exact ih b hb

/-- No child of a type node built with children has a `parentChangelog`. -/
theorem typeNode_children_parentChangelog (marked : String → String) (fuel : Nat)
    (doc : Registry) (t : Option String) (url : String) (p : Option Node) (a : Bool)
    (r : Node × Registry)
    (h : buildNodeFromOpenapiType marked fuel doc t url p true a = .ok r) :
    ∃ cs, r.1.closedChildren = some cs ∧ ∀ c ∈ cs, c.attrs.parentChangelog = none := by
  cases fuel with
  | zero => simp [buildNodeFromOpenapiType] at h
  | succ fuel =>
    obtain ⟨key, d, n, doc5, fields, children, extPart, refPart, hh, _, _, hc, hall, hext,
      href⟩ := buildNodeFromOpenapiType_ok _ _ _ _ _ _ _ _ h
    obtain ⟨_, _, _, _, hncl, _⟩ := typeNodeWithoutChildren_ok _ _ _ _ _ _ _ _ _ hh
    refine ⟨_, hc, ?_⟩
    have h1 : ∀ c ∈ children, c.attrs.parentChangelog = none := by
      refine forall₂_right hall ?_
      rintro i c ⟨d0, b, _, hb, rfl⟩
      exact buildNodeFromField_parentChangelog_none _ _ _ _ _ _ _
        (fun q hq => by cases hq; exact hncl) hb
    have h2 : ∀ (k : String) (cond : Bool) (part : List Node),
        TechnicalPart marked fuel doc url k cond part →
        ∀ c ∈ part, c.attrs.parentChangelog = none := by
      intro k cond part hpart c hcm
      rcases hpart with ⟨_, rfl⟩ | ⟨_, d0, b, _, hb, rfl⟩
      · cases hcm
      · simp only [List.mem_singleton] at hcm
        subst hcm
        rw [update_attrs]
        exact buildNodeFromField_parentChangelog_none _ _ _ _ _ _ _
          (fun q hq => by cases hq) hb
    intro c hcm
    rcases List.mem_append.1 hcm with hcm | hcm
    · exact h1 c hcm
    · rcases List.mem_append.1 hcm with hcm | hcm
      · exact h2 _ _ _ hext c hcm
      · exact h2 _ _ _ href c hcm

/-- C17, the code at failing inputs.  In the tree `buildTree` returns for
`changelogRegistry`, the root type node has the merged changelog
`typeChangelog`, a reference to the changelog of the entry `Root`, and its
child `a`, built by the array-or-object builder, has no `parentChangelog` (it
is `undefined`).  In the tree for `nestedRegistry` the node of the field `c`
has a `changelog` (that of the field) and a `typeChangelog` (that of the type
`Child`), and its child `x` has no `parentChangelog` either: the `changelog` of
the node `c` is assigned after its children are built.  In general no child of
a type node built with children has a `parentChangelog`.  The map builder, in
contrast, assigns the `changelog` of the map node before it builds the item
child, which gets it as its `parentChangelog`. -/
theorem parentChangelog_below_typeNode :
    buildTree paragraph 3 changelogRegistry "Root" "https://spec"
      = .ok (changelogTree, changelogRegistryAfter) ∧
    changelogTree.attrs.typeChangelog = some (.ofObject (.entry "Root")) ∧
    (changelogTree.attrs.typeChangelog.bind (ChangelogRef.read changelogRegistryAfter)).isSome
      = true ∧
    changelogTree.closedChildren.map (List.map (fun c => c.attrs.parentChangelog))
      = some [none] ∧
    buildTree id 6 nestedRegistry "Root" "https://spec" = .ok (nestedTree, nestedRegistry) ∧
    nestedTree.closedChildren.map (List.map (fun c => c.attrs.changelog))
      = some [some (.ofObject (.field "Root" 0))] ∧
    nestedTree.closedChildren.map (List.map (fun c => c.attrs.typeChangelog))
      = some [some (.ofObject (.entry "Child"))] ∧
    nestedTree.closedChildren.map (List.map (fun c =>
        c.closedChildren.map (List.map (fun x => x.attrs.parentChangelog))))
      = some [some [none]] ∧
    (∀ (marked : String → String) (fuel : Nat) (doc : Registry) (t : Option String)
      (url : String) (p : Option Node) (a : Bool) (r : Node × Registry),
      buildNodeFromOpenapiType marked fuel doc t url p true a = .ok r →
      ∃ cs, r.1.closedChildren = some cs ∧ ∀ c ∈ cs, c.attrs.parentChangelog = none) ∧
    (∀ (marked : String → String) (fuel : Nat) (doc : Registry) (ref : FieldRef)
      (url : String) (p : Option Node) (r : Node × Registry),
      buildNodeFromMapField marked fuel doc ref url p = .ok r →
      ∃ field child, doc.readField ref = some field ∧
        r.1.closedChildren = some [child] ∧
        r.1.attrs.changelog = changelogRefOf ref field ∧
        child.attrs.parentChangelog = r.1.attrs.changelog) := by
  refine ⟨by decide!, by decide!, by decide!, by decide!, by decide!, by decide!, by decide!,
    by decide!, ?_, ?_⟩
  · intro marked fuel doc t url p a r h
    exact typeNode_children_parentChangelog marked fuel doc t url p a r h
  · intro marked fuel1 doc1 ref1 url p1 r1 h1
    cases fuel1 with
    | zero => simp [buildNodeFromMapField] at h1
    | succ fuel1 =>
      obtain ⟨field, type, m, par, item, child, hfield, _, hm, _, hity, _, _, hchild, _, ha,
        hcs, _, _, _, hcl⟩ := buildNodeFromMapField_inv _ _ _ _ _ _ _ h1
      obtain ⟨_, hpure, htrim⟩ := getMapType_ok hm
      obtain ⟨_, _, hpc⟩ := buildNodeFromField_of_pure marked fuel1 doc1 (.item item) url
        (some par) (child, r1.2) item m.type rfl hity hpure htrim hchild
      refine ⟨field, child, hfield, hcs, hcl, ?_⟩
      rw [ha]
      exact hpc par rfl

end OpenapiMap
